import Mathlib

/-!
Verification of the SIL code-motion pass (SILCodeMotion.cpp) against its
specification.  The development shallowly embeds the pass: SSA values are
natural numbers, instructions and terminators are first-order data, basic
blocks are lists of instructions ending in a terminator, and the external
analyses (alias analysis, RC-identity, post-order) are oracles passed as
parameters, mirroring the narrow interfaces the pass consumes.
-/

set_option maxRecDepth 4000

namespace SILCodeMotion

/-- An SSA value handle. -/
abbrev Value := Nat

/-- An enum case (EnumElementDecl) together with the type facts the pass
queries about its payload. -/
structure EnumCase where
  caseId : Nat
  hasArgumentType : Bool
  payloadTrivial : Bool
  payloadRefCounted : Bool
deriving DecidableEq

/-- The type facts the pass queries about a value's type. -/
structure Ty where
  isReferenceCounted : Bool
  isBuiltinInteger : Bool
  enumElems : Option (List EnumCase)
deriving DecidableEq

/-- Instruction opcodes, carrying all non-operand attributes. -/
inductive Opcode where
  | strongRetain
  | strongRelease
  | retainValue
  | releaseValue
  | enumCtor (c : EnumCase)
  | uncheckedEnumData (c : EnumCase)
  | selectEnum (trueElt : Option EnumCase)
  | structCtor (tyId : Nat)
  | unownedToRef
  | literal (val : Nat)
  | alloc (code : Nat)
  | generic (code : Nat) (sideEffects readsMem : Bool)
deriving DecidableEq

/-- Whether the instruction may have side effects (mayHaveSideEffects). -/
def Opcode.sideEffects : Opcode → Bool
  | .strongRetain | .strongRelease | .retainValue | .releaseValue => true
  | .alloc _ => true
  | .generic _ se _ => se
  | _ => false

/-- Whether the instruction may read from memory (mayReadFromMemory). -/
def Opcode.readsMem : Opcode → Bool
  | .generic _ _ rm => rm
  | _ => false

/-- Whether the instruction is an AllocationInst. -/
def Opcode.isAllocation : Opcode → Bool
  | .alloc _ => true
  | _ => false

/-- A non-terminator instruction: identity, opcode, operand values and
optional result value. -/
structure Inst where
  id : Nat
  opcode : Opcode
  operands : List Value
  result : Option Value
deriving DecidableEq

/-- Block terminators. -/
inductive Term where
  | branch (dest : Nat) (args : List Value)
  | condBranch (cond : Value) (tDest : Nat) (tArgs : List Value) (fDest : Nat) (fArgs : List Value)
  | switchEnum (op : Value) (cases : List (EnumCase × Nat)) (dflt : Option Nat)
  | checkedCastBranch (op : Value) (sDest fDest : Nat)
  | ret (op : Value)
  | unreachable
deriving DecidableEq

/-- A basic block: identity, argument values, instruction list and terminator. -/
structure Block where
  id : Nat
  args : List Value
  insts : List Inst
  term : Term
deriving DecidableEq

/-- A SIL function: a list of basic blocks. -/
structure Fn where
  blocks : List Block
deriving DecidableEq

/-- Successor block ids of a terminator, in successor-list order. -/
def Term.succs : Term → List Nat
  | .branch d _ => [d]
  | .condBranch _ t _ f _ => [t, f]
  | .switchEnum _ cases dflt =>
      cases.map Prod.snd ++ (match dflt with | some d => [d] | none => [])
  | .checkedCastBranch _ s f => [s, f]
  | .ret _ => []
  | .unreachable => []

/-- The operand list of a terminator (TermInst::getOperand numbering:
for cond_br the condition is operand 0, then the true arguments, then the
false arguments). -/
def Term.operandsList : Term → List Value
  | .branch _ args => args
  | .condBranch c _ t _ f => c :: (t ++ f)
  | .switchEnum op _ _ => [op]
  | .checkedCastBranch op _ _ => [op]
  | .ret op => [op]
  | .unreachable => []

/-- Set the n-th operand of a terminator (same numbering as operandsList). -/
def Term.setOperandAt : Term → Nat → Value → Term
  | .branch d args, n, v => .branch d (args.set n v)
  | .condBranch c t ta f fa, n, v =>
      if n = 0 then .condBranch v t ta f fa
      else if n - 1 < ta.length then .condBranch c t (ta.set (n - 1) v) f fa
      else .condBranch c t ta f (fa.set (n - 1 - ta.length) v)
  | .switchEnum op cs d, n, v => if n = 0 then .switchEnum v cs d else .switchEnum op cs d
  | .checkedCastBranch op s f, n, v =>
      if n = 0 then .checkedCastBranch v s f else .checkedCastBranch op s f
  | .ret op, n, v => if n = 0 then .ret v else .ret op
  | .unreachable, _, _ => .unreachable

/-- Map every value used by a terminator. -/
def Term.mapValues (g : Value → Value) : Term → Term
  | .branch d args => .branch d (args.map g)
  | .condBranch c t ta f fa => .condBranch (g c) t (ta.map g) f (fa.map g)
  | .switchEnum op cs d => .switchEnum (g op) cs d
  | .checkedCastBranch op s f => .checkedCastBranch (g op) s f
  | .ret op => .ret (g op)
  | .unreachable => .unreachable

/-- Number of occurrences of a value in a list of values. -/
def countOcc (v : Value) : List Value → Nat
  | [] => 0
  | x :: t => (if x = v then 1 else 0) + countOcc v t

/-- All values used (as operands) inside a block: instruction operands and
terminator operands.  Block arguments are definitions, not uses. -/
def Block.usedValues (b : Block) : List Value :=
  (b.insts.map Inst.operands).flatten ++ b.term.operandsList

/-- All values used in a function. -/
def Fn.usedValues (f : Fn) : List Value :=
  (f.blocks.map Block.usedValues).flatten

/-- Number of uses of a value in a function. -/
def usesOf (f : Fn) (v : Value) : Nat :=
  countOcc v f.usedValues

/-- Find a block by id (blocks have unique ids in well-formed functions). -/
def findBlockIn : List Block → Nat → Option Block
  | [], _ => none
  | b :: t, bid => if b.id = bid then some b else findBlockIn t bid

def Fn.findBlock (f : Fn) (bid : Nat) : Option Block := findBlockIn f.blocks bid

/-- Find an instruction by id inside a list. -/
def findInstIn : List Inst → Nat → Option Inst
  | [], _ => none
  | i :: t, iid => if i.id = iid then some i else findInstIn t iid

/-- Find an instruction by id anywhere in the function. -/
def findInstFn (f : Fn) (iid : Nat) : Option Inst :=
  f.blocks.foldr (fun b acc => match findInstIn b.insts iid with
    | some i => some i
    | none => acc) none

/-- Find an instruction by id inside a specific block. -/
def findInstInBlock (f : Fn) (bid iid : Nat) : Option Inst :=
  match f.findBlock bid with
  | some b => findInstIn b.insts iid
  | none => none

/-- Apply a function to every block with the given id. -/
def mapBlockById (f : Fn) (bid : Nat) (g : Block → Block) : Fn :=
  ⟨f.blocks.map (fun b => if b.id = bid then g b else b)⟩

/-- Erase the instruction with the given id from the function. -/
def eraseInst (f : Fn) (iid : Nat) : Fn :=
  ⟨f.blocks.map (fun b => { b with insts := b.insts.filter (fun i => ¬ i.id = iid) })⟩

/-- Value substitution used by replaceAllUsesWith. -/
def substV (a b x : Value) : Value := if x = a then b else x

/-- Replace all uses of value a with value b (replaceAllUsesWith). -/
def replaceAllUses (f : Fn) (a b : Value) : Fn :=
  ⟨f.blocks.map (fun blk =>
    { blk with
      insts := blk.insts.map (fun i => { i with operands := i.operands.map (substV a b) })
      term := blk.term.mapValues (substV a b) })⟩

/-- Apply a function to every instruction with the given id. -/
def mapInstById (f : Fn) (iid : Nat) (g : Inst → Inst) : Fn :=
  ⟨f.blocks.map (fun b =>
    { b with insts := b.insts.map (fun i => if i.id = iid then g i else i) })⟩

/-- Set operand idx of the instruction with the given id. -/
def setInstOperand (f : Fn) (iid idx : Nat) (v : Value) : Fn :=
  mapInstById f iid (fun i => { i with operands := i.operands.set idx v })

/-- Insert new instructions right before the instruction with the given id. -/
def insertBeforeIn (beforeId : Nat) (new : List Inst) : List Inst → List Inst
  | [] => []
  | i :: t => if i.id = beforeId then new ++ i :: t else i :: insertBeforeIn beforeId new t

def insertBeforeInst (f : Fn) (beforeId : Nat) (new : List Inst) : Fn :=
  ⟨f.blocks.map (fun b => { b with insts := insertBeforeIn beforeId new b.insts })⟩

/-- Append instructions at the end of a block (i.e. before its terminator). -/
def appendInsts (f : Fn) (bid : Nat) (new : List Inst) : Fn :=
  mapBlockById f bid (fun b => { b with insts := b.insts ++ new })

/-- Insert instructions at the beginning of a block. -/
def consInsts (f : Fn) (bid : Nat) (new : List Inst) : Fn :=
  mapBlockById f bid (fun b => { b with insts := new ++ b.insts })

/-- Relink an instruction directly before another instruction. -/
def moveInstBeforeInst (f : Fn) (iid beforeId : Nat) : Fn :=
  if iid = beforeId then f
  else match findInstFn f iid with
    | some i => insertBeforeInst (eraseInst f iid) beforeId [i]
    | none => f

/-- Relink an instruction to the front of a block (moveBefore(&*BB->begin())). -/
def moveToBlockFront (f : Fn) (iid destId : Nat) : Fn :=
  match findInstFn f iid with
  | some i => consInsts (eraseInst f iid) destId [i]
  | none => f

/-- Relink an instruction to just before a block's terminator. -/
def moveBeforeTerm (f : Fn) (iid bid : Nat) : Fn :=
  match findInstFn f iid with
  | some i => appendInsts (eraseInst f iid) bid [i]
  | none => f

/-- Predecessor list of a block, with one entry per terminator edge
(pred_begin/pred_end order is modelled as function block order). -/
def predsOf (f : Fn) (bid : Nat) : List Nat :=
  f.blocks.foldr (fun b acc => List.replicate (countOcc bid b.term.succs) b.id ++ acc) []

/-- getSinglePredecessor. -/
def singlePredOf (f : Fn) (bid : Nat) : Option Nat :=
  match predsOf f bid with
  | [p] => some p
  | _ => none

/-- getSingleSuccessor. -/
def singleSuccOf (f : Fn) (bid : Nat) : Option Nat :=
  match f.findBlock bid with
  | some b => match b.term.succs with
    | [s] => some s
    | _ => none
  | none => none

/-- The instruction defining a value, if any. -/
def defOf (f : Fn) (v : Value) : Option Inst :=
  f.blocks.foldr (fun b acc =>
    match b.insts.find? (fun i => i.result = some v) with
    | some i => some i
    | none => acc) none

/-- The block in which a value is born: as a block argument or as an
instruction result (Value::getParentBB). -/
def parentBlockOfValue (f : Fn) (v : Value) : Option Nat :=
  f.blocks.foldr (fun b acc =>
    if v ∈ b.args then some b.id
    else if b.insts.any (fun i => i.result = some v) then some b.id
    else acc) none

/-- If the value is a block argument, its parent block and argument index. -/
def blockArgIndex (f : Fn) (v : Value) : Option (Block × Nat) :=
  f.blocks.foldr (fun b acc =>
    match b.args.indexOf? v with
    | some i => some (b, i)
    | none => acc) none

/-- The list of instructions strictly before the given instruction in a list. -/
def beforeInst (iid : Nat) : List Inst → List Inst
  | [] => []
  | i :: t => if i.id = iid then [] else i :: beforeInst iid t

/-- The sublist starting at the given instruction (inclusive). -/
def fromInst (iid : Nat) : List Inst → List Inst
  | [] => []
  | i :: t => if i.id = iid then i :: t else fromInst iid t

/-- The sublist strictly after the given instruction. -/
def afterInst (iid : Nat) (l : List Inst) : List Inst :=
  (fromInst iid l).drop 1

/-- The range [startId, endId): from startId inclusive up to (but excluding)
the instruction endId; if endId is none the range runs to the end of the
list (i.e. up to the terminator). -/
def rangeFromTo (startId : Nat) (endId : Option Nat) (l : List Inst) : List Inst :=
  match endId with
  | none => fromInst startId l
  | some e => (fromInst startId l).takeWhile (fun i => ¬ i.id = e)

/-- Alias-analysis and RC-check oracle interface.

Modelled from the spec: `AliasAnalysis.valueHasARCDecrementOrCheckInInstructionRange`
and `AliasAnalysis.valueHasARCUsesInInstructionRange` are external analyses;
only their per-instruction answers are consumed, so they are modelled as
boolean oracles over (value, instruction) pairs. -/
structure AA where
  decOrCheck : Value → Inst → Bool
  arcUse : Value → Inst → Bool

/-- Modelled from the spec: returns the first instruction in the range that
may decrement or RC-check the value, else none. -/
def valueHasARCDecrementOrCheckInInstructionRange (aa : AA) (v : Value)
    (range : List Inst) : Option Inst :=
  range.find? (fun i => aa.decOrCheck v i)

/-- Modelled from the spec: whether some instruction in the range is an ARC
use of the value. -/
def valueHasARCUsesInInstructionRange (aa : AA) (v : Value)
    (range : List Inst) : Bool :=
  range.any (fun i => aa.arcUse v i)

/-- RC-identity oracle: getRCIdentityRoot. -/
abbrev RCIA := Value → Value

/-- Statistics counters of the pass. -/
structure Stats where
  numSunk : Nat
  numRefCountOpsSimplified : Nat
  numHoisted : Nat
deriving DecidableEq

def Stats.zero : Stats := ⟨0, 0, 0⟩

def Stats.add (a b : Stats) : Stats :=
  ⟨a.numSunk + b.numSunk, a.numRefCountOpsSimplified + b.numRefCountOpsSimplified,
   a.numHoisted + b.numHoisted⟩

instance : Add Stats := ⟨Stats.add⟩

def Stats.sum (s : Stats) : Nat :=
  s.numSunk + s.numRefCountOpsSimplified + s.numHoisted

/-- An insertion-ordered blottable map (BlotMapVector): a vector of optional
slots; blotting nulls the slot in place, so iteration retains positions while
lookup reads the key as absent. -/
structure BlotMap (α β : Type) where
  slots : List (Option (α × β))
deriving DecidableEq

namespace BlotMap

variable {α β : Type} [DecidableEq α]

def empty : BlotMap α β := ⟨[]⟩

def getItems (m : BlotMap α β) : List (Option (α × β)) := m.slots

def findIn (k : α) : List (Option (α × β)) → Option β
  | [] => none
  | none :: t => findIn k t
  | some (a, b) :: t => if a = k then some b else findIn k t

/-- Lookup: blotted and missing keys both read as absent. -/
def find (m : BlotMap α β) (k : α) : Option β := findIn k m.slots

def insertIn (k : α) (v : β) : List (Option (α × β)) → List (Option (α × β))
  | [] => [some (k, v)]
  | none :: t => none :: insertIn k v t
  | some (a, b) :: t =>
      if a = k then some (a, v) :: t else some (a, b) :: insertIn k v t

/-- operator[]-style insert: update the live slot if the key is live,
otherwise append a fresh slot at the end. -/
def insert (m : BlotMap α β) (k : α) (v : β) : BlotMap α β := ⟨insertIn k v m.slots⟩

/-- Blot a key: null out its live slot, preserving iteration order. -/
def blot (m : BlotMap α β) (k : α) : BlotMap α β :=
  ⟨m.slots.map (fun s => match s with
    | some (a, b) => if a = k then none else some (a, b)
    | none => none)⟩

def clear : BlotMap α β := ⟨[]⟩

/-- The live keys of the map, in slot order. -/
def liveKeys (m : BlotMap α β) : List α :=
  m.slots.filterMap (fun s => s.map Prod.fst)

end BlotMap

/-- createRefCountOpForPayload: given a retain-or-release instruction I and
an enum case with a payload, build the instructions the SILBuilder would
emit before I: an UncheckedEnumData extracting the payload from the enum
value (the explicit DefOfEnum if given, else I's operand 0); then, if the
payload type is non-trivial, a matching retain or release — strong if the
payload is reference counted.  Returns the created instructions, the next
fresh id and the statistics delta (NumRefCountOpsSimplified). -/
def createRefCountOpForPayload (I : Inst) (enumDecl : EnumCase)
    (defOfEnum : Option Value) (fresh : Nat) : List Inst × Nat × Stats :=
  let enumVal : Value :=
    match defOfEnum with
    | some v => v
    | none => I.operands.getD 0 0
  let uedi : Inst := ⟨fresh, .uncheckedEnumData enumDecl, [enumVal], some (fresh + 1)⟩
  if enumDecl.payloadTrivial then ([uedi], fresh + 2, Stats.zero)
  else
    let rcop : Inst :=
      if I.opcode = .retainValue then
        if enumDecl.payloadRefCounted then ⟨fresh + 2, .strongRetain, [fresh + 1], none⟩
        else ⟨fresh + 2, .retainValue, [fresh + 1], none⟩
      else
        if enumDecl.payloadRefCounted then ⟨fresh + 2, .strongRelease, [fresh + 1], none⟩
        else ⟨fresh + 2, .releaseValue, [fresh + 1], none⟩
    ([uedi, rcop], fresh + 3, ⟨0, 1, 0⟩)

/-- Result of visiting one instruction in the dataflow transfer: the
instruction list replacing the visited instruction (empty when it was
erased, the instruction itself when untouched), plus fresh id, statistics
delta and the changed flag returned by the visitor. -/
structure VisitResult where
  insts : List Inst
  fresh : Nat
  stats : Stats
  changed : Bool
deriving DecidableEq

/-- BBEnumTagDataflowState::visitRetainValueInst. -/
def visitRetainValueInst (m : BlotMap Value EnumCase) (rvi : Inst)
    (fresh : Nat) : VisitResult :=
  match m.find (rvi.operands.getD 0 0) with
  | none => ⟨[rvi], fresh, Stats.zero, false⟩
  | some c =>
    if ¬ c.hasArgumentType then ⟨[], fresh, Stats.zero, true⟩
    else
      let (created, fresh', st) := createRefCountOpForPayload rvi c none fresh
      ⟨created, fresh', st, true⟩

/-- BBEnumTagDataflowState::visitReleaseValueInst. -/
def visitReleaseValueInst (m : BlotMap Value EnumCase) (rvi : Inst)
    (fresh : Nat) : VisitResult :=
  match m.find (rvi.operands.getD 0 0) with
  | none => ⟨[rvi], fresh, Stats.zero, false⟩
  | some c =>
    if ¬ c.hasArgumentType then ⟨[], fresh, Stats.zero, true⟩
    else
      let (created, fresh', st) := createRefCountOpForPayload rvi c none fresh
      ⟨created, fresh', st, true⟩

/-- The SILInstructionVisitor dispatch of BBEnumTagDataflowState: enum and
unchecked_enum_data record the case; retain_value and release_value are
rewritten through the known case; everything else is visitValueBase. -/
def visitInst (m : BlotMap Value EnumCase) (i : Inst) (fresh : Nat) :
    BlotMap Value EnumCase × VisitResult :=
  match i.opcode with
  | .enumCtor c => (m.insert (i.result.getD 0) c, ⟨[i], fresh, Stats.zero, false⟩)
  | .uncheckedEnumData c =>
      (m.insert (i.operands.getD 0 0) c, ⟨[i], fresh, Stats.zero, false⟩)
  | .retainValue => (m, visitRetainValueInst m i fresh)
  | .releaseValue => (m, visitReleaseValueInst m i fresh)
  | _ => (m, ⟨[i], fresh, Stats.zero, false⟩)

/-- Fold of the dataflow transfer over an instruction list. -/
def processInsts (m : BlotMap Value EnumCase) (fresh : Nat) :
    List Inst → BlotMap Value EnumCase × List Inst × Nat × Stats × Bool
  | [] => (m, [], fresh, Stats.zero, false)
  | i :: t =>
    let (m', r) := visitInst m i fresh
    let (m'', rest, fresh'', st, ch) := processInsts m' r.fresh t
    (m'', r.insts ++ rest, fresh'', r.stats + st, r.changed || ch)

/-- A per-pred-block case list entry (EnumBBCaseList). -/
abbrev EnumBBCaseList := List (Nat × EnumCase)

/-- The per-block enum-tag dataflow state. -/
structure BBState where
  bb : Nat
  valueToCase : BlotMap Value EnumCase
  enumToCaseList : BlotMap Value EnumBBCaseList
deriving DecidableEq

def emptyState (b : Nat) : BBState := ⟨b, BlotMap.empty, BlotMap.empty⟩

/-- BBEnumTagDataflowState::process — run the transfer over the state's
block, replacing visited instructions in the function. -/
def BBState.process (s : BBState) (f : Fn) (fresh : Nat) :
    BBState × Fn × Nat × Stats × Bool :=
  match f.findBlock s.bb with
  | none => (s, f, fresh, Stats.zero, false)
  | some blk =>
    let (m', insts', fresh', st, ch) := processInsts s.valueToCase fresh blk.insts
    ({ s with valueToCase := m' },
     mapBlockById f s.bb (fun b => { b with insts := insts' }), fresh', st, ch)

/-- EnumToEnumBBCaseListMap[v].push_back(entry): operator[] default
constructs an empty list for absent (or blotted) keys. -/
def pushCase (m : BlotMap Value EnumBBCaseList) (v : Value)
    (entry : Nat × EnumCase) : BlotMap Value EnumBBCaseList :=
  match m.find v with
  | some l => m.insert v (l ++ [entry])
  | none => m.insert v [entry]

/-- BBEnumTagDataflowState::handlePredSwitchEnum: the single predecessor
ends in switch_enum; record the case whose target is this block. -/
def handlePredSwitchEnum (s : BBState) (swOp : Value)
    (cases : List (EnumCase × Nat)) (dflt : Option Nat) : BBState :=
  if dflt = some s.bb then s
  else
    match cases.find? (fun p => p.2 = s.bb) with
    | some p => { s with valueToCase := s.valueToCase.insert swOp p.1 }
    | none => s

/-- Scan the enum's elements for the single element other than the given
one; fail when the enum has fewer or more than two elements. -/
def findSingleOtherElt (trueElt : EnumCase) : List EnumCase → Option EnumCase → Option EnumCase
  | [], acc => acc
  | e :: t, acc =>
      if e = trueElt then findSingleOtherElt trueElt t acc
      else match acc with
        | some _ => none
        | none => findSingleOtherElt trueElt t (some e)

/-- BBEnumTagDataflowState::handlePredCondSelectEnum: the single predecessor
ends in a cond_br on a select_enum; refine the enum operand's case. -/
def handlePredCondSelectEnum (f : Fn) (tyOf : Value → Ty) (s : BBState)
    (cond : Value) (tDest : Nat) : BBState :=
  match defOf f cond with
  | some sei =>
    match sei.opcode with
    | .selectEnum trueElt? =>
      match trueElt? with
      | none => s
      | some trueElt =>
        let operand := sei.operands.getD 0 0
        if tDest = s.bb then
          { s with valueToCase := s.valueToCase.insert operand trueElt }
        else
          match (tyOf operand).enumElems with
          | none => s
          | some elems =>
            match findSingleOtherElt trueElt elems none with
            | none => s
            | some otherElt =>
              if ¬ tDest = s.bb then
                { s with valueToCase := s.valueToCase.insert operand otherElt }
              else s
    | _ => s
  | none => s

/-- mergeSinglePredTermInfoIntoState. -/
def mergeSinglePredTermInfoIntoState (f : Fn) (tyOf : Value → Ty)
    (s : BBState) (pred : Nat) : BBState :=
  match f.findBlock pred with
  | none => s
  | some pb =>
    match pb.term with
    | .switchEnum op cases dflt => handlePredSwitchEnum s op cases dflt
    | .condBranch c tDest _ _ _ => handlePredCondSelectEnum f tyOf s c tDest
    | _ => s

/-- initWithFirstPred: copy the first predecessor's value-to-case map and,
when the first predecessor has a single successor, seed the case-list map
with its live entries. -/
def initWithFirstPred (getState : Nat → Option BBState) (f : Fn)
    (s : BBState) (firstPred : Nat) : Option BBState :=
  match getState firstPred with
  | none => none
  | some ps =>
    let vtc := ps.valueToCase
    let etc :=
      if (singleSuccOf f firstPred).isSome then
        vtc.getItems.foldl (fun acc slot =>
          match slot with
          | none => acc
          | some (v, c) => pushCase acc v (firstPred, c)) s.enumToCaseList
      else s.enumToCaseList
    some { s with valueToCase := vtc, enumToCaseList := etc }

/-- One merge step for one additional predecessor: fold over the tracked
items, accumulating the case-list map and the two deferred blot lists. -/
def mergeOnePred (psVtc : BlotMap Value EnumCase) (predSingleSucc : Bool)
    (p : Nat) :
    List (Option (Value × EnumCase)) →
    BlotMap Value EnumBBCaseList × List Value × List Value →
    BlotMap Value EnumBBCaseList × List Value × List Value
  | [], acc => acc
  | slot :: items, (etc, cur, prd) =>
    match slot with
    | none => mergeOnePred psVtc predSingleSucc p items (etc, cur, prd)
    | some (v, c) =>
      match psVtc.find v with
      | none => mergeOnePred psVtc predSingleSucc p items (etc, cur ++ [v], prd ++ [v])
      | some pc =>
        let etc' := if ¬ predSingleSucc then BlotMap.clear else pushCase etc v (p, pc)
        if pc = c then mergeOnePred psVtc predSingleSucc p items (etc', cur, prd)
        else mergeOnePred psVtc predSingleSucc p items (etc', cur ++ [v], prd)

/-- Apply all deferred blots. -/
def applyBlots {β : Type} (m : BlotMap Value β) (l : List Value) : BlotMap Value β :=
  l.foldl BlotMap.blot m

/-- The do-while loop over the remaining predecessors; a self-loop or an
unreachable predecessor returns the current state immediately, skipping the
deferred blots. -/
def mergeLoop (getState : Nat → Option BBState) (f : Fn) (bb : Nat)
    (vtc : BlotMap Value EnumCase) (etc : BlotMap Value EnumBBCaseList)
    (cur prd : List Value) : List Nat → BBState
  | [] => ⟨bb, applyBlots vtc cur, applyBlots etc prd⟩
  | p :: rest =>
    if p = bb then ⟨bb, vtc, etc⟩
    else
      match getState p with
      | none => ⟨bb, vtc, etc⟩
      | some ps =>
        let r :=
          mergeOnePred ps.valueToCase (singleSuccOf f p).isSome p
            vtc.getItems (etc, cur, prd)
        mergeLoop getState f bb vtc r.1 r.2.1 r.2.2 rest

/-- BBEnumTagDataflowState::mergePredecessorStates. -/
def mergePredecessorStates (getState : Nat → Option BBState) (f : Fn)
    (tyOf : Value → Ty) (s : BBState) : BBState :=
  match predsOf f s.bb with
  | [] => s
  | p1 :: rest =>
    if p1 = s.bb then s
    else
      match initWithFirstPred getState f s p1 with
      | none => s
      | some s1 =>
        match rest with
        | [] => mergeSinglePredTermInfoIntoState f tyOf s1 p1
        | _ => mergeLoop getState f s1.bb s1.valueToCase s1.enumToCaseList [] [] rest

/-- The fixed sink-search window. -/
def SinkSearchWindow : Nat := 6

/-- canSinkInstruction: no uses and not a terminator (all Inst values are
non-terminators in this model; terminators live in Block.term). -/
def canSinkInstruction (f : Fn) (i : Inst) : Bool :=
  match i.result with
  | none => true
  | some r => usesOf f r = 0

/-- isSinkBarrier: a non-terminator instruction with side effects. -/
def isSinkBarrier (i : Inst) : Bool := i.opcode.sideEffects

/-- findValueShallowRoot: one-step unwrap of a block argument through its
single predecessor's terminator. -/
def findValueShallowRoot (f : Fn) (tyOf : Value → Ty) (v : Value) : Value :=
  match blockArgIndex f v with
  | none => v
  | some (parent, idx) =>
    match singlePredOf f parent.id with
    | none => v
    | some pid =>
      match f.findBlock pid with
      | none => v
      | some pb =>
        match pb.term with
        | .checkedCastBranch op _ _ =>
            if (tyOf op).isReferenceCounted then op else v
        | .branch _ args => args.getD idx v
        | .condBranch _ tDest tArgs _ fArgs =>
            if tDest = parent.id then tArgs.getD idx v else fArgs.getD idx v
        | _ => v

/-- canonicalizeRefCountInstrs: replace the operand of every strong_retain
and strong_release in the block with its shallow root. -/
def canonicalizeRefCountInstrs (tyOf : Value → Ty) (f : Fn) (bid : Nat) :
    Fn × Bool :=
  match f.findBlock bid with
  | none => (f, false)
  | some blk =>
    (blk.insts.map Inst.id).foldl (fun (acc : Fn × Bool) iid =>
      let (f, ch) := acc
      match findInstInBlock f bid iid with
      | none => (f, ch)
      | some i =>
        if i.opcode = .strongRetain ∨ i.opcode = .strongRelease then
          let r := i.operands.getD 0 0
          let root := findValueShallowRoot f tyOf r
          if ¬ r = root then (setInstOperand f iid 0 root, true) else (f, ch)
        else (f, ch)) (f, false)

/-- The operand relation accumulated across operand comparisons. -/
inductive OperandRelation where
  | notDeterminedYet
  | alwaysEqual
  | equalAfterMove
deriving DecidableEq

/-- Map from (value, predecessor block) to the argument index of the
successor block it is passed to. -/
abbrev ValueToBBArgIdxMap := List ((Value × Nat) × Nat)

def lookupArgIdx (m : ValueToBBArgIdxMap) (k : Value × Nat) : Option Nat :=
  match m with
  | [] => none
  | (k', v) :: t => if k' = k then some v else lookupArgIdx t k

/-- The operand compare function of findIdenticalInBlock, threading the
operand relation (which in the source is mutated through a reference, even
for comparisons of candidates that subsequently fail). -/
def operandCompare (m : ValueToBBArgIdxMap) (idenBlock scanBlock : Nat)
    (rel : OperandRelation) (op1 op2 : Value) : Bool × OperandRelation :=
  if rel ≠ .equalAfterMove ∧ op1 = op2 then (true, .alwaysEqual)
  else if rel ≠ .alwaysEqual then
    match lookupArgIdx m (op1, idenBlock) with
    | some i1 =>
      match lookupArgIdx m (op2, scanBlock) with
      | some i2 => if i1 = i2 then (true, .equalAfterMove) else (false, rel)
      | none => (false, rel)
    | none => (false, rel)
  else (false, rel)

/-- Pairwise operand comparison, short-circuiting on failure but keeping
the relation updates made so far. -/
def compareOperands (m : ValueToBBArgIdxMap) (idenBlock scanBlock : Nat)
    (rel : OperandRelation) : List Value → List Value → Bool × OperandRelation
  | [], [] => (true, rel)
  | a :: as_, b :: bs =>
    let (ok, rel') := operandCompare m idenBlock scanBlock rel a b
    if ok then compareOperands m idenBlock scanBlock rel' as_ bs else (false, rel')
  | _, _ => (false, rel)

/-- SILInstruction::isIdenticalTo with the custom operand equivalence:
identical opcode (including all non-operand attributes and the result
type), identical operand count, and pairwise related operands. -/
def isIdenticalToWith (m : ValueToBBArgIdxMap) (idenBlock scanBlock : Nat)
    (rel : OperandRelation) (iden x : Inst) : Bool × OperandRelation :=
  if iden.opcode = x.opcode ∧ iden.operands.length = x.operands.length then
    compareOperands m idenBlock scanBlock rel iden.operands x.operands
  else (false, rel)

/-- SILInstruction::isIdenticalTo with plain value equality on operands. -/
def isIdenticalInst (a b : Inst) : Bool :=
  a.opcode = b.opcode ∧ a.operands = b.operands

/-- The scan loop of findIdenticalInBlock over the instructions of the
block listed from the terminator backwards, after the initial iteration on
the terminator itself has consumed one unit of budget. -/
def findIdentLoop (f : Fn) (m : ValueToBBArgIdxMap) (idenBlock scanBlock : Nat)
    (iden : Inst) (rel : OperandRelation) :
    Nat → List Inst → Option Inst × OperandRelation
  | 0, _ => (none, rel)
  | _, [] => (none, rel)
  | budget + 1, x :: rest =>
    let (ok, rel') :=
      if canSinkInstruction f x then isIdenticalToWith m idenBlock scanBlock rel iden x
      else (false, rel)
    if ok then (some x, rel')
    else if isSinkBarrier x then (none, rel')
    else if rest.isEmpty then (none, rel')
    else findIdentLoop f m idenBlock scanBlock iden rel' budget rest

/-- findIdenticalInBlock: scan the block backward from its terminator for
up to the sink-search window, threading the operand relation.  The first
scanned position is the terminator itself, which is neither sinkable nor a
barrier; it consumes one unit of budget when stepping backward. -/
def findIdenticalInBlock (f : Fn) (scan : Block) (iden : Inst)
    (idenBlock : Nat) (m : ValueToBBArgIdxMap) (rel : OperandRelation) :
    Option Inst × OperandRelation :=
  if scan.insts.isEmpty then (none, rel)
  else findIdentLoop f m idenBlock scan.id iden rel (SinkSearchWindow - 1) scan.insts.reverse

/-- The per-candidate loop over the other predecessors of
sinkCodeFromPredecessors: find a duplicate in each one, threading the
operand relation; a failed predecessor clears the duplicate list. -/
def findDupsLoop (f : Fn) (m : ValueToBBArgIdxMap) (fpId : Nat) (cand : Inst)
    (rel : OperandRelation) (dups : List Inst) :
    List Nat → List Inst × OperandRelation
  | [] => (dups, rel)
  | p :: rest =>
    if p = fpId then findDupsLoop f m fpId cand rel dups rest
    else
      match f.findBlock p with
      | none => ([], rel)
      | some pb =>
        match findIdenticalInBlock f pb cand fpId m rel with
        | (some dup, rel') => findDupsLoop f m fpId cand rel' (dups ++ [dup]) rest
        | (none, rel') => ([], rel')

/-- Rewrite each operand of the sunk instruction to the block argument of
the successor block at the index recorded for (operand, first pred). -/
def rewriteOperandsToArgs (m : ValueToBBArgIdxMap) (fpId : Nat)
    (bbArgs : List Value) (i : Inst) : Inst :=
  { i with operands := i.operands.map (fun op =>
      bbArgs.getD ((lookupArgIdx m (op, fpId)).getD 0) 0) }

/-- The successful-sink body of sinkCodeFromPredecessors: move the
candidate before the first instruction of the successor block; when the
operand relation is EqualAfterMove rewrite its operands to block
arguments; then replace all uses of every duplicate with the moved
instruction and erase the duplicates. -/
def applySink (f : Fn) (bbId fpId : Nat) (m : ValueToBBArgIdxMap)
    (cand : Inst) (dups : List Inst) (rel : OperandRelation) : Fn :=
  let f1 := moveToBlockFront f cand.id bbId
  let f2 :=
    if rel = .equalAfterMove then
      let bbArgs := match f1.findBlock bbId with
        | some b => b.args
        | none => []
      mapInstById f1 cand.id (rewriteOperandsToArgs m fpId bbArgs)
    else f1
  dups.foldl (fun fa d =>
    let fa' :=
      match d.result, cand.result with
      | some r, some r' => replaceAllUses fa r r'
      | _, _ => fa
    eraseInst fa' d.id) f2

/-- The backward scan loop of sinkCodeFromPredecessors.  The scan position
is the distance from the first predecessor's terminator (position 0 is the
terminator itself).  A successful sink restarts the scan at the terminator
without spending budget; stepping one instruction backward costs one unit.
The fuel only bounds the recursion and is chosen large enough at the call
site. -/
def sinkLoop (fuel : Nat) (f : Fn) (bbId fpId : Nat) (m : ValueToBBArgIdxMap)
    (stats : Stats) (changed : Bool) (pos budget : Nat) : Fn × Stats × Bool :=
  match fuel with
  | 0 => (f, stats, changed)
  | fuel + 1 =>
    if budget = 0 then (f, stats, changed)
    else
      match f.findBlock fpId with
      | none => (f, stats, changed)
      | some fp =>
        if pos = 0 then
          if fp.insts.isEmpty then (f, stats, changed)
          else sinkLoop fuel f bbId fpId m stats changed 1 (budget - 1)
        else
          match fp.insts.reverse.get? (pos - 1) with
          | none => (f, stats, changed)
          | some cand =>
            let sunk :=
              if canSinkInstruction f cand then
                let (dups, rel) :=
                  findDupsLoop f m fpId cand .notDeterminedYet [] (predsOf f bbId)
                if dups.isEmpty then none else some (dups, rel)
              else none
            match sunk with
            | some (dups, rel) =>
                sinkLoop fuel (applySink f bbId fpId m cand dups rel) bbId fpId m
                  (stats + ⟨dups.length, 0, 0⟩) true 0 budget
            | none =>
                if isSinkBarrier cand then (f, stats, changed)
                else if pos = fp.insts.length then (f, stats, changed)
                else sinkLoop fuel f bbId fpId m stats changed (pos + 1) (budget - 1)

/-- Total instruction count of the function (used to size the fuel). -/
def totalInsts (f : Fn) : Nat :=
  (f.blocks.map (fun b => b.insts.length)).sum

/-- Build the value-to-argument-index map of sinkCodeFromPredecessors from
every predecessor that ends in an unconditional branch. -/
def buildValueToArgIdxMap (f : Fn) (bbId : Nat) : ValueToBBArgIdxMap :=
  (predsOf f bbId).foldl (fun m p =>
    match f.findBlock p with
    | some pb =>
      match pb.term with
      | .branch _ args =>
          (args.enum.map (fun q => ((q.2, p), q.1))) ++ m
      | _ => m
    | none => m) []

/-- sinkCodeFromPredecessors. -/
def sinkCodeFromPredecessors (f : Fn) (bbId : Nat) : Fn × Stats × Bool :=
  match predsOf f bbId with
  | [] => (f, Stats.zero, false)
  | fp :: rest =>
    if (fp :: rest).all (fun p => singleSuccOf f p = some bbId) then
      match f.findBlock fp with
      | none => (f, Stats.zero, false)
      | some fpb =>
        if fpb.insts.isEmpty then (f, Stats.zero, false)
        else
          let m := buildValueToArgIdxMap f bbId
          sinkLoop (SinkSearchWindow + totalInsts f + 1) f bbId fp m
            Stats.zero false 0 SinkSearchWindow
    else (f, Stats.zero, false)

/-- getArgForBlock: the value passed from block From to block To as the
n-th argument (the false successor of a cond_br is checked first, as in
the source). -/
def getArgForBlock (from_ : Block) (toId argNum : Nat) : Option Value :=
  match from_.term with
  | .condBranch _ tDest tArgs fDest fArgs =>
      if fDest = toId then fArgs.get? argNum
      else if tDest = toId then tArgs.get? argNum
      else none
  | .branch _ args => args.get? argNum
  | _ => none

/-- Modelled from the spec: `recursivelyDeleteTriviallyDeadInstructions` is
an external dead-code cleanup utility ("delete now-dead clones"); it is
modelled as deleting the given instruction when its result has no remaining
uses (the recursive cleanup of newly dead operands is not modelled). -/
def recursivelyDeleteTriviallyDead (f : Fn) (iid : Nat) : Fn :=
  match findInstFn f iid with
  | none => f
  | some i =>
    match i.result with
    | none => eraseInst f iid
    | some r => if usesOf f r = 0 then eraseInst f iid else f

/-- Modelled from the spec: debug instructions are not modelled, so
`hasOneNonDebugUse` is a single remaining use of the value. -/
def hasOneNonDebugUse (f : Fn) (v : Value) : Bool := usesOf f v = 1

/-- The distinguished undef value (SILUndef). -/
def undefValue : Value := 0

/-- sinkLiteralArguments: if every predecessor passes a structurally
identical literal for the argument, clone it at the head of the block and
rewrite the argument's uses to the clone. -/
def sinkLiteralArguments (f : Fn) (bbId argNum : Nat) (fresh : Nat) :
    Fn × Nat × Bool :=
  match predsOf f bbId, f.findBlock bbId with
  | fp :: rest, some bb =>
    (match f.findBlock fp with
     | none => (f, fresh, false)
     | some fpb =>
       match (getArgForBlock fpb bbId argNum).bind (defOf f) with
       | none => (f, fresh, false)
       | some firstLit =>
         match firstLit.opcode with
         | .literal _ =>
           if rest.all (fun p =>
               match (f.findBlock p).bind
                   (fun pb => (getArgForBlock pb bbId argNum).bind (defOf f)) with
               | some predLit =>
                 (match predLit.opcode with
                  | .literal _ => true
                  | _ => false) && isIdenticalInst predLit firstLit
               | none => false) then
             let cloned : Inst := ⟨fresh, firstLit.opcode, firstLit.operands, some (fresh + 1)⟩
             let f1 := consInsts f bbId [cloned]
             let f2 := replaceAllUses f1 (bb.args.getD argNum 0) (fresh + 1)
             (f2, fresh + 2, true)
           else (f, fresh, false)
         | _ => (f, fresh, false))
  | _, _ => (f, fresh, false)

/-- cheaperToPassOperandsAsArguments. -/
def cheaperToPassOperandsAsArguments (tyOf : Value → Ty)
    (first second : Inst) : Option Nat :=
  if first.opcode = .unownedToRef ∧ second.opcode = .unownedToRef then some 0
  else
    let firstStruct := match first.opcode with
      | .structCtor _ => true
      | _ => false
    let secondStruct := match second.opcode with
      | .structCtor _ => true
      | _ => false
    if !(firstStruct && secondStruct) then none
    else if ¬ first.operands.length = second.operands.length then none
    else
      let diff := (List.range first.operands.length).filter
        (fun i => ¬ first.operands.getD i 0 = second.operands.getD i 0)
      match diff with
      | [] => none
      | [i] =>
          if (tyOf (first.operands.getD i 0)).isBuiltinInteger then some i else none
      | _ => none

/-- Set the n-th operand of the terminator of block bid. -/
def setTermOperandAt (f : Fn) (bid n : Nat) (v : Value) : Fn :=
  mapBlockById f bid (fun b => { b with term := b.term.setOperandAt n v })

/-- Association lookup for nat keys. -/
def lookupNat (k : Nat) : List (Nat × Nat) → Option Nat
  | [] => none
  | (k', v) :: t => if k' = k then some v else lookupNat k t

/-- The predecessor scan of sinkArgument: check that every other
predecessor passes an instruction identical to the first predecessor's (or
differing in exactly one, always the same, operand index), collecting the
passed values. -/
def collectClones (tyOf : Value → Ty) (f : Fn) (fsi : Inst) (argNum : Nat)
    (clones : List Value) (diffIdx : Option Nat) :
    List Nat → Option (List Value × Option Nat)
  | [] => some (clones, diffIdx)
  | p :: rest =>
    match f.findBlock p with
    | none => none
    | some pb =>
      let okTerm := match pb.term with
        | .branch _ _ => true
        | .condBranch _ _ _ _ _ => true
        | _ => false
      if !okTerm then none
      else
        match pb.term.operandsList.get? argNum with
        | none => none
        | some arg =>
          match defOf f arg with
          | none => none
          | some si =>
            if ¬ hasOneNonDebugUse f arg then none
            else if isIdenticalInst si fsi then
              collectClones tyOf f fsi argNum (clones ++ [arg]) diffIdx rest
            else
              match cheaperToPassOperandsAsArguments tyOf fsi si with
              | none => none
              | some d =>
                match diffIdx with
                | some d0 =>
                    if d = d0 then collectClones tyOf f fsi argNum (clones ++ [arg]) (some d) rest
                    else none
                | none => collectClones tyOf f fsi argNum (clones ++ [arg]) (some d) rest

/-- The predecessor update loop of sinkArgument's differing-operand branch:
rewrite each predecessor terminator to pass the differing operand of its
clone, then delete the clone. -/
def updateBrArgs (argNum fsiId idx : Nat) (f : Fn) :
    List (Nat × Value) → Fn
  | [] => f
  | (p, cloneVal) :: t =>
    match defOf f cloneVal with
    | none => updateBrArgs argNum fsiId idx f t
    | some cloneInst =>
      let f1 := setTermOperandAt f p argNum (cloneInst.operands.getD idx 0)
      let f2 := if ¬ cloneInst.id = fsiId then recursivelyDeleteTriviallyDead f1 cloneInst.id
                else f1
      updateBrArgs argNum fsiId idx f2 t

/-- sinkArgument: sink the instruction passed by every predecessor as the
n-th block argument. -/
def sinkArgument (tyOf : Value → Ty) (f : Fn) (bbId argNum fresh : Nat) :
    Fn × Nat × Bool :=
  match predsOf f bbId, f.findBlock bbId with
  | fp :: rest, some bb =>
    (match f.findBlock fp with
     | none => (f, fresh, false)
     | some fpb =>
       match fpb.term.operandsList.get? argNum with
       | none => (f, fresh, false)
       | some firstPredArg =>
         match defOf f firstPredArg with
         | none => (f, fresh, false)
         | some fsi =>
           if ¬ hasOneNonDebugUse f firstPredArg then (f, fresh, false)
           else if fsi.opcode.readsMem || (fsi.opcode.sideEffects && !fsi.opcode.isAllocation)
           then (f, fresh, false)
           else
             match collectClones tyOf f fsi argNum [firstPredArg] none rest with
             | none => (f, fresh, false)
             | some (clones, diffIdx) =>
               match diffIdx with
               | some idx =>
                 let f1 := moveToBlockFront f fsi.id bbId
                 let f2 := replaceAllUses f1 (bb.args.getD argNum 0) firstPredArg
                 let f3 := mapBlockById f2 bbId
                   (fun b => { b with args := b.args.set argNum fresh })
                 let f4 := updateBrArgs argNum fsi.id idx f3 ((fp :: rest).zip clones)
                 let f5 := setInstOperand f4 fsi.id idx fresh
                 (f5, fresh + 1, true)
               | none =>
                 let f1 := replaceAllUses f firstPredArg undefValue
                 let f2 := moveToBlockFront f1 fsi.id bbId
                 let f3 := replaceAllUses f2 (bb.args.getD argNum 0) firstPredArg
                 let f4 := clones.foldl (fun fa s =>
                     if s = firstPredArg then fa
                     else
                       let fa' := replaceAllUses fa s undefValue
                       match defOf fa' s with
                       | some si => recursivelyDeleteTriviallyDead fa' si.id
                       | none => fa') f3
                 (f4, fresh, true))
  | _, _ => (f, fresh, false)

/-- sinkArgumentsFromPredecessors. -/
def sinkArgumentsFromPredecessors (tyOf : Value → Ty) (f : Fn) (bbId fresh : Nat) :
    Fn × Nat × Bool :=
  match predsOf f bbId with
  | [] => (f, fresh, false)
  | [_] => (f, fresh, false)
  | preds =>
    if preds.all (fun p => singleSuccOf f p = some bbId) then
      let numArgs := match f.findBlock bbId with
        | some b => b.args.length
        | none => 0
      (List.range numArgs).foldl (fun (acc : Fn × Nat × Bool) i =>
        let (f, fresh, ch) := acc
        let (f', fresh', ch') := sinkArgument tyOf f bbId i fresh
        (f', fresh', ch || ch')) (f, fresh, false)
    else (f, fresh, false)

/-- sinkLiteralsFromPredecessors. -/
def sinkLiteralsFromPredecessors (f : Fn) (bbId fresh : Nat) : Fn × Nat × Bool :=
  match predsOf f bbId with
  | [] => (f, fresh, false)
  | [_] => (f, fresh, false)
  | _ =>
    let numArgs := match f.findBlock bbId with
      | some b => b.args.length
      | none => 0
    (List.range numArgs).foldl (fun (acc : Fn × Nat × Bool) i =>
      let (f, fresh, ch) := acc
      let (f', fresh', ch') := sinkLiteralArguments f bbId i fresh
      (f', fresh', ch || ch')) (f, fresh, false)

/-- Insert the payload ref-count operations for each case of a switch_enum
at the head of the case's successor block. -/
def sinkIntoSwitchCases (rv : Inst) (swOp : Value) (f : Fn) (fresh : Nat) :
    List (EnumCase × Nat) → Fn × Nat × Stats
  | [] => (f, fresh, Stats.zero)
  | (c, succ) :: rest =>
    if c.hasArgumentType then
      let (created, fresh', st) := createRefCountOpForPayload rv c (some swOp) fresh
      let (f'', fresh'', st') := sinkIntoSwitchCases rv swOp (consInsts f succ created) fresh' rest
      (f'', fresh'', st + st')
    else sinkIntoSwitchCases rv swOp f fresh rest

/-- tryToSinkRefCountAcrossSwitch. -/
def tryToSinkRefCountAcrossSwitch (aa : AA) (rcia : RCIA) (f : Fn) (bbId : Nat)
    (swOp : Value) (cases : List (EnumCase × Nat)) (dflt : Option Nat)
    (rv : Inst) (fresh : Nat) : Fn × Nat × Stats × Bool :=
  if ¬ rv.opcode = .retainValue then (f, fresh, Stats.zero, false)
  else
    let ptr := rv.operands.getD 0 0
    let range := match f.findBlock bbId with
      | some b => fromInst rv.id b.insts
      | none => []
    match valueHasARCDecrementOrCheckInInstructionRange aa ptr range with
    | some b => (moveInstBeforeInst f rv.id b.id, fresh, Stats.zero, true)
    | none =>
      if ¬ rcia ptr = rcia swOp then (f, fresh, Stats.zero, false)
      else if dflt.isSome then (f, fresh, Stats.zero, false)
      else
        let (f', fresh', st) := sinkIntoSwitchCases rv swOp f fresh cases
        (eraseInst f' rv.id, fresh', st + ⟨1, 0, 0⟩, true)

/-- tryToSinkRefCountAcrossSelectEnum.  Note that when an intervening ARC
decrement or check is found, the source moves the retain before it and
returns false. -/
def tryToSinkRefCountAcrossSelectEnum (aa : AA) (rcia : RCIA) (tyOf : Value → Ty)
    (f : Fn) (bbId : Nat) (cond : Value) (tDest fDest : Nat) (i : Inst)
    (fresh : Nat) : Fn × Nat × Stats × Bool :=
  if ¬ i.opcode = .retainValue then (f, fresh, Stats.zero, false)
  else
    match defOf f cond with
    | none => (f, fresh, Stats.zero, false)
    | some sei =>
      match sei.opcode with
      | .selectEnum trueElt? =>
        match trueElt? with
        | none => (f, fresh, Stats.zero, false)
        | some trueElt =>
          let ptr := i.operands.getD 0 0
          let range := match f.findBlock bbId with
            | some b => afterInst i.id b.insts
            | none => []
          match valueHasARCDecrementOrCheckInInstructionRange aa ptr range with
          | some b => (moveInstBeforeInst f i.id b.id, fresh, Stats.zero, false)
          | none =>
            let enumOp := sei.operands.getD 0 0
            if ¬ rcia ptr = rcia enumOp then (f, fresh, Stats.zero, false)
            else
              match (tyOf enumOp).enumElems with
              | none => (f, fresh, Stats.zero, false)
              | some elems =>
                match findSingleOtherElt trueElt elems none with
                | none => (f, fresh, Stats.zero, false)
                | some otherElt =>
                  let (f1, fresh1, st1) :=
                    if trueElt.hasArgumentType then
                      let (created, fr, st) := createRefCountOpForPayload i trueElt (some enumOp) fresh
                      (consInsts f tDest created, fr, st)
                    else (f, fresh, Stats.zero)
                  let (f2, fresh2, st2) :=
                    if otherElt.hasArgumentType then
                      let (created, fr, st) := createRefCountOpForPayload i otherElt (some enumOp) fresh1
                      (consInsts f1 fDest created, fr, st)
                    else (f1, fresh1, Stats.zero)
                  (eraseInst f2 i.id, fresh2, st1 + st2 + ⟨1, 0, 0⟩, true)
      | _ => (f, fresh, Stats.zero, false)

/-- The tail of tryToSinkRefCountInst after the terminator-specific
attempts: move before an intervening decrement, or before the terminator,
or materialize a retain into each non-trap successor. -/
def tryToSinkRest (aa : AA) (trap : Nat → Bool) (f : Fn) (bbId : Nat)
    (i : Inst) (canSinkToSuccessors : Bool) (fresh : Nat) :
    Fn × Nat × Stats × Bool :=
  match f.findBlock bbId with
  | none => (f, fresh, Stats.zero, false)
  | some blk =>
    if ¬ (i.opcode = .strongRetain ∨ i.opcode = .retainValue) then
      (f, fresh, Stats.zero, false)
    else
      let ptr := i.operands.getD 0 0
      match valueHasARCDecrementOrCheckInInstructionRange aa ptr (afterInst i.id blk.insts) with
      | some b => (moveInstBeforeInst f i.id b.id, fresh, Stats.zero, true)
      | none =>
        let isCCBorCondBr := match blk.term with
          | .checkedCastBranch _ _ _ => true
          | .condBranch _ _ _ _ _ => true
          | _ => false
        if !canSinkToSuccessors || !isCCBorCondBr then
          (moveBeforeTerm f i.id bbId, fresh, Stats.zero, true)
        else
          let (f', fresh') := blk.term.succs.foldl (fun (acc : Fn × Nat) s =>
            if trap s then acc
            else
              let newInst : Inst :=
                ⟨acc.2, (if i.opcode = .strongRetain then .strongRetain else .retainValue),
                 [ptr], none⟩
              (consInsts acc.1 s [newInst], acc.2 + 1)) (f, fresh)
          (eraseInst f' i.id, fresh', ⟨1, 0, 0⟩, true)

/-- tryToSinkRefCountInst.  For a switch_enum terminator (with sinkable
successors) the result of the across-switch attempt is returned directly;
for a cond_br the across-select-enum attempt may fail after moving the
retain, in which case processing continues on the updated function. -/
def tryToSinkRefCountInst (aa : AA) (rcia : RCIA) (tyOf : Value → Ty)
    (trap : Nat → Bool) (f : Fn) (bbId : Nat) (i : Inst)
    (canSinkToSuccessors : Bool) (fresh : Nat) : Fn × Nat × Stats × Bool :=
  match f.findBlock bbId with
  | none => (f, fresh, Stats.zero, false)
  | some blk =>
    if canSinkToSuccessors then
      match blk.term with
      | .switchEnum op cases dflt =>
          tryToSinkRefCountAcrossSwitch aa rcia f bbId op cases dflt i fresh
      | .condBranch c tDest _ fDest _ =>
          let r := tryToSinkRefCountAcrossSelectEnum aa rcia tyOf f bbId c tDest fDest i fresh
          if r.2.2.2 then r
          else tryToSinkRest aa trap r.1 bbId i canSinkToSuccessors r.2.1
      | _ => tryToSinkRest aa trap f bbId i canSinkToSuccessors fresh
    else tryToSinkRest aa trap f bbId i canSinkToSuccessors fresh

/-- sinkRefCountIncrement: walk the block backward from the terminator,
trying to sink every instruction via tryToSinkRefCountInst. -/
def sinkRefCountIncrement (aa : AA) (rcia : RCIA) (tyOf : Value → Ty)
    (trap : Nat → Bool) (f : Fn) (bbId fresh : Nat) : Fn × Nat × Stats × Bool :=
  match f.findBlock bbId with
  | none => (f, fresh, Stats.zero, false)
  | some blk =>
    let canSinkToSuccessor := blk.term.succs.all (fun s => (singlePredOf f s).isSome)
    if blk.insts.isEmpty then (f, fresh, Stats.zero, false)
    else
      (blk.insts.map Inst.id).reverse.foldl (fun acc iid =>
        let (f, fresh, st, ch) := acc
        match findInstInBlock f bbId iid with
        | none => acc
        | some inst =>
          let r := tryToSinkRefCountInst aa rcia tyOf trap f bbId inst canSinkToSuccessor fresh
          (r.1, r.2.1, st + r.2.2.1, ch || r.2.2.2)) (f, fresh, Stats.zero, false)

/-- isRetainAvailableInSomeButNotAllPredecessors. -/
def isRetainAvailableInSomeButNotAllPredecessors (aa : AA) (rcia : RCIA)
    (f : Fn) (ptr0 : Value) (bbId : Nat) (checkUpTo : List (Nat × Nat)) : Bool :=
  let ptr := rcia ptr0
  let flags := (predsOf f bbId).foldl (fun (ab : Bool × Bool) p =>
    match f.findBlock p with
    | none => ab
    | some pb =>
      let retain? := pb.insts.reverse.find? (fun I =>
        ((I.opcode = .strongRetain ∨ I.opcode = .retainValue) ∧
          ptr = rcia (I.operands.getD 0 0) : Prop))
      match retain? with
      | none => (ab.1, true)
      | some ret =>
        let range := rangeFromTo ret.id (lookupNat p checkUpTo) pb.insts
        if (valueHasARCDecrementOrCheckInInstructionRange aa ptr range).isSome then
          (ab.1, true)
        else (true, ab.2)) (false, false)
  flags.1 && flags.2

/-- hoistDecrementsToPredecessors. -/
def hoistDecrementsToPredecessors (aa : AA) (rcia : RCIA) (f : Fn)
    (bbId fresh : Nat) : Fn × Nat × Bool :=
  if (singlePredOf f bbId).isSome then (f, fresh, false)
  else
    match f.findBlock bbId with
    | none => (f, fresh, false)
    | some blk =>
      if (predsOf f bbId).all (fun p => (singleSuccOf f p).isSome) then
        let r := (blk.insts.map Inst.id).foldl
          (fun (acc : Fn × List (Nat × Nat) × Nat × Bool) iid =>
            let (f, checkUpTo, fresh, _ch) := acc
            match findInstInBlock f bbId iid with
            | none => acc
            | some inst =>
              if ¬ (inst.opcode = .strongRelease ∨ inst.opcode = .releaseValue) then acc
              else
                let ptr := inst.operands.getD 0 0
                if parentBlockOfValue f ptr = some bbId then acc
                else
                  let range := match f.findBlock bbId with
                    | some b => beforeInst iid b.insts
                    | none => []
                  if valueHasARCUsesInInstructionRange aa ptr range then acc
                  else if ¬ isRetainAvailableInSomeButNotAllPredecessors aa rcia f ptr bbId checkUpTo
                  then acc
                  else
                    let (f', checkUpTo', fresh') := (predsOf f bbId).foldl
                      (fun (pa : Fn × List (Nat × Nat) × Nat) p =>
                        let (fp, cu, fr) := pa
                        let rel : Inst :=
                          ⟨fr, (if inst.opcode = .strongRelease then .strongRelease
                                else .releaseValue), [ptr], none⟩
                        let cu' := match lookupNat p cu with
                          | some _ => cu
                          | none => (p, fr) :: cu
                        (appendInsts fp p [rel], cu', fr + 1)) (f, checkUpTo, fresh)
                    (eraseInst f' iid, checkUpTo', fresh', true))
          (f, [], fresh, false)
        (r.1, r.2.2.1, r.2.2.2)
      else (f, fresh, false)

/-- The payload-release creation loop of hoistDecrementsIntoSwitchRegions:
for each (predecessor, case) pair with a payloaded case, insert the payload
release before the predecessor's terminator. -/
def hoistPayloadReleases (rvi : Inst) (f : Fn) (fresh : Nat) :
    EnumBBCaseList → Fn × Nat × Stats
  | [] => (f, fresh, Stats.zero)
  | (p, c) :: rest =>
    if c.hasArgumentType then
      let r1 := createRefCountOpForPayload rvi c none fresh
      let r2 := hoistPayloadReleases rvi (appendInsts f p r1.1) r1.2.1 rest
      (r2.1, r2.2.1, r1.2.2 + r2.2.2)
    else hoistPayloadReleases rvi f fresh rest

/-- The per-instruction body of hoistDecrementsIntoSwitchRegions. -/
def hoistDecStep (aa : AA) (bb numPreds : Nat) (etc : BlotMap Value EnumBBCaseList)
    (acc : Fn × Nat × Stats × Bool) (iid : Nat) : Fn × Nat × Stats × Bool :=
  let (f, fresh, st, _ch) := acc
  match findInstInBlock f bb iid with
  | none => acc
  | some rvi =>
    if ¬ rvi.opcode = .releaseValue then acc
    else
      let op := rvi.operands.getD 0 0
      match etc.find op with
      | none => acc
      | some l =>
        if ¬ l.length = numPreds then acc
        else
          let range := match f.findBlock bb with
            | some b => beforeInst iid b.insts
            | none => []
          if valueHasARCUsesInInstructionRange aa op range then acc
          else
            let (f', fresh', st') := hoistPayloadReleases rvi f fresh l
            (eraseInst f' iid, fresh', st + st' + ⟨0, 0, 1⟩, true)

/-- BBEnumTagDataflowState::hoistDecrementsIntoSwitchRegions. -/
def BBState.hoistDecrementsIntoSwitchRegions (s : BBState) (aa : AA) (f : Fn)
    (fresh : Nat) : Fn × Nat × Stats × Bool :=
  let numPreds := (predsOf f s.bb).length
  match f.findBlock s.bb with
  | none => (f, fresh, Stats.zero, false)
  | some blk =>
    (blk.insts.map Inst.id).foldl (hoistDecStep aa s.bb numPreds s.enumToCaseList)
      (f, fresh, Stats.zero, false)

/-- findLastSinkableMatchingEnumValueRCIncrementInPred. -/
def findLastSinkableMatchingEnumValueRCIncrementInPred (aa : AA) (rcia : RCIA)
    (f : Fn) (enumValue : Value) (predId : Nat) : Option Inst :=
  match f.findBlock predId with
  | none => none
  | some pb =>
    match pb.insts.reverse.find? (fun I =>
      ((I.opcode = .strongRetain ∨ I.opcode = .retainValue) ∧
        enumValue = rcia (I.operands.getD 0 0) : Prop)) with
    | none => none
    | some inc =>
      if (valueHasARCDecrementOrCheckInInstructionRange aa enumValue
            (fromInst inc.id pb.insts)).isSome then none
      else some inc

/-- findRetainsSinkableFromSwitchRegionForEnum. -/
def findRetainsSinkableFromSwitchRegionForEnum (aa : AA) (rcia : RCIA)
    (f : Fn) (enumValue : Value) (deleteList : List Inst) :
    EnumBBCaseList → Option (List Inst)
  | [] => some deleteList
  | (p, decl) :: rest =>
    if ¬ decl.hasArgumentType then
      findRetainsSinkableFromSwitchRegionForEnum aa rcia f enumValue deleteList rest
    else
      match findLastSinkableMatchingEnumValueRCIncrementInPred aa rcia f enumValue p with
      | none => none
      | some inc =>
          findRetainsSinkableFromSwitchRegionForEnum aa rcia f enumValue
            (deleteList ++ [inc]) rest

/-- BBEnumTagDataflowState::sinkIncrementsOutOfSwitchRegions. -/
def BBState.sinkIncrementsOutOfSwitchRegions (s : BBState) (aa : AA)
    (rcia : RCIA) (f : Fn) (fresh : Nat) : Fn × Nat × Stats × Bool :=
  let numPreds := (predsOf f s.bb).length
  s.enumToCaseList.getItems.foldl (fun (acc : Fn × Nat × Stats × Bool) slot =>
    let (f, fresh, st, _ch) := acc
    match slot with
    | none => acc
    | some (v, l) =>
      let enumValue := rcia v
      if ¬ l.length = numPreds then acc
      else
        match findRetainsSinkableFromSwitchRegionForEnum aa rcia f enumValue [] l with
        | none => acc
        | some [] => acc
        | some dl =>
          let newRetain : Inst := ⟨fresh, .retainValue, [enumValue], none⟩
          let f1 := consInsts f s.bb [newRetain]
          let f2 := dl.foldl (fun fa i => eraseInst fa i.id) f1
          (f2, fresh + 1, st + ⟨1, 0, 0⟩, true))
    (f, fresh, Stats.zero, false)

/-- Association lookup of a dataflow state by block id. -/
def lookupState (b : Nat) : List (Nat × BBState) → Option BBState
  | [] => none
  | (k, s) :: t => if k = b then some s else lookupState b t

/-- One iteration of the driver loop for the block at the given RPO index. -/
def processBlock (aa : AA) (rcia : RCIA) (tyOf : Value → Ty) (trap : Nat → Bool)
    (rpo : List Nat) (hoistReleases disableRR : Bool)
    (acc : Fn × List BBState × Nat × Stats × Bool) (idx : Nat) :
    Fn × List BBState × Nat × Stats × Bool :=
  let (f, states, fresh, stats, changed) := acc
  match states.get? idx with
  | none => acc
  | some st =>
    let getS := fun b => lookupState b (rpo.zip states)
    let s1 := mergePredecessorStates getS f tyOf st
    let (f1, fresh1, st1, ch1) :=
      if hoistReleases then s1.hoistDecrementsIntoSwitchRegions aa f fresh
      else (f, fresh, Stats.zero, false)
    let (f2, fresh2, st2, ch2) := s1.sinkIncrementsOutOfSwitchRegions aa rcia f1 fresh1
    let (f3, ch3) := canonicalizeRefCountInstrs tyOf f2 s1.bb
    let (f4, st4, ch4) := sinkCodeFromPredecessors f3 s1.bb
    let (f5, fresh5, ch5) := sinkArgumentsFromPredecessors tyOf f4 s1.bb fresh2
    let (f6, fresh6, ch6) := sinkLiteralsFromPredecessors f5 s1.bb fresh5
    let (s2, f7, fresh7, st7, ch7) := s1.process f6 fresh6
    let (f8, fresh8, st8, ch8) :=
      if !disableRR then sinkRefCountIncrement aa rcia tyOf trap f7 s2.bb fresh7
      else (f7, fresh7, Stats.zero, false)
    let (f9, fresh9, ch9) :=
      if !disableRR && hoistReleases then hoistDecrementsToPredecessors aa rcia f8 s2.bb fresh8
      else (f8, fresh8, false)
    (f9, states.set idx s2, fresh9, stats + st1 + st2 + st4 + st7 + st8,
     changed || ch1 || ch2 || ch3 || ch4 || ch5 || ch6 || ch7 || ch8 || ch9)

/-- processFunction: visit the blocks in reverse postorder, merging each
block's predecessor states and running the transforms.  The reverse
postorder is supplied by the external post-order analysis. -/
def processFunction (aa : AA) (rcia : RCIA) (tyOf : Value → Ty)
    (trap : Nat → Bool) (rpo : List Nat) (hoistReleases disableRR : Bool)
    (f : Fn) (fresh : Nat) : Fn × Nat × Stats × Bool :=
  let final := (List.range rpo.length).foldl
    (processBlock aa rcia tyOf trap rpo hoistReleases disableRR)
    (f, rpo.map emptyState, fresh, Stats.zero, false)
  (final.1, final.2.2.1, final.2.2.2.1, final.2.2.2.2)

/-! ## Concrete fixtures used by witnesses and counterexamples -/

/-- An enum case without payload. -/
def caseNoPayload : EnumCase := ⟨0, false, true, false⟩

/-- An enum case with a non-trivial reference-counted payload. -/
def caseA : EnumCase := ⟨1, true, false, true⟩

/-- A second enum case with a non-trivial reference-counted payload. -/
def caseB : EnumCase := ⟨2, true, false, true⟩

/-- A typing oracle that knows nothing. -/
def tyOfDefault : Value → Ty := fun _ => ⟨false, false, none⟩

/-- An alias-analysis oracle reporting no decrements, checks or uses. -/
def aaNone : AA := ⟨fun _ _ => false, fun _ _ => false⟩

/-- No successor block is an ARC-inert trap block. -/
def noTrap : Nat → Bool := fun _ => false

/-! ## C4: hoisting decrements into switch regions -/

/-- Two predecessors branching to block 3, which holds a strong_release of
a value tracked with a full per-predecessor case list. -/
def hoistStrongFn : Fn :=
  ⟨[⟨1, [], [], .branch 3 []⟩, ⟨2, [], [], .branch 3 []⟩,
    ⟨3, [], [⟨10, .strongRelease, [7], none⟩], .unreachable⟩]⟩

/-- The dataflow state at block 3: enumToCaseList has one entry per
predecessor for the released value. -/
def hoistStrongState : BBState :=
  ⟨3, BlotMap.empty, ⟨[some (7, [(1, caseA), (2, caseB)])]⟩⟩

/-- Witness for the amended C4 theorem: the concrete release_value scenario. -/
def hoistValueFn : Fn :=
  ⟨[⟨1, [], [], .branch 3 []⟩, ⟨2, [], [], .branch 3 []⟩,
    ⟨3, [], [⟨10, .releaseValue, [7], none⟩], .unreachable⟩]⟩

/-! ## C5: the local increment sinker's fallback move -/

def Term.isSwitchEnum : Term → Bool
  | .switchEnum _ _ _ => true
  | _ => false

def Term.isCondBranch : Term → Bool
  | .condBranch _ _ _ _ _ => true
  | _ => false

def Term.isCheckedCastBranch : Term → Bool
  | .checkedCastBranch _ _ _ => true
  | _ => false

/-- A block ending in a switch_enum with two single-predecessor successors;
it holds a strong_retain followed by another instruction. -/
def switchRetainFn : Fn :=
  ⟨[⟨1, [], [⟨20, .strongRetain, [7], none⟩, ⟨21, .generic 0 false false, [], none⟩],
     .switchEnum 8 [(caseA, 2), (caseB, 3)] none⟩,
    ⟨2, [9], [], .unreachable⟩, ⟨3, [], [], .unreachable⟩]⟩

/-- Witness for the amended C5 theorem: a retain in a block ending in a
plain branch is moved right before the terminator. -/
def plainRetainFn : Fn :=
  ⟨[⟨1, [], [⟨20, .strongRetain, [7], none⟩, ⟨21, .generic 0 false false, [], none⟩],
     .branch 2 []⟩, ⟨2, [], [], .unreachable⟩]⟩

/-! ## C6: atomicity of the bail-out paths -/

/-- An alias-analysis oracle reporting a decrement only at instruction 32. -/
def aaDec32 : AA := ⟨fun _ i => i.id = 32, fun _ _ => false⟩

/-- A block whose cond_br condition comes from a select_enum, holding a
retain_value followed by two more instructions, the last of which the
oracle reports as a potential decrement. -/
def selectEnumFn : Fn :=
  ⟨[⟨1, [], [⟨30, .selectEnum (some caseA), [9], some 15⟩,
      ⟨31, .retainValue, [9], none⟩,
      ⟨33, .generic 1 false false, [], none⟩,
      ⟨32, .generic 2 false false, [], none⟩],
     .condBranch 15 2 [] 3 []⟩,
    ⟨2, [], [], .unreachable⟩, ⟨3, [], [], .unreachable⟩]⟩

/-! ## C7 and C8: idempotence and statistic honesty of the pass -/

/-- A chain of blocks passing a value through two block-argument levels
into a strong_retain.  Shallow-root canonicalization strips only one level
per pass run. -/
def chainFn : Fn :=
  ⟨[⟨0, [], [], .branch 1 [10]⟩,
    ⟨1, [11], [], .branch 2 [11]⟩,
    ⟨2, [12], [⟨40, .strongRetain, [12], none⟩], .unreachable⟩]⟩

def chainRun1 : Fn × Nat × Stats × Bool :=
  processFunction aaNone id tyOfDefault noTrap [0, 1, 2] false true chainFn 100

def chainRun2 : Fn × Nat × Stats × Bool :=
  processFunction aaNone id tyOfDefault noTrap [0, 1, 2] false true chainRun1.1 chainRun1.2.1

def chainRun3 : Fn × Nat × Stats × Bool :=
  processFunction aaNone id tyOfDefault noTrap [0, 1, 2] false true chainRun2.1 chainRun2.2.1

/-! ## C10: self-loop discovered mid-merge -/

/-- The accumulated (case-list map, blot lists) after folding the merge
step over a list of predecessors, exactly as the do-while loop of
mergePredecessorStates does before any blots are applied. -/
def mergeAccumTriple (getState : Nat → Option BBState) (f : Fn)
    (vtcItems : List (Option (Value × EnumCase))) :
    BlotMap Value EnumBBCaseList × List Value × List Value → List Nat →
    BlotMap Value EnumBBCaseList × List Value × List Value
  | acc, [] => acc
  | acc, p :: rest =>
    match getState p with
    | none => acc
    | some ps =>
        mergeAccumTriple getState f vtcItems
          (mergeOnePred ps.valueToCase (singleSuccOf f p).isSome p vtcItems acc) rest

/-- A CFG where block 4 has predecessors 1, 2 and itself (a self-loop). -/
def selfLoopFn : Fn :=
  ⟨[⟨1, [], [], .branch 4 []⟩, ⟨2, [], [], .branch 4 []⟩,
    ⟨4, [], [], .branch 4 []⟩]⟩

/-- Dataflow states for the self-loop fixture: predecessors 1 and 2 know
conflicting cases for value 7. -/
def selfLoopStates : Nat → Option BBState := fun b =>
  if b = 1 then some ⟨1, ⟨[some (7, caseA)]⟩, BlotMap.empty⟩
  else if b = 2 then some ⟨2, ⟨[some (7, caseB)]⟩, BlotMap.empty⟩
  else none

/-- The conflict-merge witness fixture: two predecessors of block 3 with
conflicting cases for value 7. -/
def conflictFn : Fn :=
  ⟨[⟨1, [], [], .branch 3 []⟩, ⟨2, [], [], .branch 3 []⟩,
    ⟨3, [], [], .unreachable⟩]⟩

def conflictCaseAt : Nat → EnumCase := fun p => if p = 1 then caseA else caseB

/-- The sinking witness fixture: two predecessors of block 3 build the same
struct from the values they branch to block 3 with. -/
def sinkCand : Inst := ⟨10, .structCtor 0, [40, 41], some 60⟩

def sinkDup : Inst := ⟨20, .structCtor 0, [50, 51], some 61⟩

def sinkBB : Block := ⟨3, [70, 71], [], .ret 70⟩

def sinkFP : Block := ⟨1, [], [sinkCand], .branch 3 [40, 41]⟩

def sinkFixFn : Fn := ⟨[sinkFP, ⟨2, [], [sinkDup], .branch 3 [50, 51]⟩, sinkBB]⟩

/-! ## The sink-search window bound -/

/-- sinkLoop instrumented with the list of scan positions it visits
(position 0 is the terminator); the computation is unchanged. -/
def sinkLoopPositions (fuel : Nat) (f : Fn) (bbId fpId : Nat)
    (m : ValueToBBArgIdxMap) (stats : Stats) (changed : Bool)
    (pos budget : Nat) (trace : List Nat) : (Fn × Stats × Bool) × List Nat :=
  match fuel with
  | 0 => ((f, stats, changed), trace)
  | fuel + 1 =>
    if budget = 0 then ((f, stats, changed), trace)
    else
      match f.findBlock fpId with
      | none => ((f, stats, changed), trace)
      | some fp =>
        if pos = 0 then
          if fp.insts.isEmpty then ((f, stats, changed), trace ++ [pos])
          else sinkLoopPositions fuel f bbId fpId m stats changed 1 (budget - 1)
            (trace ++ [pos])
        else
          match fp.insts.reverse.get? (pos - 1) with
          | none => ((f, stats, changed), trace ++ [pos])
          | some cand =>
            let sunk :=
              if canSinkInstruction f cand then
                let (dups, rel) :=
                  findDupsLoop f m fpId cand .notDeterminedYet [] (predsOf f bbId)
                if dups.isEmpty then none else some (dups, rel)
              else none
            match sunk with
            | some (dups, rel) =>
                sinkLoopPositions fuel (applySink f bbId fpId m cand dups rel)
                  bbId fpId m (stats + ⟨dups.length, 0, 0⟩) true 0 budget
                  (trace ++ [pos])
            | none =>
                if isSinkBarrier cand then ((f, stats, changed), trace ++ [pos])
                else if pos = fp.insts.length then ((f, stats, changed), trace ++ [pos])
                else sinkLoopPositions fuel f bbId fpId m stats changed (pos + 1)
                  (budget - 1) (trace ++ [pos])

/-! ## C1: the dataflow transfer on retain_value / release_value -/

/-- C1: For every RetainValue or ReleaseValue instruction whose operand has a
known enum case in valueToCase at the point the dataflow transfer visits it:
if that case has no payload, the instruction is erased (the visitor returns
an empty replacement list); if the case has a payload, the instruction is
replaced by an UncheckedEnumData extracting the payload followed by — when
the payload type is non-trivial — a StrongRetain/StrongRelease if the
payload is reference counted, else a RetainValue/ReleaseValue, and the
original instruction is erased (it never appears in the replacement list). -/
theorem retain_release_value_transfer
    (m : BlotMap Value EnumCase) (v : Value) (c : EnumCase) (idR idL fresh : Nat)
    (h : m.find v = some c) :
    (c.hasArgumentType = false →
      (visitRetainValueInst m ⟨idR, .retainValue, [v], none⟩ fresh).insts = [] ∧
      (visitRetainValueInst m ⟨idR, .retainValue, [v], none⟩ fresh).changed = true ∧
      (visitReleaseValueInst m ⟨idL, .releaseValue, [v], none⟩ fresh).insts = [] ∧
      (visitReleaseValueInst m ⟨idL, .releaseValue, [v], none⟩ fresh).changed = true) ∧
    (c.hasArgumentType = true →
      (visitRetainValueInst m ⟨idR, .retainValue, [v], none⟩ fresh).insts =
        ⟨fresh, .uncheckedEnumData c, [v], some (fresh + 1)⟩ ::
          (if c.payloadTrivial then []
           else [⟨fresh + 2,
                  (if c.payloadRefCounted then Opcode.strongRetain else Opcode.retainValue),
                  [fresh + 1], none⟩]) ∧
      (visitRetainValueInst m ⟨idR, .retainValue, [v], none⟩ fresh).changed = true ∧
      (visitReleaseValueInst m ⟨idL, .releaseValue, [v], none⟩ fresh).insts =
        ⟨fresh, .uncheckedEnumData c, [v], some (fresh + 1)⟩ ::
          (if c.payloadTrivial then []
           else [⟨fresh + 2,
                  (if c.payloadRefCounted then Opcode.strongRelease else Opcode.releaseValue),
                  [fresh + 1], none⟩]) ∧
      (visitReleaseValueInst m ⟨idL, .releaseValue, [v], none⟩ fresh).changed = true) := by
  cases hA : c.hasArgumentType <;>
    cases hT : c.payloadTrivial <;>
      cases hR : c.payloadRefCounted <;>
        simp [visitRetainValueInst, visitReleaseValueInst, createRefCountOpForPayload,
          h, hA, hT, hR]

/-- Witness for C1 at a concrete map, value and payloaded case. -/
theorem retain_release_value_transfer_witness :
    BlotMap.find ⟨[some (5, caseA)]⟩ 5 = some caseA ∧
    (visitRetainValueInst ⟨[some (5, caseA)]⟩ ⟨1, .retainValue, [5], none⟩ 10).changed = true :=
  ⟨rfl,
   ((retain_release_value_transfer ⟨[some (5, caseA)]⟩ 5 caseA 1 2 10 rfl).2 rfl).2.1⟩

/-! ## Block and instruction lookup lemmas -/

theorem findInstIn_filter_self (l : List Inst) (iid : Nat) :
    findInstIn (l.filter (fun i => ¬ i.id = iid)) iid = none := by
  induction l with
  | nil => rfl
  | cons i t ih =>
    by_cases h : i.id = iid
    · rw [List.filter_cons_of_neg (by simp [h])]
      exact ih
    · rw [List.filter_cons_of_pos (by simp [h])]
      rw [findInstIn]
      rw [if_neg h]
      simpa using ih

theorem findBlockIn_map_presId (g : Block → Block) (hg : ∀ b, (g b).id = b.id)
    (l : List Block) (bid : Nat) :
    findBlockIn (l.map g) bid = (findBlockIn l bid).map g := by
  induction l with
  | nil => rfl
  | cons b t ih =>
    by_cases h : b.id = bid
    · simp [findBlockIn, hg, h]
    · simp [findBlockIn, hg, h, ih]

theorem findBlockIn_id (l : List Block) (bid : Nat) (b : Block)
    (h : findBlockIn l bid = some b) : b.id = bid := by
  induction l with
  | nil => cases h
  | cons x t ih =>
    by_cases hx : x.id = bid
    · rw [findBlockIn] at h
      simp only [hx, if_true] at h
      cases h
      exact hx
    · exact ih (by simpa [findBlockIn, hx] using h)

theorem findBlock_eraseInst (f : Fn) (iid bid : Nat) :
    (eraseInst f iid).findBlock bid =
      (f.findBlock bid).map
        (fun b => { b with insts := b.insts.filter (fun i => ¬ i.id = iid) }) := by
  unfold Fn.findBlock eraseInst
  exact findBlockIn_map_presId
    (fun b => { b with insts := b.insts.filter (fun i => ¬ i.id = iid) })
    (fun _ => rfl) f.blocks bid

theorem findInstInBlock_eraseInst_self (f : Fn) (bid iid : Nat) :
    findInstInBlock (eraseInst f iid) bid iid = none := by
  unfold findInstInBlock
  rw [findBlock_eraseInst]
  cases f.findBlock bid with
  | none => rfl
  | some b => simpa using findInstIn_filter_self b.insts iid

theorem findBlock_mapBlockById_self (f : Fn) (bid : Nat) (g : Block → Block)
    (hg : ∀ b, (g b).id = b.id) :
    (mapBlockById f bid g).findBlock bid = (f.findBlock bid).map g := by
  unfold mapBlockById Fn.findBlock
  rw [findBlockIn_map_presId (fun b => if b.id = bid then g b else b)
    (by intro b; by_cases h : b.id = bid <;> simp [h, hg]) f.blocks bid]
  cases hb : findBlockIn f.blocks bid with
  | none => rfl
  | some b => simp [findBlockIn_id _ _ _ hb]

theorem findBlock_mapBlockById_other (f : Fn) (bid : Nat) (g : Block → Block)
    (hg : ∀ b, (g b).id = b.id) (q : Nat) (hq : ¬ q = bid) :
    (mapBlockById f bid g).findBlock q = f.findBlock q := by
  unfold mapBlockById Fn.findBlock
  rw [findBlockIn_map_presId (fun b => if b.id = bid then g b else b)
    (by intro b; by_cases h : b.id = bid <;> simp [h, hg]) f.blocks q]
  cases hb : findBlockIn f.blocks q with
  | none => rfl
  | some b =>
    have hid := findBlockIn_id _ _ _ hb
    have : ¬ b.id = bid := by rw [hid]; exact hq
    simp [this]

theorem findBlock_appendInsts_self (f : Fn) (p : Nat) (new : List Inst) :
    (appendInsts f p new).findBlock p =
      (f.findBlock p).map (fun b => { b with insts := b.insts ++ new }) :=
  findBlock_mapBlockById_self f p (fun b => { b with insts := b.insts ++ new })
    (fun _ => rfl)

theorem findBlock_appendInsts_other (f : Fn) (p : Nat) (new : List Inst)
    (q : Nat) (hq : ¬ q = p) :
    (appendInsts f p new).findBlock q = f.findBlock q :=
  findBlock_mapBlockById_other f p (fun b => { b with insts := b.insts ++ new })
    (fun _ => rfl) q hq

/-! ## createRefCountOpForPayload accounting lemmas -/

theorem createRefCountOpForPayload_fresh_le (I : Inst) (c : EnumCase)
    (d : Option Value) (fresh : Nat) :
    fresh ≤ (createRefCountOpForPayload I c d fresh).2.1 := by
  unfold createRefCountOpForPayload
  split_ifs <;> simp_arith

theorem createRefCountOpForPayload_ids_ge (I : Inst) (c : EnumCase)
    (d : Option Value) (fresh : Nat) :
    ∀ i ∈ (createRefCountOpForPayload I c d fresh).1, fresh ≤ i.id := by
  unfold createRefCountOpForPayload
  split_ifs
  · intro i hi; simp at hi; subst hi; simp_arith
  · intro i hi; simp at hi; rcases hi with rfl | rfl <;> simp_arith
  · intro i hi; simp at hi; rcases hi with rfl | rfl <;> simp_arith
  · intro i hi; simp at hi; rcases hi with rfl | rfl <;> simp_arith
  · intro i hi; simp at hi; rcases hi with rfl | rfl <;> simp_arith

theorem createRefCountOpForPayload_stats (I : Inst) (c : EnumCase)
    (d : Option Value) (fresh : Nat) :
    (createRefCountOpForPayload I c d fresh).2.2 =
      ⟨0, if c.payloadTrivial then 0 else 1, 0⟩ := by
  unfold createRefCountOpForPayload
  split_ifs with h <;> simp [Stats.zero, h]

/-! ## hoistPayloadReleases lemmas -/

theorem hoistPayloadReleases_cons (rvi : Inst) (q : Nat) (c : EnumCase)
    (t : EnumBBCaseList) (f : Fn) (fresh : Nat) :
    hoistPayloadReleases rvi f fresh ((q, c) :: t) =
      if c.hasArgumentType then
        ((hoistPayloadReleases rvi
            (appendInsts f q (createRefCountOpForPayload rvi c none fresh).1)
            (createRefCountOpForPayload rvi c none fresh).2.1 t).1,
         (hoistPayloadReleases rvi
            (appendInsts f q (createRefCountOpForPayload rvi c none fresh).1)
            (createRefCountOpForPayload rvi c none fresh).2.1 t).2.1,
         (createRefCountOpForPayload rvi c none fresh).2.2 +
           (hoistPayloadReleases rvi
              (appendInsts f q (createRefCountOpForPayload rvi c none fresh).1)
              (createRefCountOpForPayload rvi c none fresh).2.1 t).2.2)
      else hoistPayloadReleases rvi f fresh t := rfl

theorem hoistPayloadReleases_fresh_le (rvi : Inst) (l : EnumBBCaseList) :
    ∀ (f : Fn) (fresh : Nat), fresh ≤ (hoistPayloadReleases rvi f fresh l).2.1 := by
  induction l with
  | nil => intro f fresh; exact le_refl _
  | cons hd t ih =>
    intro f fresh
    obtain ⟨q, c⟩ := hd
    rw [hoistPayloadReleases_cons]
    by_cases hc : c.hasArgumentType
    · rw [if_pos hc]
      exact le_trans (createRefCountOpForPayload_fresh_le rvi c none fresh) (ih _ _)
    · rw [if_neg hc]
      exact ih _ _

theorem hoistPayloadReleases_numHoisted (rvi : Inst) (l : EnumBBCaseList) :
    ∀ (f : Fn) (fresh : Nat),
      (hoistPayloadReleases rvi f fresh l).2.2.numHoisted = 0 ∧
      (hoistPayloadReleases rvi f fresh l).2.2.numSunk = 0 := by
  induction l with
  | nil => intro f fresh; exact ⟨rfl, rfl⟩
  | cons hd t ih =>
    intro f fresh
    obtain ⟨q, c⟩ := hd
    rw [hoistPayloadReleases_cons]
    by_cases hc : c.hasArgumentType
    · rw [if_pos hc]
      have h1 := createRefCountOpForPayload_stats rvi c none fresh
      have h2 := ih (appendInsts f q (createRefCountOpForPayload rvi c none fresh).1)
        (createRefCountOpForPayload rvi c none fresh).2.1
      constructor
      · show ((createRefCountOpForPayload rvi c none fresh).2.2 + _).numHoisted = 0
        rw [h1]
        show (Stats.add _ _).numHoisted = 0
        simp [Stats.add, h2.1]
      · show ((createRefCountOpForPayload rvi c none fresh).2.2 + _).numSunk = 0
        rw [h1]
        show (Stats.add _ _).numSunk = 0
        simp [Stats.add, h2.2]
    · rw [if_neg hc]
      exact ih _ _

theorem hoistPayloadReleases_findBlock_notin (rvi : Inst) (l : EnumBBCaseList) :
    ∀ (f : Fn) (fresh p : Nat), p ∉ l.map Prod.fst →
      (hoistPayloadReleases rvi f fresh l).1.findBlock p = f.findBlock p := by
  induction l with
  | nil => intro f fresh p _; rfl
  | cons hd t ih =>
    intro f fresh p hp
    obtain ⟨q, c⟩ := hd
    simp only [List.map_cons, List.mem_cons, not_or] at hp
    rw [hoistPayloadReleases_cons]
    by_cases hc : c.hasArgumentType
    · rw [if_pos hc]
      show (hoistPayloadReleases rvi _ _ t).1.findBlock p = _
      rw [ih _ _ _ hp.2]
      exact findBlock_appendInsts_other f q _ p (fun he => hp.1 (he.symm ▸ rfl))
    · rw [if_neg hc]
      exact ih _ _ _ hp.2

theorem hoistPayloadReleases_findBlock_mem (rvi : Inst) (l : EnumBBCaseList) :
    ∀ (f : Fn) (fresh p : Nat) (c : EnumCase),
      (p, c) ∈ l → (l.map Prod.fst).Nodup → c.hasArgumentType = true →
      ∃ fr, fresh ≤ fr ∧
        (hoistPayloadReleases rvi f fresh l).1.findBlock p =
          (f.findBlock p).map (fun b =>
            { b with insts := b.insts ++ (createRefCountOpForPayload rvi c none fr).1 }) ∧
        (∀ i ∈ (createRefCountOpForPayload rvi c none fr).1, fresh ≤ i.id) := by
  induction l with
  | nil => intro f fresh p c h; cases h
  | cons hd t ih =>
    intro f fresh p c hmem hnodup hc
    obtain ⟨q, d⟩ := hd
    simp only [List.map_cons, List.nodup_cons] at hnodup
    rcases List.mem_cons.mp hmem with heq | htail
    · cases heq
      refine ⟨fresh, le_refl _, ?_, createRefCountOpForPayload_ids_ge rvi c none fresh⟩
      rw [hoistPayloadReleases_cons, if_pos hc]
      show (hoistPayloadReleases rvi _ _ t).1.findBlock p = _
      rw [hoistPayloadReleases_findBlock_notin rvi t _ _ _ hnodup.1,
        findBlock_appendInsts_self]
    · have hqp : ¬ p = q := by
        intro he
        exact hnodup.1 (he ▸ (List.mem_map.mpr ⟨(p, c), htail, rfl⟩))
      rw [hoistPayloadReleases_cons]
      by_cases hd' : d.hasArgumentType
      · rw [if_pos hd']
        obtain ⟨fr, hfr, heq2, hids⟩ :=
          ih (appendInsts f q (createRefCountOpForPayload rvi d none fresh).1)
            (createRefCountOpForPayload rvi d none fresh).2.1 p c htail hnodup.2 hc
        refine ⟨fr,
          le_trans (createRefCountOpForPayload_fresh_le rvi d none fresh) hfr, ?_, ?_⟩
        · show (hoistPayloadReleases rvi _ _ t).1.findBlock p = _
          rw [heq2, findBlock_appendInsts_other f q _ p hqp]
        · intro i hi
          exact le_trans (createRefCountOpForPayload_fresh_le rvi d none fresh) (hids i hi)
      · rw [if_neg hd']
        exact ih f fresh p c htail hnodup.2 hc

/-- C4 counterexample: a strong_release whose operand has a full
per-predecessor case list and no intervening ARC use is NOT hoisted —
hoistDecrementsIntoSwitchRegions only handles release_value, so the
function returns unchanged and the strong_release survives. -/
theorem hoistDecrements_ignores_strongRelease :
    hoistStrongState.hoistDecrementsIntoSwitchRegions aaNone hoistStrongFn 100 =
      (hoistStrongFn, 100, Stats.zero, false) ∧
    findInstFn hoistStrongFn 10 = some ⟨10, .strongRelease, [7], none⟩ ∧
    hoistStrongState.enumToCaseList.find 7 = some [(1, caseA), (2, caseB)] ∧
    (predsOf hoistStrongFn 3).length = 2 := by
  refine ⟨?_, rfl, rfl, rfl⟩
  rfl

/-- C4 (amended): the per-release body of hoistDecrementsIntoSwitchRegions,
restricted to ReleaseValue instructions as in the code.  When the visited
instruction is a release_value whose operand's case list has one entry per
predecessor and no ARC use of the operand occurs from the block's first
instruction to the release, the step reports a change, increments
NumHoisted once, erases the release from the function, and appends the
payload ref-count operations produced by createRefCountOpForPayload before
the terminator of every predecessor whose case has a payload. -/
theorem hoistDecStep_releaseValue
    (aa : AA) (bb numPreds : Nat) (etc : BlotMap Value EnumBBCaseList)
    (f : Fn) (fresh iid : Nat) (st : Stats) (ch : Bool) (rvi : Inst)
    (l : EnumBBCaseList)
    (hinst : findInstInBlock f bb iid = some rvi)
    (hop : rvi.opcode = .releaseValue)
    (hfind : etc.find (rvi.operands.getD 0 0) = some l)
    (hlen : l.length = numPreds)
    (harc : valueHasARCUsesInInstructionRange aa (rvi.operands.getD 0 0)
        (match f.findBlock bb with
         | some b => beforeInst iid b.insts
         | none => []) = false)
    (hnodup : (l.map Prod.fst).Nodup)
    (hiid : iid < fresh) :
    (hoistDecStep aa bb numPreds etc (f, fresh, st, ch) iid).2.2.2 = true ∧
    (hoistDecStep aa bb numPreds etc (f, fresh, st, ch) iid).2.2.1.numHoisted =
      st.numHoisted + 1 ∧
    findInstInBlock (hoistDecStep aa bb numPreds etc (f, fresh, st, ch) iid).1 bb iid =
      none ∧
    (∀ p c, (p, c) ∈ l → c.hasArgumentType = true →
      ∀ ob, f.findBlock p = some ob → (∀ i ∈ ob.insts, ¬ i.id = iid) →
      ∃ fr, fresh ≤ fr ∧
        (hoistDecStep aa bb numPreds etc (f, fresh, st, ch) iid).1.findBlock p =
          some { ob with insts :=
            ob.insts ++ (createRefCountOpForPayload rvi c none fr).1 }) := by
  have hstep : hoistDecStep aa bb numPreds etc (f, fresh, st, ch) iid =
      (eraseInst (hoistPayloadReleases rvi f fresh l).1 iid,
       (hoistPayloadReleases rvi f fresh l).2.1,
       st + (hoistPayloadReleases rvi f fresh l).2.2 + ⟨0, 0, 1⟩, true) := by
    simp only [hoistDecStep, hinst, hop, hfind, hlen, harc]
    simp
  refine ⟨by rw [hstep], ?_, ?_, ?_⟩
  · rw [hstep]
    show ((st + (hoistPayloadReleases rvi f fresh l).2.2).add ⟨0, 0, 1⟩).numHoisted =
      st.numHoisted + 1
    show ((st.add (hoistPayloadReleases rvi f fresh l).2.2).add ⟨0, 0, 1⟩).numHoisted =
      st.numHoisted + 1
    simp [Stats.add, (hoistPayloadReleases_numHoisted rvi l f fresh).1]
  · rw [hstep]
    exact findInstInBlock_eraseInst_self _ bb iid
  · intro p c hmem hc ob hob hobids
    obtain ⟨fr, hfr, heq, hids⟩ :=
      hoistPayloadReleases_findBlock_mem rvi l f fresh p c hmem hnodup hc
    refine ⟨fr, hfr, ?_⟩
    rw [hstep]
    show (eraseInst (hoistPayloadReleases rvi f fresh l).1 iid).findBlock p = _
    rw [findBlock_eraseInst, heq, hob]
    have hfil1 : ob.insts.filter (fun i => !decide (i.id = iid)) = ob.insts :=
      List.filter_eq_self.mpr (fun a ha => by simp [hobids a ha])
    have hfil2 : (createRefCountOpForPayload rvi c none fr).1.filter
        (fun i => !decide (i.id = iid)) = (createRefCountOpForPayload rvi c none fr).1 := by
      refine List.filter_eq_self.mpr (fun a ha => ?_)
      have h1 := hids a ha
      have h2 : ¬ a.id = iid := by omega
      simp [h2]
    simp [List.filter_append, hfil1, hfil2]

theorem hoistDecStep_releaseValue_witness :
    (hoistDecStep aaNone 3 2 ⟨[some (7, [(1, caseA), (2, caseB)])]⟩
      (hoistValueFn, 100, Stats.zero, false) 10).2.2.2 = true :=
  (hoistDecStep_releaseValue aaNone 3 2 ⟨[some (7, [(1, caseA), (2, caseB)])]⟩
    hoistValueFn 100 10 Stats.zero false ⟨10, .releaseValue, [7], none⟩
    [(1, caseA), (2, caseB)] rfl rfl rfl rfl rfl (by decide) (by decide)).1

/-- C5 counterexample: a StrongRetain in a block ending in switch_enum with
sinkable successors.  None of the earlier cases applies (the across-switch
sink requires a RetainValue, the terminator is not a cond_br or
checked_cast_br, and there is no intervening decrement), yet the local
increment sinker leaves the function unchanged — the retain is NOT moved
before the terminator, because the switch_enum dispatch returns early. -/
theorem strongRetain_before_switch_not_moved :
    sinkRefCountIncrement aaNone id tyOfDefault noTrap switchRetainFn 1 100 =
      (switchRetainFn, 100, Stats.zero, false) ∧
    (switchRetainFn.findBlock 1).map (fun b => b.insts.map Inst.id) =
      some [20, 21] := by
  exact ⟨rfl, rfl⟩

theorem findBlock_moveBeforeTerm (f : Fn) (iid bid : Nat) (i : Inst)
    (hfind : findInstFn f iid = some i) :
    (moveBeforeTerm f iid bid).findBlock bid =
      (f.findBlock bid).map
        (fun b => { b with insts := b.insts.filter (fun j => ¬ j.id = iid) ++ [i] }) := by
  unfold moveBeforeTerm
  rw [hfind, findBlock_appendInsts_self, findBlock_eraseInst]
  cases f.findBlock bid <;> rfl

/-- C5 (amended): for every retain (StrongRetain or RetainValue) visited by
tryToSinkRefCountInst, when no intervening ARC decrement or check exists
and the terminator-directed cases do not fire — that is, either sinking to
successors is impossible, or the terminator is none of SwitchEnum,
CondBranch and CheckedCastBranch — the retain is moved to the position
right before the block's terminator and the transform reports a change.
(The original claim also promised the move when the terminator is a
SwitchEnum and sinking to successors is possible; in that case the code
returns early from the across-switch attempt without moving anything.) -/
theorem tryToSinkRefCountInst_fallback
    (aa : AA) (rcia : RCIA) (tyOf : Value → Ty) (trap : Nat → Bool)
    (f : Fn) (bbId : Nat) (i : Inst) (canS : Bool) (fresh : Nat) (blk : Block)
    (hblk : f.findBlock bbId = some blk)
    (hop : i.opcode = .strongRetain ∨ i.opcode = .retainValue)
    (hdec : valueHasARCDecrementOrCheckInInstructionRange aa (i.operands.getD 0 0)
        (afterInst i.id blk.insts) = none)
    (hterm : canS = false ∨
      (blk.term.isSwitchEnum = false ∧ blk.term.isCondBranch = false ∧
        blk.term.isCheckedCastBranch = false)) :
    tryToSinkRefCountInst aa rcia tyOf trap f bbId i canS fresh =
      (moveBeforeTerm f i.id bbId, fresh, Stats.zero, true) ∧
    (∀ _hi : findInstFn f i.id = some i,
      (tryToSinkRefCountInst aa rcia tyOf trap f bbId i canS fresh).1.findBlock bbId =
        some { blk with insts := blk.insts.filter (fun j => ¬ j.id = i.id) ++ [i] }) := by
  have hopneg : ¬ ¬ (i.opcode = .strongRetain ∨ i.opcode = .retainValue) :=
    not_not_intro hop
  have hrest : tryToSinkRest aa trap f bbId i canS fresh =
      (moveBeforeTerm f i.id bbId, fresh, Stats.zero, true) := by
    rcases hterm with hc | ⟨h1, h2, h3⟩
    · subst hc
      simp only [tryToSinkRest, hblk, hdec]
      simp [hopneg]
    · cases htm : blk.term with
      | switchEnum op cs d => rw [htm] at h1; simp [Term.isSwitchEnum] at h1
      | condBranch c t ta fd fa => rw [htm] at h2; simp [Term.isCondBranch] at h2
      | checkedCastBranch op sd fd => rw [htm] at h3; simp [Term.isCheckedCastBranch] at h3
      | branch d args =>
          simp only [tryToSinkRest, hblk, hdec, htm]
          simp [hopneg]
      | ret op =>
          simp only [tryToSinkRest, hblk, hdec, htm]
          simp [hopneg]
      | unreachable =>
          simp only [tryToSinkRest, hblk, hdec, htm]
          simp [hopneg]
  have hmain : tryToSinkRefCountInst aa rcia tyOf trap f bbId i canS fresh =
      (moveBeforeTerm f i.id bbId, fresh, Stats.zero, true) := by
    rcases hterm with hc | ⟨h1, h2, h3⟩
    · subst hc
      simp only [tryToSinkRefCountInst, hblk]
      simpa using hrest
    · cases htm : blk.term with
      | switchEnum op cs d => rw [htm] at h1; simp [Term.isSwitchEnum] at h1
      | condBranch c t ta fd fa => rw [htm] at h2; simp [Term.isCondBranch] at h2
      | checkedCastBranch op sd fd => rw [htm] at h3; simp [Term.isCheckedCastBranch] at h3
      | branch d args =>
          simp only [tryToSinkRefCountInst, hblk, htm]
          cases canS <;> simpa [htm] using hrest
      | ret op =>
          simp only [tryToSinkRefCountInst, hblk, htm]
          cases canS <;> simpa [htm] using hrest
      | unreachable =>
          simp only [tryToSinkRefCountInst, hblk, htm]
          cases canS <;> simpa [htm] using hrest
  refine ⟨hmain, fun hi => ?_⟩
  rw [hmain]
  show (moveBeforeTerm f i.id bbId).findBlock bbId = _
  rw [findBlock_moveBeforeTerm f i.id bbId i hi, hblk]
  rfl

theorem tryToSinkRefCountInst_fallback_witness :
    tryToSinkRefCountInst aaNone id tyOfDefault noTrap plainRetainFn 1
        ⟨20, .strongRetain, [7], none⟩ true 100 =
      (moveBeforeTerm plainRetainFn 20 1, 100, Stats.zero, true) :=
  (tryToSinkRefCountInst_fallback aaNone id tyOfDefault noTrap plainRetainFn 1
    ⟨20, .strongRetain, [7], none⟩ true 100
    ⟨1, [], [⟨20, .strongRetain, [7], none⟩, ⟨21, .generic 0 false false, [], none⟩],
     .branch 2 []⟩
    rfl (Or.inl rfl) rfl (Or.inr (by decide))).1

/-- C6 counterexample: tryToSinkRefCountAcrossSelectEnum reports no change
(returns false) yet has moved the retain before the intervening decrement:
the bail path is not atomic. -/
theorem selectEnum_bail_is_not_atomic :
    (tryToSinkRefCountAcrossSelectEnum aaDec32 id tyOfDefault selectEnumFn 1 15 2 3
      ⟨31, .retainValue, [9], none⟩ 100).2.2.2 = false ∧
    ¬ (tryToSinkRefCountAcrossSelectEnum aaDec32 id tyOfDefault selectEnumFn 1 15 2 3
      ⟨31, .retainValue, [9], none⟩ 100).1 = selectEnumFn ∧
    ((tryToSinkRefCountAcrossSelectEnum aaDec32 id tyOfDefault selectEnumFn 1 15 2 3
      ⟨31, .retainValue, [9], none⟩ 100).1.findBlock 1).map (fun b => b.insts.map Inst.id) =
      some [30, 33, 31, 32] := by
  refine ⟨rfl, by decide, rfl⟩

/-- tryToSinkRefCountAcrossSwitch is atomic on every bail path — whenever
it reports no change the function is exactly as it was — and
tryToSinkRefCountAcrossSelectEnum is atomic on every bail path except one:
when an intervening ARC decrement or check is found, it moves the retain
before that instruction and still reports no change. -/
theorem crossTerminatorSinks_bail :
    (∀ (aa : AA) (rcia : RCIA) (f : Fn) (bbId : Nat) (swOp : Value)
        (cases_ : List (EnumCase × Nat)) (dflt : Option Nat) (rv : Inst) (fresh : Nat),
      (tryToSinkRefCountAcrossSwitch aa rcia f bbId swOp cases_ dflt rv fresh).2.2.2 = false →
      (tryToSinkRefCountAcrossSwitch aa rcia f bbId swOp cases_ dflt rv fresh).1 = f) ∧
    (∀ (aa : AA) (rcia : RCIA) (tyOf : Value → Ty) (f : Fn) (bbId : Nat)
        (cond : Value) (tD fD : Nat) (i : Inst) (fresh : Nat),
      (tryToSinkRefCountAcrossSelectEnum aa rcia tyOf f bbId cond tD fD i fresh).2.2.2 = false →
      (tryToSinkRefCountAcrossSelectEnum aa rcia tyOf f bbId cond tD fD i fresh).1 = f ∨
      ∃ b, valueHasARCDecrementOrCheckInInstructionRange aa (i.operands.getD 0 0)
            (match f.findBlock bbId with
             | some blk => afterInst i.id blk.insts
             | none => []) = some b ∧
        (tryToSinkRefCountAcrossSelectEnum aa rcia tyOf f bbId cond tD fD i fresh).1 =
          moveInstBeforeInst f i.id b.id) := by
  constructor
  · intro aa rcia f bbId swOp cases_ dflt rv fresh hch
    by_cases h1 : rv.opcode = .retainValue
    · cases hfind : valueHasARCDecrementOrCheckInInstructionRange aa
          (rv.operands.getD 0 0)
          (match f.findBlock bbId with
           | some b => fromInst rv.id b.insts
           | none => []) with
      | some b =>
          exfalso
          simp only [tryToSinkRefCountAcrossSwitch, h1, hfind] at hch
          simp at hch
      | none =>
          by_cases h2 : rcia (rv.operands.getD 0 0) = rcia swOp
          · by_cases h3 : dflt.isSome
            · simp only [tryToSinkRefCountAcrossSwitch, h1, hfind, h2, h3]; simp
            · exfalso
              simp only [tryToSinkRefCountAcrossSwitch, h1, hfind] at hch
              simp at h2
              simp [h2, h3] at hch
          · simp only [tryToSinkRefCountAcrossSwitch, h1, hfind]
            simp at h2
            simp [h2]
    · simp only [tryToSinkRefCountAcrossSwitch, h1]; simp [h1]
  · intro aa rcia tyOf f bbId cond tD fD i fresh hch
    by_cases h1 : i.opcode = .retainValue
    case neg =>
      left; simp only [tryToSinkRefCountAcrossSelectEnum, h1]; simp [h1]
    case pos =>
      cases hdef : defOf f cond with
      | none =>
          left; simp only [tryToSinkRefCountAcrossSelectEnum, h1, hdef]; simp [h1]
      | some sei =>
        cases hsop : sei.opcode
        case selectEnum te =>
          cases te with
          | none =>
              left
              simp only [tryToSinkRefCountAcrossSelectEnum, h1, hdef, hsop]; simp [h1]
          | some trueElt =>
            cases hfind : valueHasARCDecrementOrCheckInInstructionRange aa
                (i.operands.getD 0 0)
                (match f.findBlock bbId with
                 | some blk => afterInst i.id blk.insts
                 | none => []) with
            | some b =>
                right
                refine ⟨b, rfl, ?_⟩
                simp only [tryToSinkRefCountAcrossSelectEnum, h1, hdef, hsop, hfind]
                simp [h1]
            | none =>
                left
                by_cases h2 : rcia (i.operands.getD 0 0) = rcia (sei.operands.getD 0 0)
                · cases helems : (tyOf (sei.operands.getD 0 0)).enumElems with
                  | none =>
                      simp only [tryToSinkRefCountAcrossSelectEnum, h1, hdef, hsop,
                        hfind, h2, helems]
                      simp [h1]
                  | some elems =>
                    cases hoth : findSingleOtherElt trueElt elems none with
                    | none =>
                        simp only [tryToSinkRefCountAcrossSelectEnum, h1, hdef, hsop,
                          hfind, h2, helems, hoth]
                        simp [h1]
                    | some otherElt =>
                        exfalso
                        simp only [tryToSinkRefCountAcrossSelectEnum, h1, hdef, hsop,
                          hfind, h2, helems, hoth] at hch
                        simp [h1] at hch
                · simp only [tryToSinkRefCountAcrossSelectEnum, h1, hdef, hsop, hfind]
                  simp at h2
                  simp [h1, h2]
        all_goals left
        all_goals simp only [tryToSinkRefCountAcrossSelectEnum, h1, hdef, hsop]
        all_goals simp [h1]


/-- C7 counterexample: with the tunable at its default (disabled RR code
motion) and release hoisting off, the pass run on chainFn reports a change,
and a second run on its output reports a further change and modifies the
function again — the pass is not idempotent in one run
(canonicalizeRefCountInstrs strips one block-argument level per run). -/
theorem processFunction_not_idempotent :
    chainRun1.2.2.2 = true ∧ chainRun2.2.2.2 = true ∧
    ¬ chainRun2.1 = chainRun1.1 := by decide

/-- C7 (amended): a second run of the pass on its own output can report
further changes (one-step shallow-root canonicalization); repeated runs
converge — on the chain fixture the third run reports no change and leaves
the function unmodified. -/
theorem processFunction_runs_converge_on_chain :
    chainRun1.2.2.2 = true ∧ chainRun2.2.2.2 = true ∧
    chainRun3.2.2.2 = false ∧ chainRun3.1 = chainRun2.1 := by decide

/-- C8 counterexample: the pass run on chainFn changes the IR (and reports
a change), yet NumSunk + NumHoisted + NumRefCountOpsSimplified stays 0 —
the counter sum does not equal the number of successful transformations. -/
theorem stats_miss_canonicalization :
    chainRun1.2.2.2 = true ∧ ¬ chainRun1.1 = chainFn ∧
    chainRun1.2.2.1 = Stats.zero ∧ chainRun1.2.2.1.sum = 0 := by decide

/-- C8 (amended): the counters are incremented only at their dedicated
sites — createRefCountOpForPayload increments NumRefCountOpsSimplified
exactly once when the rewritten payload is non-trivial and no counter
otherwise — while IR-changing transforms outside those sites (such as
shallow-root canonicalization) increment no counter, so the counter sum
can be 0 on a run that changed the IR. -/
theorem stats_sites_accounting :
    (∀ (I : Inst) (c : EnumCase) (d : Option Value) (fresh : Nat),
      (createRefCountOpForPayload I c d fresh).2.2 =
        ⟨0, if c.payloadTrivial then 0 else 1, 0⟩) ∧
    chainRun1.2.2.2 = true ∧ chainRun1.2.2.1.sum = 0 :=
  ⟨createRefCountOpForPayload_stats, by decide, by decide⟩

theorem mergeLoop_self_loop (getState : Nat → Option BBState) (f : Fn)
    (bb : Nat) (post : List Nat) (vtc : BlotMap Value EnumCase) :
    ∀ (pre : List Nat) (etc : BlotMap Value EnumBBCaseList) (cur prd : List Value),
      (∀ p ∈ pre, ¬ p = bb ∧ (getState p).isSome) →
      mergeLoop getState f bb vtc etc cur prd (pre ++ bb :: post) =
        ⟨bb, vtc, (mergeAccumTriple getState f vtc.getItems (etc, cur, prd) pre).1⟩ := by
  intro pre
  induction pre with
  | nil =>
    intro etc cur prd _
    simp [mergeLoop, mergeAccumTriple]
  | cons q t ih =>
    intro etc cur prd hpre
    obtain ⟨hq, hqs⟩ := hpre q (List.mem_cons_self _ _)
    obtain ⟨ps, hps⟩ := Option.isSome_iff_exists.mp hqs
    rw [List.cons_append, mergeLoop, if_neg hq, hps]
    have hrec := ih (mergeOnePred ps.valueToCase (singleSuccOf f q).isSome q
        vtc.getItems (etc, cur, prd)).1
      (mergeOnePred ps.valueToCase (singleSuccOf f q).isSome q
        vtc.getItems (etc, cur, prd)).2.1
      (mergeOnePred ps.valueToCase (singleSuccOf f q).isSome q
        vtc.getItems (etc, cur, prd)).2.2
      (fun p hp => hpre p (List.mem_cons_of_mem _ hp))
    have hacc : (mergeAccumTriple getState f vtc.getItems (etc, cur, prd) (q :: t)).1 =
        (mergeAccumTriple getState f vtc.getItems
          (mergeOnePred ps.valueToCase (singleSuccOf f q).isSome q
            vtc.getItems (etc, cur, prd)) t).1 := by
      rw [mergeAccumTriple, hps]
    rw [hacc]
    exact hrec

/-- C10: if mergePredecessorStates encounters a predecessor equal to the
block itself after the first predecessor (a self-loop discovered
mid-merge), the merge returns the state accumulated so far without
applying any deferred blot: valueToCase is still exactly the copy of the
first predecessor's map (every entry of the copy, conflicting or not, is
still found), and enumToCaseList holds the partial accumulation over the
predecessors already examined. -/
theorem merge_self_loop_mid_merge
    (getState : Nat → Option BBState) (f : Fn) (tyOf : Value → Ty)
    (bb p1 : Nat) (pre post : List Nat) (s1 : BBState)
    (hpreds : predsOf f bb = p1 :: (pre ++ bb :: post))
    (hp1 : ¬ p1 = bb)
    (hinit : initWithFirstPred getState f (emptyState bb) p1 = some s1)
    (hpre : ∀ p ∈ pre, ¬ p = bb ∧ (getState p).isSome) :
    mergePredecessorStates getState f tyOf (emptyState bb) =
      ⟨bb, s1.valueToCase,
        (mergeAccumTriple getState f s1.valueToCase.getItems
          (s1.enumToCaseList, [], []) pre).1⟩ ∧
    (mergePredecessorStates getState f tyOf (emptyState bb)).valueToCase =
      s1.valueToCase ∧
    (∀ v c, s1.valueToCase.find v = some c →
      (mergePredecessorStates getState f tyOf (emptyState bb)).valueToCase.find v =
        some c) := by
  have hbb : s1.bb = bb := by
    cases hgs : getState p1 with
    | none => rw [initWithFirstPred, hgs] at hinit; cases hinit
    | some ps =>
        rw [initWithFirstPred, hgs] at hinit
        cases hinit
        rfl
  have hmain : mergePredecessorStates getState f tyOf (emptyState bb) =
      ⟨bb, s1.valueToCase,
        (mergeAccumTriple getState f s1.valueToCase.getItems
          (s1.enumToCaseList, [], []) pre).1⟩ := by
    simp only [emptyState] at hinit
    cases pre with
    | nil =>
        simp only [List.nil_append] at hpreds ⊢
        simp only [mergePredecessorStates, emptyState, hpreds, hp1, hinit, if_false]
        rw [hbb]
        exact mergeLoop_self_loop getState f bb post s1.valueToCase []
          s1.enumToCaseList [] [] (fun p hp => absurd hp (List.not_mem_nil p))
    | cons q t =>
        simp only [mergePredecessorStates, emptyState, hpreds, hp1, hinit, if_false]
        rw [hbb]
        exact mergeLoop_self_loop getState f bb post s1.valueToCase (q :: t)
          s1.enumToCaseList [] [] hpre
  refine ⟨hmain, ?_, ?_⟩
  · rw [hmain]
  · intro v c hv
    rw [hmain]
    exact hv

theorem merge_self_loop_mid_merge_witness :
    (mergePredecessorStates selfLoopStates selfLoopFn tyOfDefault
      (emptyState 4)).valueToCase = (⟨[some (7, caseA)]⟩ : BlotMap Value EnumCase) :=
  (merge_self_loop_mid_merge selfLoopStates selfLoopFn tyOfDefault 4 1 [2] []
    ⟨4, ⟨[some (7, caseA)]⟩, ⟨[some (7, [(1, caseA)])]⟩⟩
    (by decide) (by decide) (by decide) (by decide)).2.1

/-! ## BlotMap lookup lemmas -/

theorem BlotMap.findIn_insertIn_self {β : Type} (k : Value) (v : β) :
    ∀ slots, BlotMap.findIn k (BlotMap.insertIn k v slots) = some v := by
  intro slots
  induction slots with
  | nil => simp [BlotMap.insertIn, BlotMap.findIn]
  | cons s t ih =>
    cases s with
    | none => simpa [BlotMap.insertIn, BlotMap.findIn] using ih
    | some kv =>
      obtain ⟨a, b⟩ := kv
      by_cases h : a = k
      · simp [BlotMap.insertIn, BlotMap.findIn, h]
      · simp [BlotMap.insertIn, BlotMap.findIn, h, ih]

theorem BlotMap.findIn_insertIn_other {β : Type} (k k' : Value) (v : β)
    (h : ¬ k' = k) :
    ∀ slots, BlotMap.findIn k (BlotMap.insertIn k' v slots) =
      BlotMap.findIn k slots := by
  intro slots
  induction slots with
  | nil => simp [BlotMap.insertIn, BlotMap.findIn, h]
  | cons s t ih =>
    cases s with
    | none => simpa [BlotMap.insertIn, BlotMap.findIn] using ih
    | some kv =>
      obtain ⟨a, b⟩ := kv
      by_cases ha : a = k'
      · subst ha
        simp [BlotMap.insertIn, BlotMap.findIn, h]
      · by_cases hk : a = k
        · have hkk : ¬ k = k' := fun he => h he.symm
          simp [BlotMap.insertIn, BlotMap.findIn, ha, hk, hkk]
        · simp [BlotMap.insertIn, BlotMap.findIn, ha, hk, ih]

theorem BlotMap.find_insert_self {β : Type} (m : BlotMap Value β) (k : Value) (v : β) :
    (m.insert k v).find k = some v :=
  BlotMap.findIn_insertIn_self k v m.slots

theorem BlotMap.find_insert_other {β : Type} (m : BlotMap Value β) (k k' : Value)
    (v : β) (h : ¬ k' = k) : (m.insert k' v).find k = m.find k :=
  BlotMap.findIn_insertIn_other k k' v h m.slots

theorem pushCase_find_self (m : BlotMap Value EnumBBCaseList) (v : Value)
    (e : Nat × EnumCase) (old : EnumBBCaseList) (h : m.find v = some old) :
    (pushCase m v e).find v = some (old ++ [e]) := by
  unfold pushCase
  rw [h]
  exact BlotMap.find_insert_self m v (old ++ [e])

theorem pushCase_find_other (m : BlotMap Value EnumBBCaseList) (w : Value)
    (e : Nat × EnumCase) (v : Value) (h : ¬ w = v) :
    (pushCase m w e).find v = m.find v := by
  unfold pushCase
  cases m.find w <;> exact BlotMap.find_insert_other m v w _ h

theorem BlotMap.find_blot_self {β : Type} (m : BlotMap Value β) (k : Value) :
    (m.blot k).find k = none := by
  show BlotMap.findIn k _ = none
  unfold BlotMap.blot
  induction m.slots with
  | nil => rfl
  | cons s t ih =>
    cases s with
    | none => simpa [BlotMap.findIn] using ih
    | some kv =>
      obtain ⟨a, b⟩ := kv
      by_cases h : a = k
      · simpa [BlotMap.findIn, h] using ih
      · simpa [BlotMap.findIn, h] using ih

theorem BlotMap.find_blot_other {β : Type} (m : BlotMap Value β) (w k : Value)
    (h : ¬ w = k) : (m.blot w).find k = m.find k := by
  show BlotMap.findIn k _ = BlotMap.findIn k m.slots
  unfold BlotMap.blot
  induction m.slots with
  | nil => rfl
  | cons s t ih =>
    cases s with
    | none => simpa [BlotMap.findIn] using ih
    | some kv =>
      obtain ⟨a, b⟩ := kv
      by_cases ha : a = w
      · subst ha
        simp [BlotMap.findIn, h, ih]
      · by_cases hk : a = k
        · have hkw : ¬ k = w := fun he => h he.symm
          simp [BlotMap.findIn, ha, hk, hkw]
        · simp [BlotMap.findIn, ha, hk, ih]

theorem find_applyBlots_none {β : Type} (l : List Value) :
    ∀ (m : BlotMap Value β) (k : Value), m.find k = none →
      (applyBlots m l).find k = none := by
  induction l with
  | nil => intro m k h; exact h
  | cons x t ih =>
    intro m k h
    show (applyBlots (m.blot x) t).find k = none
    by_cases hx : x = k
    · subst hx
      exact ih _ _ (BlotMap.find_blot_self m x)
    · exact ih _ _ ((BlotMap.find_blot_other m x k hx).trans h)

theorem find_applyBlots_mem {β : Type} (l : List Value) :
    ∀ (m : BlotMap Value β) (k : Value), k ∈ l →
      (applyBlots m l).find k = none := by
  induction l with
  | nil => intro m k h; cases h
  | cons x t ih =>
    intro m k h
    show (applyBlots (m.blot x) t).find k = none
    rcases List.mem_cons.mp h with rfl | ht
    · exact find_applyBlots_none t _ k (BlotMap.find_blot_self m k)
    · exact ih _ k ht

theorem find_applyBlots_notmem {β : Type} (l : List Value) :
    ∀ (m : BlotMap Value β) (k : Value), k ∉ l →
      (applyBlots m l).find k = m.find k := by
  induction l with
  | nil => intro m k _; rfl
  | cons x t ih =>
    intro m k h
    show (applyBlots (m.blot x) t).find k = m.find k
    have hx : ¬ x = k := fun he => h (he ▸ List.mem_cons_self x t)
    rw [ih _ k (fun ht => h (List.mem_cons_of_mem x ht))]
    exact BlotMap.find_blot_other m x k hx

/-! ## Merge tracking lemmas for the conflict tombstone -/

theorem BlotMap.findIn_mem {β : Type} (k : Value) (b : β) :
    ∀ slots, BlotMap.findIn k slots = some b → some (k, b) ∈ slots := by
  intro slots
  induction slots with
  | nil => intro h; cases h
  | cons s t ih =>
    intro h
    cases s with
    | none => exact List.mem_cons_of_mem _ (ih (by simpa [BlotMap.findIn] using h))
    | some kv =>
      obtain ⟨a, c⟩ := kv
      by_cases ha : a = k
      · subst ha
        rw [BlotMap.findIn, if_pos rfl] at h
        cases h
        exact List.mem_cons_self _ _
      · rw [BlotMap.findIn, if_neg ha] at h
        exact List.mem_cons_of_mem _ (ih h)

theorem mergeOnePred_track_notin (psVtc : BlotMap Value EnumCase) (p : Nat)
    (v : Value) :
    ∀ (items : List (Option (Value × EnumCase))),
      (∀ w cw, some (w, cw) ∈ items → ¬ w = v) →
      ∀ (etc : BlotMap Value EnumBBCaseList) (cur prd : List Value),
        (mergeOnePred psVtc true p items (etc, cur, prd)).1.find v = etc.find v ∧
        (v ∈ (mergeOnePred psVtc true p items (etc, cur, prd)).2.1 ↔ v ∈ cur) ∧
        (v ∈ (mergeOnePred psVtc true p items (etc, cur, prd)).2.2 ↔ v ∈ prd) := by
  intro items
  induction items with
  | nil => intro _ etc cur prd; exact ⟨rfl, Iff.rfl, Iff.rfl⟩
  | cons slot rest ih =>
    intro hkeys etc cur prd
    have hkeys' : ∀ w cw, some (w, cw) ∈ rest → ¬ w = v :=
      fun w cw hw => hkeys w cw (List.mem_cons_of_mem _ hw)
    cases slot with
    | none =>
      show (mergeOnePred psVtc true p rest (etc, cur, prd)).1.find v = _ ∧ _
      exact ih hkeys' etc cur prd
    | some wc =>
      obtain ⟨w, cw⟩ := wc
      have hw : ¬ w = v := hkeys w cw (List.mem_cons_self _ _)
      cases hpw : psVtc.find w with
      | none =>
        have hstep : mergeOnePred psVtc true p (some (w, cw) :: rest) (etc, cur, prd) =
            mergeOnePred psVtc true p rest (etc, cur ++ [w], prd ++ [w]) := by
          rw [mergeOnePred, hpw]
        rw [hstep]
        obtain ⟨h1, h2, h3⟩ := ih hkeys' etc (cur ++ [w]) (prd ++ [w])
        have hvw : ¬ v = w := fun he => hw he.symm
        refine ⟨h1, h2.trans ?_, h3.trans ?_⟩ <;>
          simp [List.mem_append, hvw]
      | some pcw =>
        by_cases hcc : pcw = cw
        · have hstep : mergeOnePred psVtc true p (some (w, cw) :: rest) (etc, cur, prd) =
              mergeOnePred psVtc true p rest (pushCase etc w (p, pcw), cur, prd) := by
            rw [mergeOnePred, hpw]
            simp [hcc]
          rw [hstep]
          obtain ⟨h1, h2, h3⟩ := ih hkeys' (pushCase etc w (p, pcw)) cur prd
          exact ⟨h1.trans (pushCase_find_other etc w _ v hw), h2, h3⟩
        · have hstep : mergeOnePred psVtc true p (some (w, cw) :: rest) (etc, cur, prd) =
              mergeOnePred psVtc true p rest (pushCase etc w (p, pcw), cur ++ [w], prd) := by
            rw [mergeOnePred, hpw]
            simp [hcc]
          rw [hstep]
          obtain ⟨h1, h2, h3⟩ := ih hkeys' (pushCase etc w (p, pcw)) (cur ++ [w]) prd
          have hvw : ¬ v = w := fun he => hw he.symm
          refine ⟨h1.trans (pushCase_find_other etc w _ v hw), h2.trans ?_, h3⟩
          simp [List.mem_append, hvw]

theorem mergeOnePred_track (psVtc : BlotMap Value EnumCase) (p : Nat)
    (v : Value) (c1 pc : EnumCase) (hpc : psVtc.find v = some pc) :
    ∀ (items : List (Option (Value × EnumCase))),
      (items.filterMap (fun s => s.map Prod.fst)).Nodup →
      some (v, c1) ∈ items →
      ∀ (etc : BlotMap Value EnumBBCaseList) (cur prd : List Value)
        (old : EnumBBCaseList), etc.find v = some old →
        (mergeOnePred psVtc true p items (etc, cur, prd)).1.find v =
          some (old ++ [(p, pc)]) ∧
        (v ∈ (mergeOnePred psVtc true p items (etc, cur, prd)).2.1 ↔
          v ∈ cur ∨ ¬ pc = c1) ∧
        (v ∈ (mergeOnePred psVtc true p items (etc, cur, prd)).2.2 ↔ v ∈ prd) := by
  intro items
  induction items with
  | nil => intro _ h; cases h
  | cons slot rest ih =>
    intro hnodup hmem etc cur prd old hold
    cases slot with
    | none =>
      have hmem' : some (v, c1) ∈ rest := by
        rcases List.mem_cons.mp hmem with h | h
        · cases h
        · exact h
      have hnodup' : (rest.filterMap (fun s => s.map Prod.fst)).Nodup := by
        simpa [List.filterMap_cons] using hnodup
      show (mergeOnePred psVtc true p rest (etc, cur, prd)).1.find v = _ ∧ _
      exact ih hnodup' hmem' etc cur prd old hold
    | some wc =>
      obtain ⟨w, cw⟩ := wc
      have hkeys : (rest.filterMap (fun s => s.map Prod.fst)).Nodup ∧
          w ∉ rest.filterMap (fun s => s.map Prod.fst) := by
        have : (w :: rest.filterMap (fun s => s.map Prod.fst)).Nodup := by
          simpa [List.filterMap_cons] using hnodup
        exact ⟨(List.nodup_cons.mp this).2, (List.nodup_cons.mp this).1⟩
      by_cases hw : w = v
      · subst hw
        have hcw : cw = c1 := by
          rcases List.mem_cons.mp hmem with h | h
          · cases h; rfl
          · exfalso
            exact hkeys.2 (List.mem_filterMap.mpr ⟨some (w, c1), h, rfl⟩)
        subst hcw
        have hrestkeys : ∀ u cu, some (u, cu) ∈ rest → ¬ u = w := by
          intro u cu hu he
          subst he
          exact hkeys.2 (List.mem_filterMap.mpr ⟨some (u, cu), hu, rfl⟩)
        by_cases hcc : pc = cw
        · have hstep : mergeOnePred psVtc true p (some (w, cw) :: rest) (etc, cur, prd) =
              mergeOnePred psVtc true p rest (pushCase etc w (p, pc), cur, prd) := by
            rw [mergeOnePred, hpc]
            simp [hcc]
          rw [hstep]
          obtain ⟨h1, h2, h3⟩ := mergeOnePred_track_notin psVtc p w rest hrestkeys
            (pushCase etc w (p, pc)) cur prd
          refine ⟨h1.trans (pushCase_find_self etc w (p, pc) old hold), ?_, h3⟩
          rw [h2]
          simp [hcc]
        · have hstep : mergeOnePred psVtc true p (some (w, cw) :: rest) (etc, cur, prd) =
              mergeOnePred psVtc true p rest (pushCase etc w (p, pc), cur ++ [w], prd) := by
            rw [mergeOnePred, hpc]
            simp [hcc]
          rw [hstep]
          obtain ⟨h1, h2, h3⟩ := mergeOnePred_track_notin psVtc p w rest hrestkeys
            (pushCase etc w (p, pc)) (cur ++ [w]) prd
          refine ⟨h1.trans (pushCase_find_self etc w (p, pc) old hold), ?_, h3⟩
          rw [h2]
          simp [List.mem_append, hcc]
      · have hmem' : some (v, c1) ∈ rest := by
          rcases List.mem_cons.mp hmem with h | h
          · cases h; exact absurd rfl hw
          · exact h
        cases hpw : psVtc.find w with
        | none =>
          have hstep : mergeOnePred psVtc true p (some (w, cw) :: rest) (etc, cur, prd) =
              mergeOnePred psVtc true p rest (etc, cur ++ [w], prd ++ [w]) := by
            rw [mergeOnePred, hpw]
          rw [hstep]
          obtain ⟨h1, h2, h3⟩ := ih hkeys.1 hmem' etc (cur ++ [w]) (prd ++ [w]) old hold
          have hvw : ¬ v = w := fun he => hw he.symm
          refine ⟨h1, h2.trans ?_, h3.trans ?_⟩ <;>
            simp [List.mem_append, or_assoc, hvw]
        | some pcw =>
          by_cases hcc : pcw = cw
          · have hstep : mergeOnePred psVtc true p (some (w, cw) :: rest) (etc, cur, prd) =
                mergeOnePred psVtc true p rest (pushCase etc w (p, pcw), cur, prd) := by
              rw [mergeOnePred, hpw]
              simp [hcc]
            rw [hstep]
            exact ih hkeys.1 hmem' (pushCase etc w (p, pcw)) cur prd old
              ((pushCase_find_other etc w _ v hw).trans hold)
          · have hstep : mergeOnePred psVtc true p (some (w, cw) :: rest) (etc, cur, prd) =
                mergeOnePred psVtc true p rest (pushCase etc w (p, pcw), cur ++ [w], prd) := by
              rw [mergeOnePred, hpw]
              simp [hcc]
            rw [hstep]
            obtain ⟨h1, h2, h3⟩ := ih hkeys.1 hmem' (pushCase etc w (p, pcw))
              (cur ++ [w]) prd old
              ((pushCase_find_other etc w _ v hw).trans hold)
            have hvw : ¬ v = w := fun he => hw he.symm
            refine ⟨h1, h2.trans ?_, h3⟩
            simp [List.mem_append, or_assoc, hvw]

theorem mergeAccumTriple_track (getState : Nat → Option BBState) (f : Fn)
    (v : Value) (caseAt : Nat → EnumCase) (c1 : EnumCase)
    (items : List (Option (Value × EnumCase)))
    (hnodup : (items.filterMap (fun s => s.map Prod.fst)).Nodup)
    (hmem : some (v, c1) ∈ items) :
    ∀ (rest : List Nat) (etc : BlotMap Value EnumBBCaseList)
      (cur prd : List Value) (old : EnumBBCaseList),
      (∀ p ∈ rest, ∃ ps, getState p = some ps ∧
        ps.valueToCase.find v = some (caseAt p) ∧
        (singleSuccOf f p).isSome = true) →
      etc.find v = some old →
      (mergeAccumTriple getState f items (etc, cur, prd) rest).1.find v =
        some (old ++ rest.map (fun p => (p, caseAt p))) ∧
      (v ∈ (mergeAccumTriple getState f items (etc, cur, prd) rest).2.1 ↔
        v ∈ cur ∨ ∃ p ∈ rest, ¬ caseAt p = c1) ∧
      (v ∈ (mergeAccumTriple getState f items (etc, cur, prd) rest).2.2 ↔
        v ∈ prd) := by
  intro rest
  induction rest with
  | nil =>
    intro etc cur prd old _ hold
    refine ⟨by simpa [mergeAccumTriple] using hold, by simp [mergeAccumTriple],
      by simp [mergeAccumTriple]⟩
  | cons p rest' ih =>
    intro etc cur prd old hst hold
    obtain ⟨ps, hps, hpsv, hss⟩ := hst p (List.mem_cons_self _ _)
    have hstep : mergeAccumTriple getState f items (etc, cur, prd) (p :: rest') =
        mergeAccumTriple getState f items
          (mergeOnePred ps.valueToCase true p items (etc, cur, prd)) rest' := by
      rw [mergeAccumTriple, hps, hss]
    obtain ⟨h1, h2, h3⟩ :=
      mergeOnePred_track ps.valueToCase p v c1 (caseAt p) hpsv items hnodup hmem
        etc cur prd old hold
    obtain ⟨g1, g2, g3⟩ := ih (mergeOnePred ps.valueToCase true p items (etc, cur, prd)).1
      (mergeOnePred ps.valueToCase true p items (etc, cur, prd)).2.1
      (mergeOnePred ps.valueToCase true p items (etc, cur, prd)).2.2
      (old ++ [(p, caseAt p)])
      (fun q hq => hst q (List.mem_cons_of_mem _ hq)) h1
    rw [hstep]
    refine ⟨?_, ?_, ?_⟩
    · show (mergeAccumTriple getState f items
          ((mergeOnePred ps.valueToCase true p items (etc, cur, prd)).1,
           (mergeOnePred ps.valueToCase true p items (etc, cur, prd)).2.1,
           (mergeOnePred ps.valueToCase true p items (etc, cur, prd)).2.2)
          rest').1.find v = _
      rw [g1]
      simp
    · show v ∈ (mergeAccumTriple getState f items
          ((mergeOnePred ps.valueToCase true p items (etc, cur, prd)).1,
           (mergeOnePred ps.valueToCase true p items (etc, cur, prd)).2.1,
           (mergeOnePred ps.valueToCase true p items (etc, cur, prd)).2.2)
          rest').2.1 ↔ _
      rw [g2, h2]
      constructor
      · rintro ((hc | hne) | ⟨q, hq, hne⟩)
        · exact Or.inl hc
        · exact Or.inr ⟨p, List.mem_cons_self _ _, hne⟩
        · exact Or.inr ⟨q, List.mem_cons_of_mem _ hq, hne⟩
      · rintro (hc | ⟨q, hq, hne⟩)
        · exact Or.inl (Or.inl hc)
        · rcases List.mem_cons.mp hq with rfl | hq'
          · exact Or.inl (Or.inr hne)
          · exact Or.inr ⟨q, hq', hne⟩
    · show v ∈ (mergeAccumTriple getState f items
          ((mergeOnePred ps.valueToCase true p items (etc, cur, prd)).1,
           (mergeOnePred ps.valueToCase true p items (etc, cur, prd)).2.1,
           (mergeOnePred ps.valueToCase true p items (etc, cur, prd)).2.2)
          rest').2.2 ↔ _
      rw [g3, h3]

theorem seedFold_notin (p1 : Nat) (v : Value) :
    ∀ (items : List (Option (Value × EnumCase))),
      (∀ w cw, some (w, cw) ∈ items → ¬ w = v) →
      ∀ (acc : BlotMap Value EnumBBCaseList),
        (items.foldl (fun acc slot =>
          match slot with
          | none => acc
          | some (w, c) => pushCase acc w (p1, c)) acc).find v = acc.find v := by
  intro items
  induction items with
  | nil => intro _ acc; rfl
  | cons slot rest ih =>
    intro hkeys acc
    have hkeys' : ∀ w cw, some (w, cw) ∈ rest → ¬ w = v :=
      fun w cw hw => hkeys w cw (List.mem_cons_of_mem _ hw)
    cases slot with
    | none => exact ih hkeys' acc
    | some wc =>
      obtain ⟨w, cw⟩ := wc
      have hw : ¬ w = v := hkeys w cw (List.mem_cons_self _ _)
      show (rest.foldl _ (pushCase acc w (p1, cw))).find v = acc.find v
      rw [ih hkeys' (pushCase acc w (p1, cw))]
      exact pushCase_find_other acc w _ v hw

theorem seedFold_find (p1 : Nat) (v : Value) (c1 : EnumCase) :
    ∀ (items : List (Option (Value × EnumCase))),
      (items.filterMap (fun s => s.map Prod.fst)).Nodup →
      some (v, c1) ∈ items →
      ∀ (acc : BlotMap Value EnumBBCaseList), acc.find v = none →
        (items.foldl (fun acc slot =>
          match slot with
          | none => acc
          | some (w, c) => pushCase acc w (p1, c)) acc).find v =
          some [(p1, c1)] := by
  intro items
  induction items with
  | nil => intro _ h; cases h
  | cons slot rest ih =>
    intro hnodup hmem acc hacc
    cases slot with
    | none =>
      have hmem' : some (v, c1) ∈ rest := by
        rcases List.mem_cons.mp hmem with h | h
        · cases h
        · exact h
      have hnodup' : (rest.filterMap (fun s => s.map Prod.fst)).Nodup := by
        simpa [List.filterMap_cons] using hnodup
      exact ih hnodup' hmem' acc hacc
    | some wc =>
      obtain ⟨w, cw⟩ := wc
      have hkeys : (rest.filterMap (fun s => s.map Prod.fst)).Nodup ∧
          w ∉ rest.filterMap (fun s => s.map Prod.fst) := by
        have : (w :: rest.filterMap (fun s => s.map Prod.fst)).Nodup := by
          simpa [List.filterMap_cons] using hnodup
        exact ⟨(List.nodup_cons.mp this).2, (List.nodup_cons.mp this).1⟩
      by_cases hw : w = v
      · subst hw
        have hcw : cw = c1 := by
          rcases List.mem_cons.mp hmem with h | h
          · cases h; rfl
          · exfalso
            exact hkeys.2 (List.mem_filterMap.mpr ⟨some (w, c1), h, rfl⟩)
        subst hcw
        have hrestkeys : ∀ u cu, some (u, cu) ∈ rest → ¬ u = w := by
          intro u cu hu he
          subst he
          exact hkeys.2 (List.mem_filterMap.mpr ⟨some (u, cu), hu, rfl⟩)
        show (rest.foldl _ (pushCase acc w (p1, cw))).find w = _
        rw [seedFold_notin p1 w rest hrestkeys (pushCase acc w (p1, cw))]
        unfold pushCase
        rw [hacc]
        exact BlotMap.find_insert_self acc w [(p1, cw)]
      · have hmem' : some (v, c1) ∈ rest := by
          rcases List.mem_cons.mp hmem with h | h
          · cases h; exact absurd rfl hw
          · exact h
        show (rest.foldl _ (pushCase acc w (p1, cw))).find v = _
        exact ih hkeys.1 hmem' (pushCase acc w (p1, cw))
          ((pushCase_find_other acc w _ v hw).trans hacc)

theorem mergeLoop_no_self_loop (getState : Nat → Option BBState) (f : Fn)
    (bb : Nat) (vtc : BlotMap Value EnumCase) :
    ∀ (rest : List Nat) (etc : BlotMap Value EnumBBCaseList) (cur prd : List Value),
      (∀ p ∈ rest, ¬ p = bb ∧ (getState p).isSome) →
      mergeLoop getState f bb vtc etc cur prd rest =
        ⟨bb,
         applyBlots vtc (mergeAccumTriple getState f vtc.getItems (etc, cur, prd) rest).2.1,
         applyBlots (mergeAccumTriple getState f vtc.getItems (etc, cur, prd) rest).1
           (mergeAccumTriple getState f vtc.getItems (etc, cur, prd) rest).2.2⟩ := by
  intro rest
  induction rest with
  | nil => intro etc cur prd _; rfl
  | cons q t ih =>
    intro etc cur prd hpre
    obtain ⟨hq, hqs⟩ := hpre q (List.mem_cons_self _ _)
    obtain ⟨ps, hps⟩ := Option.isSome_iff_exists.mp hqs
    rw [mergeLoop, if_neg hq, hps]
    have hrec := ih (mergeOnePred ps.valueToCase (singleSuccOf f q).isSome q
        vtc.getItems (etc, cur, prd)).1
      (mergeOnePred ps.valueToCase (singleSuccOf f q).isSome q
        vtc.getItems (etc, cur, prd)).2.1
      (mergeOnePred ps.valueToCase (singleSuccOf f q).isSome q
        vtc.getItems (etc, cur, prd)).2.2
      (fun p hp => hpre p (List.mem_cons_of_mem _ hp))
    have hacc : mergeAccumTriple getState f vtc.getItems (etc, cur, prd) (q :: t) =
        mergeAccumTriple getState f vtc.getItems
          (mergeOnePred ps.valueToCase (singleSuccOf f q).isSome q
            vtc.getItems (etc, cur, prd)) t := by
      rw [mergeAccumTriple, hps]
    rw [hacc]
    exact hrec

theorem initWithFirstPred_spec (getState : Nat → Option BBState) (f : Fn)
    (bb p1 : Nat) (s1ps : BBState)
    (hs1 : getState p1 = some s1ps)
    (hss : (singleSuccOf f p1).isSome = true) :
    initWithFirstPred getState f (emptyState bb) p1 =
      some ⟨bb, s1ps.valueToCase,
        s1ps.valueToCase.getItems.foldl (fun acc slot =>
          match slot with
          | none => acc
          | some (v, c) => pushCase acc v (p1, c)) BlotMap.empty⟩ := by
  simp [initWithFirstPred, hs1, hss, emptyState]

theorem conflict_in_rest (caseAt : Nat → EnumCase) (p1 : Nat) (rest : List Nat)
    (hconf : ∃ p ∈ p1 :: rest, ∃ q ∈ p1 :: rest, ¬ caseAt p = caseAt q) :
    ∃ p ∈ rest, ¬ caseAt p = caseAt p1 := by
  obtain ⟨p, hp, q, hq, hne⟩ := hconf
  rcases List.mem_cons.mp hp with rfl | hp'
  · rcases List.mem_cons.mp hq with rfl | hq'
    · exact absurd rfl hne
    · exact ⟨q, hq', fun h => hne h.symm⟩
  · rcases List.mem_cons.mp hq with rfl | hq'
    · exact ⟨p, hp', hne⟩
    · by_cases hc : caseAt p = caseAt q
      · exact absurd hc hne
      · by_cases hcp : caseAt p = caseAt p1
        · exact ⟨q, hq', fun h => hc (hcp.trans h.symm)⟩
        · exact ⟨p, hp', hcp⟩

/-- C3: After mergePredecessorStates completes normally on a block with at
least two predecessors — no self-loop, every predecessor reachable, each
predecessor having the block as its single successor, every predecessor
supplying a case for v and two of them supplying different cases — the
lookup of v in valueToCase returns absent (the conflicting entry is
blotted) while enumToCaseList still records a (predecessor, case) pair for
every predecessor, including the conflicting ones. -/
theorem merge_conflict_tombstone
    (getState : Nat → Option BBState) (f : Fn) (tyOf : Value → Ty)
    (bb p1 : Nat) (rest : List Nat) (v : Value) (caseAt : Nat → EnumCase)
    (s1ps : BBState)
    (hpreds : predsOf f bb = p1 :: rest)
    (hrest : rest ≠ [])
    (hp1bb : ¬ p1 = bb)
    (hs1 : getState p1 = some s1ps)
    (hfind1 : s1ps.valueToCase.find v = some (caseAt p1))
    (hwf : s1ps.valueToCase.liveKeys.Nodup)
    (hss1 : (singleSuccOf f p1).isSome = true)
    (hstates : ∀ p ∈ rest, ¬ p = bb ∧ ∃ ps, getState p = some ps ∧
      ps.valueToCase.find v = some (caseAt p) ∧ (singleSuccOf f p).isSome = true)
    (hconf : ∃ p ∈ p1 :: rest, ∃ q ∈ p1 :: rest, ¬ caseAt p = caseAt q) :
    (mergePredecessorStates getState f tyOf (emptyState bb)).valueToCase.find v =
      none ∧
    (mergePredecessorStates getState f tyOf (emptyState bb)).enumToCaseList.find v =
      some ((p1, caseAt p1) :: rest.map (fun p => (p, caseAt p))) := by
  have hmem : some (v, caseAt p1) ∈ s1ps.valueToCase.getItems :=
    BlotMap.findIn_mem v (caseAt p1) s1ps.valueToCase.slots hfind1
  have hwf' : (s1ps.valueToCase.getItems.filterMap
      (fun s => s.map Prod.fst)).Nodup := hwf
  have hinit := initWithFirstPred_spec getState f bb p1 s1ps hs1 hss1
  have hseed : (s1ps.valueToCase.getItems.foldl (fun acc slot =>
      match slot with
      | none => acc
      | some (w, c) => pushCase acc w (p1, c)) BlotMap.empty).find v =
      some [(p1, caseAt p1)] :=
    seedFold_find p1 v (caseAt p1) s1ps.valueToCase.getItems hwf' hmem
      BlotMap.empty rfl
  obtain ⟨q0, t0, rfl⟩ : ∃ q0 t0, rest = q0 :: t0 := by
    cases rest with
    | nil => exact absurd rfl hrest
    | cons q0 t0 => exact ⟨q0, t0, rfl⟩
  have hred : mergePredecessorStates getState f tyOf (emptyState bb) =
      mergeLoop getState f bb s1ps.valueToCase
        (s1ps.valueToCase.getItems.foldl (fun acc slot =>
          match slot with
          | none => acc
          | some (w, c) => pushCase acc w (p1, c)) BlotMap.empty) [] []
        (q0 :: t0) := by
    simp only [emptyState] at hinit
    simp only [mergePredecessorStates, emptyState, hpreds, hp1bb, hinit, if_false]
  have hloop := mergeLoop_no_self_loop getState f bb s1ps.valueToCase (q0 :: t0)
    (s1ps.valueToCase.getItems.foldl (fun acc slot =>
      match slot with
      | none => acc
      | some (w, c) => pushCase acc w (p1, c)) BlotMap.empty) [] []
    (fun p hp => ⟨(hstates p hp).1, by
      obtain ⟨ps, hps, _, _⟩ := (hstates p hp).2
      simp [hps]⟩)
  have htrack := mergeAccumTriple_track getState f v caseAt (caseAt p1)
    s1ps.valueToCase.getItems hwf' hmem (q0 :: t0)
    (s1ps.valueToCase.getItems.foldl (fun acc slot =>
      match slot with
      | none => acc
      | some (w, c) => pushCase acc w (p1, c)) BlotMap.empty) [] []
    [(p1, caseAt p1)] (fun p hp => (hstates p hp).2) hseed
  obtain ⟨ht1, ht2, ht3⟩ := htrack
  have hcur : v ∈ (mergeAccumTriple getState f s1ps.valueToCase.getItems
      (s1ps.valueToCase.getItems.foldl (fun acc slot =>
        match slot with
        | none => acc
        | some (w, c) => pushCase acc w (p1, c)) BlotMap.empty, [], [])
      (q0 :: t0)).2.1 := by
    rw [ht2]
    exact Or.inr (conflict_in_rest caseAt p1 (q0 :: t0) hconf)
  have hprd : v ∉ (mergeAccumTriple getState f s1ps.valueToCase.getItems
      (s1ps.valueToCase.getItems.foldl (fun acc slot =>
        match slot with
        | none => acc
        | some (w, c) => pushCase acc w (p1, c)) BlotMap.empty, [], [])
      (q0 :: t0)).2.2 := by
    rw [ht3]
    exact List.not_mem_nil v
  rw [hred, hloop]
  constructor
  · exact find_applyBlots_mem _ _ v hcur
  · rw [find_applyBlots_notmem _ _ v hprd, ht1]
    simp

theorem merge_conflict_tombstone_witness :
    (mergePredecessorStates selfLoopStates conflictFn tyOfDefault
      (emptyState 3)).valueToCase.find 7 = none ∧
    (mergePredecessorStates selfLoopStates conflictFn tyOfDefault
      (emptyState 3)).enumToCaseList.find 7 = some [(1, caseA), (2, caseB)] := by
  have h := merge_conflict_tombstone selfLoopStates conflictFn tyOfDefault 3 1 [2] 7
    conflictCaseAt ⟨1, ⟨[some (7, caseA)]⟩, BlotMap.empty⟩
    (by decide) (by decide) (by decide) (by decide) (by decide) (by decide)
    (by decide)
    (by
      intro p hp
      refine ⟨by simp at hp; omega, ?_⟩
      have hp2 : p = 2 := by simpa using hp
      subst hp2
      exact ⟨⟨2, ⟨[some (7, caseB)]⟩, BlotMap.empty⟩, by decide, by decide, by decide⟩)
    (by decide)
  exact ⟨h.1, by rw [h.2]; decide⟩

/-! ## Use-count and lookup lemmas for the sinking transform -/

theorem countOcc_append (v : Value) (l1 l2 : List Value) :
    countOcc v (l1 ++ l2) = countOcc v l1 + countOcc v l2 := by
  induction l1 with
  | nil => simp [countOcc]
  | cons x t ih => simp [countOcc, ih]; omega

theorem countOcc_map_substV_self (a b : Value) (hne : ¬ b = a) (l : List Value) :
    countOcc a (l.map (substV a b)) = 0 := by
  induction l with
  | nil => rfl
  | cons x t ih =>
    by_cases hx : x = a <;> simp [countOcc, substV, hx, hne, ih]

theorem countOcc_cons_ne (v x : Value) (t : List Value) (h : ¬ x = v) :
    countOcc v (x :: t) = countOcc v t := by
  simp [countOcc, h]

theorem countOcc_map_substV_zero (a b r : Value) (hbr : ¬ b = r)
    (l : List Value) (h : countOcc r l = 0) :
    countOcc r (l.map (substV a b)) = 0 := by
  induction l with
  | nil => rfl
  | cons x t ih =>
    have hxr : ¬ x = r := by
      intro hc
      rw [countOcc, hc] at h
      simp at h
    have ht : countOcc r t = 0 := by
      rw [countOcc] at h
      simpa [hxr] using h
    have hs : ¬ substV a b x = r := by
      unfold substV
      by_cases hx : x = a <;> simp [hx, hbr, hxr]
    rw [List.map_cons, countOcc_cons_ne r _ _ hs]
    exact ih ht

theorem operandsList_mapValues (g : Value → Value) (t : Term) :
    (t.mapValues g).operandsList = t.operandsList.map g := by
  cases t with
  | branch d args => rfl
  | condBranch c td ta fd fa =>
    show g c :: (ta.map g ++ fa.map g) = (c :: (ta ++ fa)).map g
    simp
  | switchEnum op cs d => rfl
  | checkedCastBranch op sd fd => rfl
  | ret op => rfl
  | unreachable => rfl

theorem flatten_map_map (g : Value → Value) (L : List (List Value)) :
    (L.map (fun l => l.map g)).flatten = L.flatten.map g := by
  induction L with
  | nil => rfl
  | cons l t ih =>
    rw [List.map_cons, List.flatten_cons, List.flatten_cons, List.map_append, ih]

theorem usedValues_replBlk (a b : Value) (blk : Block) :
    Block.usedValues { blk with
        insts := blk.insts.map
          (fun i => { i with operands := i.operands.map (substV a b) }),
        term := blk.term.mapValues (substV a b) } =
      blk.usedValues.map (substV a b) := by
  unfold Block.usedValues
  simp only [List.map_map]
  rw [List.map_append, operandsList_mapValues]
  have : (blk.insts.map (Inst.operands ∘
      (fun i => { i with operands := i.operands.map (substV a b) }))) =
      (blk.insts.map Inst.operands).map (fun l => l.map (substV a b)) := by
    simp [Function.comp, List.map_map]
  rw [this, flatten_map_map]

theorem usedValues_replaceAllUses (f : Fn) (a b : Value) :
    (replaceAllUses f a b).usedValues = f.usedValues.map (substV a b) := by
  unfold Fn.usedValues replaceAllUses
  simp only [List.map_map]
  have : (f.blocks.map (Block.usedValues ∘ (fun blk =>
      { blk with
        insts := blk.insts.map
          (fun i => { i with operands := i.operands.map (substV a b) }),
        term := blk.term.mapValues (substV a b) }))) =
      (f.blocks.map Block.usedValues).map (fun l => l.map (substV a b)) := by
    simp only [List.map_map, Function.comp]
    exact List.map_congr_left (fun blk _ => usedValues_replBlk a b blk)
  rw [this, flatten_map_map]

theorem usesOf_replaceAllUses_self (f : Fn) (a b : Value) (hne : ¬ b = a) :
    usesOf (replaceAllUses f a b) a = 0 := by
  unfold usesOf
  rw [usedValues_replaceAllUses]
  exact countOcc_map_substV_self a b hne _

theorem usesOf_replaceAllUses_zero (f : Fn) (a b r : Value) (hbr : ¬ b = r)
    (h : usesOf f r = 0) :
    usesOf (replaceAllUses f a b) r = 0 := by
  unfold usesOf at h ⊢
  rw [usedValues_replaceAllUses]
  exact countOcc_map_substV_zero a b r hbr _ h

theorem countOcc_filter_insts_le (r : Value) (p : Inst → Bool) (l : List Inst) :
    countOcc r ((l.filter p).map Inst.operands).flatten ≤
      countOcc r (l.map Inst.operands).flatten := by
  induction l with
  | nil => exact Nat.le_refl _
  | cons i t ih =>
    by_cases hp : p i
    · rw [List.filter_cons_of_pos hp]
      simp only [List.map_cons, List.flatten_cons, countOcc_append]
      omega
    · rw [List.filter_cons_of_neg (by simp [hp])]
      simp only [List.map_cons, List.flatten_cons, countOcc_append]
      omega

theorem usesOf_eraseInst_le (f : Fn) (iid : Nat) (r : Value) :
    usesOf (eraseInst f iid) r ≤ usesOf f r := by
  unfold usesOf Fn.usedValues eraseInst
  simp only [List.map_map]
  induction f.blocks with
  | nil => exact Nat.le_refl _
  | cons blk t ih =>
    simp only [List.map_cons, List.flatten_cons, countOcc_append]
    have hblk : countOcc r (Block.usedValues
        { blk with insts := blk.insts.filter (fun i => ¬ i.id = iid) }) ≤
        countOcc r blk.usedValues := by
      unfold Block.usedValues
      simp only [countOcc_append]
      have := countOcc_filter_insts_le r (fun i => ¬ i.id = iid) blk.insts
      omega
    have := ih
    simp only [Function.comp] at this ⊢
    omega

theorem usesOf_eraseInst_zero (f : Fn) (iid : Nat) (r : Value)
    (h : usesOf f r = 0) : usesOf (eraseInst f iid) r = 0 :=
  Nat.le_zero.mp (h ▸ usesOf_eraseInst_le f iid r)

theorem findInstIn_none_filter (l : List Inst) (iid : Nat) (p : Inst → Bool)
    (h : findInstIn l iid = none) : findInstIn (l.filter p) iid = none := by
  induction l with
  | nil => rfl
  | cons i t ih =>
    rw [findInstIn] at h
    by_cases hi : i.id = iid
    · simp [hi] at h
    · simp only [hi, if_false] at h
      by_cases hp : p i
      · rw [List.filter_cons_of_pos hp, findInstIn]
        simp [hi, ih h]
      · rw [List.filter_cons_of_neg (by simp [hp])]
        exact ih h

theorem findInstIn_none_map (l : List Inst) (iid : Nat) (g : Inst → Inst)
    (hg : ∀ i, (g i).id = i.id) (h : findInstIn l iid = none) :
    findInstIn (l.map g) iid = none := by
  induction l with
  | nil => rfl
  | cons i t ih =>
    rw [findInstIn] at h
    by_cases hi : i.id = iid
    · simp [hi] at h
    · simp only [hi, if_false] at h
      rw [List.map_cons, findInstIn]
      simp [hg, hi, ih h]

theorem foldrFind_none_iff (bl : List Block) (iid : Nat) :
    (bl.foldr (fun b acc => match findInstIn b.insts iid with
      | some i => some i
      | none => acc) none) = none ↔
    ∀ b ∈ bl, findInstIn b.insts iid = none := by
  induction bl with
  | nil => simp
  | cons b t ih =>
    rw [List.foldr_cons]
    cases hb : findInstIn b.insts iid with
    | some i =>
      constructor
      · intro h; cases h
      · intro h
        have hc := h b (List.mem_cons_self _ _)
        rw [hb] at hc
        cases hc
    | none =>
      simp only []
      constructor
      · intro h p hp
        rcases List.mem_cons.mp hp with rfl | hp'
        · exact hb
        · exact (ih.mp h) p hp'
      · intro h
        exact ih.mpr (fun p hp => h p (List.mem_cons_of_mem _ hp))

theorem findInstFn_none_iff (f : Fn) (iid : Nat) :
    findInstFn f iid = none ↔ ∀ b ∈ f.blocks, findInstIn b.insts iid = none := by
  unfold findInstFn
  exact foldrFind_none_iff f.blocks iid

theorem findInstFn_eraseInst_self (f : Fn) (iid : Nat) :
    findInstFn (eraseInst f iid) iid = none := by
  rw [findInstFn_none_iff]
  intro b hb
  simp only [eraseInst, List.mem_map] at hb
  obtain ⟨b0, _, rfl⟩ := hb
  exact findInstIn_filter_self b0.insts iid

theorem findInstFn_none_eraseInst (f : Fn) (iid jid : Nat)
    (h : findInstFn f iid = none) : findInstFn (eraseInst f jid) iid = none := by
  rw [findInstFn_none_iff] at h ⊢
  intro b hb
  simp only [eraseInst, List.mem_map] at hb
  obtain ⟨b0, hb0, rfl⟩ := hb
  exact findInstIn_none_filter b0.insts iid _ (h b0 hb0)

theorem findInstFn_none_replaceAllUses (f : Fn) (a b : Value) (iid : Nat)
    (h : findInstFn f iid = none) :
    findInstFn (replaceAllUses f a b) iid = none := by
  rw [findInstFn_none_iff] at h ⊢
  intro blk hblk
  simp only [replaceAllUses, List.mem_map] at hblk
  obtain ⟨b0, hb0, rfl⟩ := hblk
  exact findInstIn_none_map b0.insts iid _ (fun _ => rfl) (h b0 hb0)

theorem findBlock_replaceAllUses (f : Fn) (a b : Value) (q : Nat) :
    (replaceAllUses f a b).findBlock q = (f.findBlock q).map (fun blk =>
      { blk with
        insts := blk.insts.map
          (fun i => { i with operands := i.operands.map (substV a b) }),
        term := blk.term.mapValues (substV a b) }) := by
  unfold Fn.findBlock replaceAllUses
  exact findBlockIn_map_presId (fun blk =>
      { blk with
        insts := blk.insts.map
          (fun i => { i with operands := i.operands.map (substV a b) }),
        term := blk.term.mapValues (substV a b) }) (fun _ => rfl) f.blocks q

theorem getD_mem_cons (l : List Value) (n : Nat) : l.getD n 0 ∈ 0 :: l := by
  induction l generalizing n with
  | nil => simp
  | cons x t ih =>
    cases n with
    | zero => simp
    | succ k =>
      rw [List.getD_cons_succ]
      rcases List.mem_cons.mp (ih k) with h | h
      · rw [h]; exact List.mem_cons_self _ _
      · exact List.mem_cons_of_mem _ (List.mem_cons_of_mem _ h)

theorem map_substV_notmem (a b : Value) (l : List Value) (h : ¬ a ∈ l) :
    l.map (substV a b) = l := by
  induction l with
  | nil => rfl
  | cons x t ih =>
    have hx : ¬ x = a := fun hc => h (hc ▸ List.mem_cons_self _ _)
    simp [substV, hx, ih (fun hm => h (List.mem_cons_of_mem _ hm))]

/-! ## The successful-sink step of sinkCodeFromPredecessors -/

theorem sinkLoop_succ (fuel : Nat) (f : Fn) (bbId fpId : Nat)
    (m : ValueToBBArgIdxMap) (stats : Stats) (ch : Bool) (pos budget : Nat) :
    sinkLoop (fuel + 1) f bbId fpId m stats ch pos budget =
      (if budget = 0 then (f, stats, ch)
       else
        match f.findBlock fpId with
        | none => (f, stats, ch)
        | some fp =>
          if pos = 0 then
            if fp.insts.isEmpty then (f, stats, ch)
            else sinkLoop fuel f bbId fpId m stats ch 1 (budget - 1)
          else
            match fp.insts.reverse.get? (pos - 1) with
            | none => (f, stats, ch)
            | some cand =>
              let sunk :=
                if canSinkInstruction f cand then
                  let (dups, rel) :=
                    findDupsLoop f m fpId cand .notDeterminedYet [] (predsOf f bbId)
                  if dups.isEmpty then none else some (dups, rel)
                else none
              match sunk with
              | some (dups, rel) =>
                  sinkLoop fuel (applySink f bbId fpId m cand dups rel) bbId fpId m
                    (stats + ⟨dups.length, 0, 0⟩) true 0 budget
              | none =>
                  if isSinkBarrier cand then (f, stats, ch)
                  else if pos = fp.insts.length then (f, stats, ch)
                  else sinkLoop fuel f bbId fpId m stats ch (pos + 1) (budget - 1)) :=
  rfl

theorem sinkStep_none (cand d : Inst) (fa : Fn) (iid : Nat)
    (h : findInstFn fa iid = none) :
    findInstFn (eraseInst
      (match d.result, cand.result with
        | some r, some r' => replaceAllUses fa r r'
        | _, _ => fa) d.id) iid = none := by
  apply findInstFn_none_eraseInst
  cases d.result with
  | none => cases cand.result <;> exact h
  | some r =>
    cases cand.result with
    | none => exact h
    | some r' => exact findInstFn_none_replaceAllUses fa r r' iid h

theorem sinkFold_pres_none (cand : Inst) (iid : Nat) :
    ∀ (dups : List Inst) (f0 : Fn), findInstFn f0 iid = none →
    findInstFn (dups.foldl (fun fa d =>
      let fa' :=
        match d.result, cand.result with
        | some r, some r' => replaceAllUses fa r r'
        | _, _ => fa
      eraseInst fa' d.id) f0) iid = none := by
  intro dups
  induction dups with
  | nil => intro f0 h; exact h
  | cons x t ih =>
    intro f0 h
    rw [List.foldl_cons]
    exact ih _ (sinkStep_none cand x f0 iid h)

theorem sinkFold_erased (cand : Inst) :
    ∀ (dups : List Inst) (f0 : Fn) (d : Inst), d ∈ dups →
    findInstFn (dups.foldl (fun fa d =>
      let fa' :=
        match d.result, cand.result with
        | some r, some r' => replaceAllUses fa r r'
        | _, _ => fa
      eraseInst fa' d.id) f0) d.id = none := by
  intro dups
  induction dups with
  | nil => intro f0 d hd; cases hd
  | cons x t ih =>
    intro f0 d hd
    rw [List.foldl_cons]
    rcases List.mem_cons.mp hd with rfl | hd'
    · exact sinkFold_pres_none cand d.id t _ (findInstFn_eraseInst_self _ _)
    · exact ih _ d hd'

theorem sinkStep_uses_zero (cand d : Inst) (fa : Fn) (r : Value)
    (hrc : ¬ cand.result = some r) (h : usesOf fa r = 0) :
    usesOf (eraseInst
      (match d.result, cand.result with
        | some a, some b => replaceAllUses fa a b
        | _, _ => fa) d.id) r = 0 := by
  apply usesOf_eraseInst_zero
  cases d.result with
  | none => cases cand.result <;> exact h
  | some a =>
    cases hc : cand.result with
    | none => exact h
    | some b =>
      exact usesOf_replaceAllUses_zero fa a b r (fun hb => hrc (by rw [hc, hb])) h

theorem sinkFold_uses_pres (cand : Inst) (r : Value)
    (hrc : ¬ cand.result = some r) :
    ∀ (dups : List Inst) (f0 : Fn), usesOf f0 r = 0 →
    usesOf (dups.foldl (fun fa d =>
      let fa' :=
        match d.result, cand.result with
        | some r, some r' => replaceAllUses fa r r'
        | _, _ => fa
      eraseInst fa' d.id) f0) r = 0 := by
  intro dups
  induction dups with
  | nil => intro f0 h; exact h
  | cons x t ih =>
    intro f0 h
    rw [List.foldl_cons]
    exact ih _ (sinkStep_uses_zero cand x f0 r hrc h)

theorem sinkFold_uses (cand : Inst) :
    ∀ (dups : List Inst) (f0 : Fn),
    (∀ d ∈ dups, ∀ dr, d.result = some dr → ¬ cand.result = some dr) →
    ∀ d ∈ dups, ∀ dr, d.result = some dr → usesOf f0 dr = 0 →
    usesOf (dups.foldl (fun fa d =>
      let fa' :=
        match d.result, cand.result with
        | some r, some r' => replaceAllUses fa r r'
        | _, _ => fa
      eraseInst fa' d.id) f0) dr = 0 := by
  intro dups
  induction dups with
  | nil => intro f0 _ d hd; cases hd
  | cons x t ih =>
    intro f0 hall d hd dr hdr h0
    rw [List.foldl_cons]
    have hrc : ¬ cand.result = some dr := hall d hd dr hdr
    rcases List.mem_cons.mp hd with rfl | hd'
    · exact sinkFold_uses_pres cand dr hrc t _
        (sinkStep_uses_zero cand d f0 dr hrc h0)
    · exact ih _ (fun q hq => hall q (List.mem_cons_of_mem _ hq)) d hd' dr hdr
        (sinkStep_uses_zero cand x f0 dr hrc h0)

theorem headPres_eraseInst (bbId : Nat) (bargs : List Value) (candM : Inst)
    (fa : Fn) (iid : Nat) (hk : ¬ candM.id = iid)
    (h : ∃ b', fa.findBlock bbId = some b' ∧ b'.args = bargs ∧
      b'.insts.head? = some candM) :
    ∃ b', (eraseInst fa iid).findBlock bbId = some b' ∧ b'.args = bargs ∧
      b'.insts.head? = some candM := by
  obtain ⟨b', hb', hargs, hhead⟩ := h
  obtain ⟨tl, hinsts⟩ : ∃ tl, b'.insts = candM :: tl := by
    cases hbi : b'.insts with
    | nil => rw [hbi] at hhead; cases hhead
    | cons y tl =>
      rw [hbi] at hhead
      simp only [List.head?_cons, Option.some_inj] at hhead
      exact ⟨tl, by rw [hhead]⟩
  rw [findBlock_eraseInst, hb']
  refine ⟨_, rfl, hargs, ?_⟩
  show (List.filter (fun i => decide (¬ i.id = iid)) b'.insts).head? = some candM
  rw [hinsts, List.filter_cons_of_pos (by simp [hk])]
  rfl

theorem headPres_replaceAllUses (bbId : Nat) (bargs : List Value) (candM : Inst)
    (fa : Fn) (a b : Value) (hnm : ¬ a ∈ candM.operands)
    (h : ∃ b', fa.findBlock bbId = some b' ∧ b'.args = bargs ∧
      b'.insts.head? = some candM) :
    ∃ b', (replaceAllUses fa a b).findBlock bbId = some b' ∧ b'.args = bargs ∧
      b'.insts.head? = some candM := by
  obtain ⟨b', hb', hargs, hhead⟩ := h
  obtain ⟨tl, hinsts⟩ : ∃ tl, b'.insts = candM :: tl := by
    cases hbi : b'.insts with
    | nil => rw [hbi] at hhead; cases hhead
    | cons y tl =>
      rw [hbi] at hhead
      simp only [List.head?_cons, Option.some_inj] at hhead
      exact ⟨tl, by rw [hhead]⟩
  rw [findBlock_replaceAllUses, hb']
  refine ⟨_, rfl, hargs, ?_⟩
  show ((b'.insts.map (fun (i : Inst) =>
    { i with operands := i.operands.map (substV a b) })).head?) = some candM
  rw [hinsts, List.map_cons]
  simp [map_substV_notmem a b _ hnm]

theorem sinkFold_head (cand candM : Inst) (bbId : Nat) (bargs : List Value)
    (hidM : candM.id = cand.id)
    (hops : ∀ x ∈ candM.operands, x ∈ cand.operands ∨ x ∈ 0 :: bargs) :
    ∀ (dups : List Inst) (f0 : Fn),
    (∀ d ∈ dups, ¬ d.id = cand.id ∧ ∀ dr, d.result = some dr →
      ¬ dr ∈ cand.operands ∧ ¬ dr ∈ 0 :: bargs) →
    (∃ b', f0.findBlock bbId = some b' ∧ b'.args = bargs ∧
      b'.insts.head? = some candM) →
    ∃ b', (dups.foldl (fun fa d =>
      let fa' :=
        match d.result, cand.result with
        | some r, some r' => replaceAllUses fa r r'
        | _, _ => fa
      eraseInst fa' d.id) f0).findBlock bbId = some b' ∧ b'.args = bargs ∧
      b'.insts.head? = some candM := by
  intro dups
  induction dups with
  | nil => intro f0 _ h; exact h
  | cons x t ih =>
    intro f0 hd h
    obtain ⟨hxid, hdres⟩ := hd x (List.mem_cons_self _ _)
    rw [List.foldl_cons]
    apply ih _ (fun d hdm => hd d (List.mem_cons_of_mem _ hdm))
    have hk : ¬ candM.id = x.id := by
      rw [hidM]; exact fun hc => hxid hc.symm
    cases hxr : x.result with
    | none =>
      cases hcr : cand.result with
      | none => exact headPres_eraseInst bbId bargs candM f0 x.id hk h
      | some cr => exact headPres_eraseInst bbId bargs candM f0 x.id hk h
    | some dr =>
      cases hcr : cand.result with
      | none => exact headPres_eraseInst bbId bargs candM f0 x.id hk h
      | some cr =>
        obtain ⟨hnop, hnargs⟩ := hdres dr hxr
        have hnm : ¬ dr ∈ candM.operands := fun hm => (hops dr hm).elim hnop hnargs
        exact headPres_eraseInst bbId bargs candM _ x.id hk
          (headPres_replaceAllUses bbId bargs candM f0 dr cr hnm h)

theorem countOcc_zero_iff (r : Value) (l : List Value) :
    countOcc r l = 0 ↔ ¬ r ∈ l := by
  induction l with
  | nil => simp [countOcc]
  | cons x t ih =>
    by_cases hx : x = r
    · subst hx
      simp [countOcc]
    · have hx' : ¬ r = x := fun h => hx h.symm
      simp [countOcc, hx, hx', ih]

theorem usesOf_zero_iff (f : Fn) (r : Value) :
    usesOf f r = 0 ↔ ¬ r ∈ f.usedValues := by
  unfold usesOf
  exact countOcc_zero_iff r f.usedValues

theorem mem_usedValues_iff (f : Fn) (r : Value) :
    r ∈ f.usedValues ↔ ∃ b ∈ f.blocks, r ∈ b.usedValues := by
  unfold Fn.usedValues
  simp [List.mem_flatten]

theorem mem_block_usedValues (b : Block) (r : Value) :
    r ∈ b.usedValues ↔
      (∃ i ∈ b.insts, r ∈ i.operands) ∨ r ∈ b.term.operandsList := by
  unfold Block.usedValues
  simp [List.mem_append, List.mem_flatten]

theorem mem_usedValues_eraseInst (g : Fn) (iid : Nat) (r : Value)
    (h : r ∈ (eraseInst g iid).usedValues) : r ∈ g.usedValues := by
  rw [mem_usedValues_iff] at h ⊢
  obtain ⟨b, hb, hr⟩ := h
  simp only [eraseInst, List.mem_map] at hb
  obtain ⟨b0, hb0, rfl⟩ := hb
  refine ⟨b0, hb0, ?_⟩
  rw [mem_block_usedValues] at hr ⊢
  rcases hr with ⟨i, hi, hir⟩ | ht
  · exact Or.inl ⟨i, (List.mem_filter.mp hi).1, hir⟩
  · exact Or.inr ht

theorem mem_usedValues_consInsts (g : Fn) (bid : Nat) (new : List Inst)
    (r : Value) (h : r ∈ (consInsts g bid new).usedValues) :
    r ∈ g.usedValues ∨ ∃ i ∈ new, r ∈ i.operands := by
  rw [mem_usedValues_iff] at h
  obtain ⟨b, hb, hr⟩ := h
  simp only [consInsts, mapBlockById, List.mem_map] at hb
  obtain ⟨b0, hb0, rfl⟩ := hb
  by_cases hid : b0.id = bid
  · rw [if_pos hid] at hr
    rw [mem_block_usedValues] at hr
    rcases hr with ⟨i, hi, hir⟩ | ht
    · rcases List.mem_append.mp hi with hi1 | hi2
      · exact Or.inr ⟨i, hi1, hir⟩
      · exact Or.inl ((mem_usedValues_iff g r).mpr
          ⟨b0, hb0, (mem_block_usedValues b0 r).mpr (Or.inl ⟨i, hi2, hir⟩)⟩)
    · exact Or.inl ((mem_usedValues_iff g r).mpr
        ⟨b0, hb0, (mem_block_usedValues b0 r).mpr (Or.inr ht)⟩)
  · rw [if_neg hid] at hr
    exact Or.inl ((mem_usedValues_iff g r).mpr ⟨b0, hb0, hr⟩)

theorem mem_usedValues_mapInstById (g : Fn) (iid : Nat) (hfun : Inst → Inst)
    (r : Value) (h : r ∈ (mapInstById g iid hfun).usedValues) :
    r ∈ g.usedValues ∨ ∃ i, r ∈ (hfun i).operands := by
  rw [mem_usedValues_iff] at h
  obtain ⟨b, hb, hr⟩ := h
  simp only [mapInstById, List.mem_map] at hb
  obtain ⟨b0, hb0, rfl⟩ := hb
  rw [mem_block_usedValues] at hr
  rcases hr with ⟨i, hi, hir⟩ | ht
  · simp only [List.mem_map] at hi
    obtain ⟨i0, hi0, rfl⟩ := hi
    by_cases hid : i0.id = iid
    · rw [if_pos hid] at hir
      exact Or.inr ⟨i0, hir⟩
    · rw [if_neg hid] at hir
      exact Or.inl ((mem_usedValues_iff g r).mpr
        ⟨b0, hb0, (mem_block_usedValues b0 r).mpr (Or.inl ⟨i0, hi0, hir⟩)⟩)
  · exact Or.inl ((mem_usedValues_iff g r).mpr
      ⟨b0, hb0, (mem_block_usedValues b0 r).mpr (Or.inr ht)⟩)

theorem rewriteOperands_sub (m : ValueToBBArgIdxMap) (fpId : Nat)
    (bargs : List Value) (i : Inst) (r : Value)
    (h : r ∈ (rewriteOperandsToArgs m fpId bargs i).operands) : r ∈ 0 :: bargs := by
  simp only [rewriteOperandsToArgs, List.mem_map] at h
  obtain ⟨op, _, rfl⟩ := h
  exact getD_mem_cons _ _

theorem canSink_result_zero (f : Fn) (d : Inst) (dr : Value)
    (hdr : d.result = some dr) (h : canSinkInstruction f d = true) :
    usesOf f dr = 0 := by
  rw [canSinkInstruction, hdr] at h
  simpa using h

theorem findIdentLoop_canSink (f : Fn) (m : ValueToBBArgIdxMap)
    (idenBlock scanBlock : Nat) (iden : Inst) :
    ∀ (budget : Nat) (l : List Inst) (rel : OperandRelation) (dup : Inst)
      (rel' : OperandRelation),
    findIdentLoop f m idenBlock scanBlock iden rel budget l = (some dup, rel') →
    canSinkInstruction f dup = true := by
  intro budget
  induction budget with
  | zero =>
    intro l rel dup rel' h
    rw [findIdentLoop] at h
    simp at h
  | succ b ih =>
    intro l rel dup rel' h
    cases l with
    | nil =>
      have hq : findIdentLoop f m idenBlock scanBlock iden rel (b + 1) [] =
          (none, rel) := rfl
      rw [hq] at h
      simp at h
    | cons x rest =>
      rw [findIdentLoop] at h
      rcases he : (if canSinkInstruction f x then
          isIdenticalToWith m idenBlock scanBlock rel iden x
        else (false, rel)) with ⟨ok, rel2⟩
      rw [he] at h
      cases ok with
      | true =>
        simp only [if_pos rfl] at h
        have hx : x = dup := by
          have h1 := congrArg Prod.fst h
          simpa using h1
        by_cases hcs : canSinkInstruction f x
        · rw [← hx]; exact hcs
        · rw [if_neg hcs] at he
          simp at he
      | false =>
        simp only [Bool.false_eq_true, if_false] at h
        by_cases hbar : isSinkBarrier x
        · simp [hbar] at h
        · simp only [hbar, Bool.false_eq_true, if_false] at h
          by_cases hre : rest.isEmpty
          · simp [hre] at h
          · simp only [hre, Bool.false_eq_true, if_false] at h
            exact ih rest rel2 dup rel' h

theorem findIdenticalInBlock_canSink (f : Fn) (scan : Block) (iden : Inst)
    (idenBlock : Nat) (m : ValueToBBArgIdxMap) (rel : OperandRelation)
    (dup : Inst) (rel' : OperandRelation)
    (h : findIdenticalInBlock f scan iden idenBlock m rel = (some dup, rel')) :
    canSinkInstruction f dup = true := by
  rw [findIdenticalInBlock] at h
  by_cases he : scan.insts.isEmpty
  · rw [if_pos he] at h
    simp at h
  · rw [if_neg he] at h
    exact findIdentLoop_canSink f m idenBlock scan.id iden _ _ rel dup rel' h

theorem findDupsLoop_canSink (f : Fn) (m : ValueToBBArgIdxMap) (fpId : Nat)
    (cand : Inst) :
    ∀ (preds : List Nat) (rel : OperandRelation) (dups0 dups' : List Inst)
      (rel' : OperandRelation),
    (∀ d ∈ dups0, canSinkInstruction f d = true) →
    findDupsLoop f m fpId cand rel dups0 preds = (dups', rel') →
    ∀ d ∈ dups', canSinkInstruction f d = true := by
  intro preds
  induction preds with
  | nil =>
    intro rel dups0 dups' rel' h0 h
    rw [findDupsLoop] at h
    have heq : dups0 = dups' := by
      have h1 := congrArg Prod.fst h
      simpa using h1
    intro d hd
    rw [← heq] at hd
    exact h0 d hd
  | cons p rest ih =>
    intro rel dups0 dups' rel' h0 h
    rw [findDupsLoop] at h
    by_cases hp : p = fpId
    · rw [if_pos hp] at h
      exact ih rel dups0 dups' rel' h0 h
    · rw [if_neg hp] at h
      cases hfb : f.findBlock p with
      | none =>
        rw [hfb] at h
        have heq : ([] : List Inst) = dups' := by
          have h1 := congrArg Prod.fst h
          simpa using h1
        intro d hd
        rw [← heq] at hd
        cases hd
      | some pb =>
        simp only [hfb] at h
        rcases hident : findIdenticalInBlock f pb cand fpId m rel with ⟨od, rel2⟩
        rw [hident] at h
        cases od with
        | some dup =>
          refine ih rel2 (dups0 ++ [dup]) dups' rel' ?_ h
          intro d hd
          rcases List.mem_append.mp hd with hd1 | hd2
          · exact h0 d hd1
          · have hde : d = dup := by simpa using hd2
            rw [hde]
            exact findIdenticalInBlock_canSink f pb cand fpId m rel dup rel2 hident
        | none =>
          have heq : ([] : List Inst) = dups' := by
            have h1 := congrArg Prod.fst h
            simpa using h1
          intro d hd
          rw [← heq] at hd
          cases hd

theorem findBlock_mapInstById (f : Fn) (iid : Nat) (g : Inst → Inst) (q : Nat) :
    (mapInstById f iid g).findBlock q = (f.findBlock q).map
      (fun b =>
        { b with insts := b.insts.map (fun i => if i.id = iid then g i else i) }) := by
  unfold Fn.findBlock mapInstById
  exact findBlockIn_map_presId
    (fun b =>
      { b with insts := b.insts.map (fun i => if i.id = iid then g i else i) })
    (fun _ => rfl) f.blocks q

/-- C2: When the backward scan of sinkCodeFromPredecessors finds a sinkable
candidate in the first predecessor together with an identical duplicate in
every other predecessor under one threaded operand relation, the step
(i) restarts the backward scan at the first predecessor's terminator
(position 0) on the updated function with the duplicate count added to
NumSunk, (ii) leaves the candidate as the first instruction of the
successor block with its operands rewritten to the successor's block
arguments at the recorded indices exactly when the relation is
EqualAfterMove, (iii) erases every duplicate, and (iv) leaves any result a
duplicate defines without remaining uses, the uses having been routed to
the moved instruction.  Result-less candidates (strong_retain or
strong_release) are covered: for them (iv) is vacuous and no use rewrite
happens, exactly as in the source. -/
theorem sink_success_step (fuel : Nat) (f : Fn) (bbId fpId : Nat)
    (m : ValueToBBArgIdxMap) (stats : Stats) (ch : Bool) (pos budget : Nat)
    (fp : Block) (cand : Inst) (dups : List Inst) (rel : OperandRelation)
    (bb : Block)
    (hb : ¬ budget = 0)
    (hfpb : f.findBlock fpId = some fp)
    (hpos : ¬ pos = 0)
    (hcand : fp.insts.reverse.get? (pos - 1) = some cand)
    (hsink : canSinkInstruction f cand = true)
    (hdups : findDupsLoop f m fpId cand .notDeterminedYet [] (predsOf f bbId) =
      (dups, rel))
    (hne : ¬ dups = [])
    (hbb : f.findBlock bbId = some bb)
    (hfind : findInstFn f cand.id = some cand)
    (hd : ∀ d ∈ dups, ¬ d.id = cand.id ∧ ∀ dr, d.result = some dr →
      ¬ cand.result = some dr ∧ ¬ dr ∈ cand.operands ∧ ¬ dr ∈ 0 :: bb.args) :
    (sinkLoop (fuel + 1) f bbId fpId m stats ch pos budget =
      sinkLoop fuel (applySink f bbId fpId m cand dups rel) bbId fpId m
        (stats + ⟨dups.length, 0, 0⟩) true 0 budget) ∧
    (∃ b', (applySink f bbId fpId m cand dups rel).findBlock bbId = some b' ∧
      b'.args = bb.args ∧
      b'.insts.head? = some (if rel = .equalAfterMove
        then rewriteOperandsToArgs m fpId bb.args cand else cand)) ∧
    (∀ d ∈ dups, findInstFn (applySink f bbId fpId m cand dups rel) d.id = none) ∧
    (∀ d ∈ dups, ∀ dr, d.result = some dr →
      usesOf (applySink f bbId fpId m cand dups rel) dr = 0) := by
  have hIE : dups.isEmpty = false := by
    cases dups with
    | nil => exact absurd rfl hne
    | cons a b => rfl
  have hf1 : moveToBlockFront f cand.id bbId =
      consInsts (eraseInst f cand.id) bbId [cand] := by
    rw [moveToBlockFront, hfind]
  have hfb1 : (consInsts (eraseInst f cand.id) bbId [cand]).findBlock bbId =
      some { bb with
        insts := cand :: bb.insts.filter (fun i => ¬ i.id = cand.id) } := by
    unfold consInsts
    rw [findBlock_mapBlockById_self (eraseInst f cand.id) bbId
      (fun b => { b with insts := [cand] ++ b.insts }) (fun _ => rfl),
      findBlock_eraseInst, hbb]
    rfl
  have hd' : ∀ d ∈ dups, ¬ d.id = cand.id ∧ ∀ dr, d.result = some dr →
      ¬ dr ∈ cand.operands ∧ ¬ dr ∈ 0 :: bb.args := by
    intro d hdm
    obtain ⟨h1, h2⟩ := hd d hdm
    exact ⟨h1, fun dr hdr => ⟨(h2 dr hdr).2.1, (h2 dr hdr).2.2⟩⟩
  refine ⟨?_, ?_, ?_, ?_⟩
  · rw [sinkLoop_succ]
    simp only [hb, if_false, hfpb, hpos, hcand, hsink, if_true, hdups, hIE,
      Bool.false_eq_true]
  · by_cases hrel : rel = .equalAfterMove
    · subst hrel
      have hite : (if (OperandRelation.equalAfterMove) = .equalAfterMove
          then rewriteOperandsToArgs m fpId bb.args cand else cand) =
          rewriteOperandsToArgs m fpId bb.args cand := if_pos rfl
      rw [hite]
      have hAS : applySink f bbId fpId m cand dups .equalAfterMove =
          dups.foldl (fun fa d =>
            let fa' :=
              match d.result, cand.result with
              | some r, some r' => replaceAllUses fa r r'
              | _, _ => fa
            eraseInst fa' d.id)
            (mapInstById (consInsts (eraseInst f cand.id) bbId [cand]) cand.id
              (rewriteOperandsToArgs m fpId bb.args)) := by
        simp only [applySink]
        rw [hf1, hfb1]
        rfl
      rw [hAS]
      have hops : ∀ x ∈ (rewriteOperandsToArgs m fpId bb.args cand).operands,
          x ∈ cand.operands ∨ x ∈ 0 :: bb.args := by
        intro x hx
        simp only [rewriteOperandsToArgs, List.mem_map] at hx
        obtain ⟨op, _, rfl⟩ := hx
        exact Or.inr (getD_mem_cons _ _)
      have hinitP : ∃ b',
          (mapInstById (consInsts (eraseInst f cand.id) bbId [cand]) cand.id
            (rewriteOperandsToArgs m fpId bb.args)).findBlock bbId = some b' ∧
          b'.args = bb.args ∧
          b'.insts.head? = some (rewriteOperandsToArgs m fpId bb.args cand) := by
        rw [findBlock_mapInstById, hfb1]
        refine ⟨_, rfl, rfl, ?_⟩
        show ((cand :: bb.insts.filter (fun i => ¬ i.id = cand.id)).map
          (fun i => if i.id = cand.id then rewriteOperandsToArgs m fpId bb.args i
            else i)).head? = some (rewriteOperandsToArgs m fpId bb.args cand)
        rw [List.map_cons]
        simp
      exact sinkFold_head cand (rewriteOperandsToArgs m fpId bb.args cand)
        bbId bb.args rfl hops dups _ hd' hinitP
    · have hite : (if rel = .equalAfterMove
          then rewriteOperandsToArgs m fpId bb.args cand else cand) = cand :=
        if_neg hrel
      rw [hite]
      have hAS : applySink f bbId fpId m cand dups rel =
          dups.foldl (fun fa d =>
            let fa' :=
              match d.result, cand.result with
              | some r, some r' => replaceAllUses fa r r'
              | _, _ => fa
            eraseInst fa' d.id)
            (consInsts (eraseInst f cand.id) bbId [cand]) := by
        simp only [applySink]
        rw [hf1, if_neg hrel]
      rw [hAS]
      exact sinkFold_head cand cand bbId bb.args rfl
        (fun x hx => Or.inl hx) dups _ hd' ⟨_, hfb1, rfl, rfl⟩
  · intro d hdm
    exact sinkFold_erased cand dups _ d hdm
  · intro d hdm dr hdr
    obtain ⟨hdid, hdres⟩ := hd d hdm
    obtain ⟨hncr, hnop, hnargs⟩ := hdres dr hdr
    have hcanS : canSinkInstruction f d = true :=
      findDupsLoop_canSink f m fpId cand (predsOf f bbId) .notDeterminedYet []
        dups rel (fun q hq => absurd hq (List.not_mem_nil q)) hdups d hdm
    have hz : usesOf f dr = 0 := canSink_result_zero f d dr hdr hcanS
    have hz1 : ¬ dr ∈ (consInsts (eraseInst f cand.id) bbId [cand]).usedValues := by
      intro hm
      rcases mem_usedValues_consInsts (eraseInst f cand.id) bbId [cand] dr hm
        with hh | hh
      · exact (usesOf_zero_iff f dr).mp hz (mem_usedValues_eraseInst f cand.id dr hh)
      · apply hnop
        simpa using hh
    have hall : ∀ q ∈ dups, ∀ dq, q.result = some dq → ¬ cand.result = some dq :=
      fun q hq dq hdq => ((hd q hq).2 dq hdq).1
    by_cases hrel : rel = .equalAfterMove
    · subst hrel
      have hAS : applySink f bbId fpId m cand dups .equalAfterMove =
          dups.foldl (fun fa d =>
            let fa' :=
              match d.result, cand.result with
              | some r, some r' => replaceAllUses fa r r'
              | _, _ => fa
            eraseInst fa' d.id)
            (mapInstById (consInsts (eraseInst f cand.id) bbId [cand]) cand.id
              (rewriteOperandsToArgs m fpId bb.args)) := by
        simp only [applySink]
        rw [hf1, hfb1]
        rfl
      rw [hAS]
      refine sinkFold_uses cand dups _ hall d hdm dr hdr ?_
      rw [usesOf_zero_iff]
      intro hm
      rcases mem_usedValues_mapInstById (consInsts (eraseInst f cand.id) bbId [cand])
          cand.id (rewriteOperandsToArgs m fpId bb.args) dr hm with hh | hh
      · exact hz1 hh
      · obtain ⟨i0, hi0⟩ := hh
        exact hnargs (rewriteOperands_sub m fpId bb.args i0 dr hi0)
    · have hAS : applySink f bbId fpId m cand dups rel =
          dups.foldl (fun fa d =>
            let fa' :=
              match d.result, cand.result with
              | some r, some r' => replaceAllUses fa r r'
              | _, _ => fa
            eraseInst fa' d.id)
            (consInsts (eraseInst f cand.id) bbId [cand]) := by
        simp only [applySink]
        rw [hf1, if_neg hrel]
      rw [hAS]
      exact sinkFold_uses cand dups _ hall d hdm dr hdr
        ((usesOf_zero_iff _ dr).mpr hz1)

theorem sink_success_step_witness :
    (sinkLoop (0 + 1) sinkFixFn 3 1 (buildValueToArgIdxMap sinkFixFn 3) Stats.zero
        false 1 6 =
      sinkLoop 0 (applySink sinkFixFn 3 1 (buildValueToArgIdxMap sinkFixFn 3)
          sinkCand [sinkDup] .equalAfterMove) 3 1
        (buildValueToArgIdxMap sinkFixFn 3) (Stats.zero + ⟨1, 0, 0⟩) true 0 6) ∧
    (∃ b', (applySink sinkFixFn 3 1 (buildValueToArgIdxMap sinkFixFn 3)
        sinkCand [sinkDup] .equalAfterMove).findBlock 3 = some b' ∧
      b'.args = [70, 71] ∧
      b'.insts.head? = some ⟨10, .structCtor 0, [70, 71], some 60⟩) ∧
    (∀ d ∈ [sinkDup], findInstFn (applySink sinkFixFn 3 1
      (buildValueToArgIdxMap sinkFixFn 3) sinkCand [sinkDup] .equalAfterMove)
      d.id = none) ∧
    (∀ d ∈ [sinkDup], ∀ dr, d.result = some dr →
      usesOf (applySink sinkFixFn 3 1 (buildValueToArgIdxMap sinkFixFn 3)
        sinkCand [sinkDup] .equalAfterMove) dr = 0) :=
  sink_success_step 0 sinkFixFn 3 1 (buildValueToArgIdxMap sinkFixFn 3) Stats.zero
    false 1 6 sinkFP sinkCand [sinkDup] .equalAfterMove sinkBB
    (by decide) (by decide) (by decide) (by decide) (by decide) (by decide)
    (by decide) (by decide) (by decide)
    (by
      intro d hdm
      have hd2 : d = sinkDup := by simpa using hdm
      subst hd2
      refine ⟨by decide, ?_⟩
      intro dr hdr
      have h61 : dr = 61 := by
        have h0 : some (61 : Nat) = some dr := hdr
        exact (Option.some_inj.mp h0).symm
      subst h61
      exact ⟨by decide, by decide, by decide⟩)

theorem sinkLoopPositions_fst (fuel : Nat) :
    ∀ (f : Fn) (bbId fpId : Nat) (m : ValueToBBArgIdxMap) (stats : Stats)
      (ch : Bool) (pos budget : Nat) (trace : List Nat),
    (sinkLoopPositions fuel f bbId fpId m stats ch pos budget trace).1 =
      sinkLoop fuel f bbId fpId m stats ch pos budget := by
  induction fuel with
  | zero => intro f bbId fpId m stats ch pos budget trace; rfl
  | succ n ih =>
    intro f bbId fpId m stats ch pos budget trace
    rw [sinkLoopPositions, sinkLoop]
    by_cases hb : budget = 0
    · simp [hb]
    · simp only [hb, if_false]
      cases hfb : f.findBlock fpId with
      | none => rfl
      | some fp =>
        by_cases hp : pos = 0
        · simp only [hp, if_pos rfl]
          by_cases he : fp.insts.isEmpty
          · simp [he]
          · simp only [he, Bool.false_eq_true, if_false]
            exact ih f bbId fpId m stats ch 1 (budget - 1) (trace ++ [0])
        · simp only [hp, if_false]
          cases hc : fp.insts.reverse.get? (pos - 1) with
          | none => rfl
          | some cand =>
            cases hs : (if canSinkInstruction f cand then
                (match findDupsLoop f m fpId cand .notDeterminedYet []
                    (predsOf f bbId) with
                 | (dups, rel) =>
                   if dups.isEmpty then none else some (dups, rel))
              else none : Option (List Inst × OperandRelation)) with
            | none =>
              simp only [hs]
              by_cases hbar : isSinkBarrier cand
              · simp [hbar]
              · simp only [hbar, Bool.false_eq_true, if_false]
                by_cases hl : pos = fp.insts.length
                · simp [hl]
                · simp only [hl, if_false]
                  exact ih f bbId fpId m stats ch (pos + 1) (budget - 1)
                    (trace ++ [pos])
            | some pr =>
              obtain ⟨dups, rel⟩ := pr
              simp only [hs]
              exact ih (applySink f bbId fpId m cand dups rel) bbId fpId m
                (stats + ⟨dups.length, 0, 0⟩) true 0 budget (trace ++ [pos])

theorem sinkLoopPositions_trace_bound (fuel : Nat) :
    ∀ (f : Fn) (bbId fpId : Nat) (m : ValueToBBArgIdxMap) (stats : Stats)
      (ch : Bool) (pos budget : Nat) (trace : List Nat),
    pos + budget ≤ SinkSearchWindow →
    (∀ p ∈ trace, p < SinkSearchWindow) →
    ∀ p ∈ (sinkLoopPositions fuel f bbId fpId m stats ch pos budget trace).2,
      p < SinkSearchWindow := by
  induction fuel with
  | zero => intro f bbId fpId m stats ch pos budget trace hpb htr; exact htr
  | succ n ih =>
    intro f bbId fpId m stats ch pos budget trace hpb htr
    rw [sinkLoopPositions]
    by_cases hb : budget = 0
    · simp only [hb, if_pos rfl]
      exact htr
    · simp only [hb, if_false]
      have hposw : pos < SinkSearchWindow := by omega
      have htr' : ∀ p ∈ trace ++ [pos], p < SinkSearchWindow := by
        intro p hp
        rcases List.mem_append.mp hp with h | h
        · exact htr p h
        · have : p = pos := by simpa using h
          rw [this]; exact hposw
      cases hfb : f.findBlock fpId with
      | none => exact htr
      | some fp =>
        by_cases hp : pos = 0
        · simp only [hp, if_pos rfl]
          by_cases he : fp.insts.isEmpty
          · simp only [he, if_pos rfl]
            intro p hp2
            exact htr' p (by simpa [hp] using hp2)
          · simp only [he, Bool.false_eq_true, if_false]
            refine ih f bbId fpId m stats ch 1 (budget - 1) (trace ++ [0])
              (by omega) ?_
            intro p hp2
            exact htr' p (by simpa [hp] using hp2)
        · simp only [hp, if_false]
          cases hc : fp.insts.reverse.get? (pos - 1) with
          | none => exact htr'
          | some cand =>
            cases hs : (if canSinkInstruction f cand then
                (match findDupsLoop f m fpId cand .notDeterminedYet []
                    (predsOf f bbId) with
                 | (dups, rel) =>
                   if dups.isEmpty then none else some (dups, rel))
              else none : Option (List Inst × OperandRelation)) with
            | none =>
              simp only [hs]
              by_cases hbar : isSinkBarrier cand
              · simp only [hbar, if_pos rfl]
                exact htr'
              · simp only [hbar, Bool.false_eq_true, if_false]
                by_cases hl : pos = fp.insts.length
                · simp only [hl, if_pos rfl]
                  intro p hp2
                  exact htr' p (by simpa [hl] using hp2)
                · simp only [hl, if_false]
                  exact ih f bbId fpId m stats ch (pos + 1) (budget - 1)
                    (trace ++ [pos]) (by omega) htr'
            | some pr =>
              obtain ⟨dups, rel⟩ := pr
              simp only [hs]
              exact ih (applySink f bbId fpId m cand dups rel) bbId fpId m
                (stats + ⟨dups.length, 0, 0⟩) true 0 budget (trace ++ [pos])
                (by omega) htr'

theorem findIdentLoop_mem_bound (f : Fn) (m : ValueToBBArgIdxMap)
    (idenBlock scanBlock : Nat) (iden : Inst) :
    ∀ (budget : Nat) (l : List Inst) (rel : OperandRelation) (dup : Inst)
      (rel' : OperandRelation),
    findIdentLoop f m idenBlock scanBlock iden rel budget l = (some dup, rel') →
    ∃ k, k < budget ∧ l.get? k = some dup := by
  intro budget
  induction budget with
  | zero =>
    intro l rel dup rel' h
    rw [findIdentLoop] at h
    simp at h
  | succ b ih =>
    intro l rel dup rel' h
    cases l with
    | nil =>
      have hq : findIdentLoop f m idenBlock scanBlock iden rel (b + 1) [] =
          (none, rel) := rfl
      rw [hq] at h
      simp at h
    | cons x rest =>
      rw [findIdentLoop] at h
      rcases he : (if canSinkInstruction f x then
          isIdenticalToWith m idenBlock scanBlock rel iden x
        else (false, rel)) with ⟨ok, rel2⟩
      rw [he] at h
      cases ok with
      | true =>
        simp only [if_pos rfl] at h
        obtain ⟨hx, _⟩ := Prod.mk.injEq .. ▸ h
        exact ⟨0, Nat.succ_pos b, by rw [List.get?_cons_zero, hx]⟩
      | false =>
        simp only [Bool.false_eq_true, if_false] at h
        by_cases hbar : isSinkBarrier x
        · simp [hbar] at h
        · simp only [hbar, Bool.false_eq_true, if_false] at h
          by_cases hre : rest.isEmpty
          · simp [hre] at h
          · simp only [hre, Bool.false_eq_true, if_false] at h
            obtain ⟨k, hk, hget⟩ := ih rest rel2 dup rel' h
            exact ⟨k + 1, by omega, by simpa using hget⟩

/-- C9: In a single invocation of the backward scans, the sink-search
window of 6 bounds everything inspected: a match returned by
findIdenticalInBlock lies strictly within 6 positions back from the
scanned block's terminator (the terminator being position 0), and the
candidate scan of sinkCodeFromPredecessors — including its restarts after
a successful sink, which keep the remaining budget — only visits positions
strictly below SinkSearchWindow backward from the first predecessor's
terminator, as recorded by the instrumented scan, whose computation equals
the real one. -/
theorem scan_window_bound (f : Fn) (scan : Block) (iden : Inst)
    (idenBlock : Nat) (m : ValueToBBArgIdxMap) (rel rel' : OperandRelation)
    (dup : Inst) (fuel : Nat) (g : Fn) (bbId fpId : Nat)
    (m2 : ValueToBBArgIdxMap) (stats : Stats) (ch : Bool)
    (hmatch : findIdenticalInBlock f scan iden idenBlock m rel =
      (some dup, rel')) :
    (∃ k, k + 1 < SinkSearchWindow ∧ scan.insts.reverse.get? k = some dup) ∧
    ((sinkLoopPositions fuel g bbId fpId m2 stats ch 0 SinkSearchWindow []).1 =
      sinkLoop fuel g bbId fpId m2 stats ch 0 SinkSearchWindow) ∧
    (∀ p ∈ (sinkLoopPositions fuel g bbId fpId m2 stats ch 0
        SinkSearchWindow []).2, p < SinkSearchWindow) := by
  refine ⟨?_,
    sinkLoopPositions_fst fuel g bbId fpId m2 stats ch 0 SinkSearchWindow [],
    sinkLoopPositions_trace_bound fuel g bbId fpId m2 stats ch 0
      SinkSearchWindow [] (by decide)
      (fun p hp => absurd hp (List.not_mem_nil p))⟩
  rw [findIdenticalInBlock] at hmatch
  by_cases he : scan.insts.isEmpty
  · rw [if_pos he] at hmatch
    simp at hmatch
  · rw [if_neg he] at hmatch
    obtain ⟨k, hk, hget⟩ := findIdentLoop_mem_bound f m idenBlock scan.id iden
      (SinkSearchWindow - 1) scan.insts.reverse rel dup rel' hmatch
    refine ⟨k, ?_, hget⟩
    have hW : SinkSearchWindow = 6 := rfl
    rw [hW] at hk ⊢
    omega

theorem scan_window_bound_witness :
    (∃ k, k + 1 < SinkSearchWindow ∧
      ((⟨2, [], [sinkDup], .branch 3 [50, 51]⟩ : Block).insts.reverse.get? k =
        some sinkDup)) ∧
    ((sinkLoopPositions 9 sinkFixFn 3 1 (buildValueToArgIdxMap sinkFixFn 3)
        Stats.zero false 0 SinkSearchWindow []).1 =
      sinkLoop 9 sinkFixFn 3 1 (buildValueToArgIdxMap sinkFixFn 3)
        Stats.zero false 0 SinkSearchWindow) ∧
    (∀ p ∈ (sinkLoopPositions 9 sinkFixFn 3 1 (buildValueToArgIdxMap sinkFixFn 3)
        Stats.zero false 0 SinkSearchWindow []).2, p < SinkSearchWindow) :=
  scan_window_bound sinkFixFn ⟨2, [], [sinkDup], .branch 3 [50, 51]⟩ sinkCand 1
    (buildValueToArgIdxMap sinkFixFn 3) .notDeterminedYet .equalAfterMove sinkDup
    9 sinkFixFn 3 1 (buildValueToArgIdxMap sinkFixFn 3) Stats.zero false
    (by decide)

/-! ## Atomicity of the bail-out paths across the pass's transforms -/

theorem foldl_flag_pres {α β : Type} (fn : β → Fn) (flag : β → Bool)
    (step : β → α → β)
    (hstep : ∀ a x, flag (step a x) = false → fn (step a x) = fn a ∧ flag a = false) :
    ∀ (l : List α) (a : β), flag (l.foldl step a) = false →
      fn (l.foldl step a) = fn a ∧ flag a = false := by
  intro l
  induction l with
  | nil => intro a h; exact ⟨rfl, h⟩
  | cons x t ih =>
    intro a h
    rw [List.foldl_cons] at h ⊢
    obtain ⟨h1, h2⟩ := ih (step a x) h
    obtain ⟨h3, h4⟩ := hstep a x h2
    exact ⟨h1.trans h3, h4⟩

theorem tryToSinkRest_disj (aa : AA) (trap : Nat → Bool) (f : Fn) (bbId : Nat)
    (i : Inst) (canS : Bool) (fresh : Nat) :
    tryToSinkRest aa trap f bbId i canS fresh = (f, fresh, Stats.zero, false) ∨
    (tryToSinkRest aa trap f bbId i canS fresh).2.2.2 = true := by
  unfold tryToSinkRest
  dsimp only
  repeat' split
  all_goals first
  | exact Or.inl rfl
  | exact Or.inr rfl

theorem tryToSinkRest_bail (aa : AA) (trap : Nat → Bool) (f : Fn) (bbId : Nat)
    (i : Inst) (canS : Bool) (fresh : Nat)
    (h : (tryToSinkRest aa trap f bbId i canS fresh).2.2.2 = false) :
    (tryToSinkRest aa trap f bbId i canS fresh).1 = f := by
  rcases tryToSinkRest_disj aa trap f bbId i canS fresh with hd | ht
  · rw [hd]
  · rw [h] at ht
    cases ht

theorem sinkArgument_disj (tyOf : Value → Ty) (f : Fn) (bbId argNum fresh : Nat) :
    sinkArgument tyOf f bbId argNum fresh = (f, fresh, false) ∨
    (sinkArgument tyOf f bbId argNum fresh).2.2 = true := by
  unfold sinkArgument
  dsimp only
  repeat' split
  all_goals first
  | exact Or.inl rfl
  | exact Or.inr rfl

theorem sinkArgument_bail (tyOf : Value → Ty) (f : Fn) (bbId argNum fresh : Nat)
    (h : (sinkArgument tyOf f bbId argNum fresh).2.2 = false) :
    (sinkArgument tyOf f bbId argNum fresh).1 = f := by
  rcases sinkArgument_disj tyOf f bbId argNum fresh with hd | ht
  · rw [hd]
  · rw [h] at ht
    cases ht

theorem sinkLiteralArguments_disj (f : Fn) (bbId argNum fresh : Nat) :
    sinkLiteralArguments f bbId argNum fresh = (f, fresh, false) ∨
    (sinkLiteralArguments f bbId argNum fresh).2.2 = true := by
  unfold sinkLiteralArguments
  dsimp only
  repeat' split
  all_goals first
  | exact Or.inl rfl
  | exact Or.inr rfl

theorem sinkLiteralArguments_bail (f : Fn) (bbId argNum fresh : Nat)
    (h : (sinkLiteralArguments f bbId argNum fresh).2.2 = false) :
    (sinkLiteralArguments f bbId argNum fresh).1 = f := by
  rcases sinkLiteralArguments_disj f bbId argNum fresh with hd | ht
  · rw [hd]
  · rw [h] at ht
    cases ht

theorem canonicalizeStep_hstep (tyOf : Value → Ty) (bid : Nat) (fa : Fn)
    (ca : Bool) (iid : Nat) (res : Fn × Bool)
    (h : (match findInstInBlock fa bid iid with
      | none => (fa, ca)
      | some i =>
        if i.opcode = .strongRetain ∨ i.opcode = .strongRelease then
          let r := i.operands.getD 0 0
          let root := findValueShallowRoot fa tyOf r
          if ¬ r = root then (setInstOperand fa iid 0 root, true) else (fa, ca)
        else (fa, ca)) = res) :
    res.2 = false → res.1 = fa ∧ ca = false := by
  rw [← h]
  dsimp only
  repeat' split
  all_goals intro hf
  all_goals first
  | exact ⟨rfl, hf⟩
  | (exact absurd hf (by simp))

theorem canonicalizeRefCountInstrs_bail (tyOf : Value → Ty) (f : Fn) (bid : Nat)
    (h : (canonicalizeRefCountInstrs tyOf f bid).2 = false) :
    (canonicalizeRefCountInstrs tyOf f bid).1 = f := by
  unfold canonicalizeRefCountInstrs at h ⊢
  cases hb : f.findBlock bid with
  | none => rfl
  | some blk =>
    simp only [hb] at h
    refine (foldl_flag_pres (fun (a : Fn × Bool) => a.1)
      (fun (a : Fn × Bool) => a.2) _ ?_ _ _ h).1
    intro a x hfl
    obtain ⟨fa, ca⟩ := a
    exact canonicalizeStep_hstep tyOf bid fa ca x _ rfl hfl

theorem sinkLoop_flag_mono (fuel : Nat) :
    ∀ (f : Fn) (bbId fpId : Nat) (m : ValueToBBArgIdxMap) (stats : Stats)
      (pos budget : Nat),
    (sinkLoop fuel f bbId fpId m stats true pos budget).2.2 = true := by
  induction fuel with
  | zero => intro f bbId fpId m stats pos budget; rfl
  | succ n ih =>
    intro f bbId fpId m stats pos budget
    rw [sinkLoop_succ]
    by_cases hb : budget = 0
    · simp [hb]
    · simp only [hb, if_false]
      cases hfb : f.findBlock fpId with
      | none => rfl
      | some fp =>
        by_cases hp : pos = 0
        · simp only [hp, if_pos rfl]
          by_cases he : fp.insts.isEmpty
          · simp [he]
          · simp only [he, Bool.false_eq_true, if_false]
            exact ih f bbId fpId m stats 1 (budget - 1)
        · simp only [hp, if_false]
          cases hc : fp.insts.reverse.get? (pos - 1) with
          | none => rfl
          | some cand =>
            cases hs : (if canSinkInstruction f cand then
                (match findDupsLoop f m fpId cand .notDeterminedYet []
                    (predsOf f bbId) with
                 | (dups, rel) =>
                   if dups.isEmpty then none else some (dups, rel))
              else none : Option (List Inst × OperandRelation)) with
            | none =>
              simp only [hs]
              by_cases hbar : isSinkBarrier cand
              · simp [hbar]
              · simp only [hbar, Bool.false_eq_true, if_false]
                by_cases hl : pos = fp.insts.length
                · simp [hl]
                · simp only [hl, if_false]
                  exact ih f bbId fpId m stats (pos + 1) (budget - 1)
            | some pr =>
              obtain ⟨dups, rel⟩ := pr
              simp only [hs]
              exact ih (applySink f bbId fpId m cand dups rel) bbId fpId m
                (stats + ⟨dups.length, 0, 0⟩) 0 budget

theorem sinkLoop_false (fuel : Nat) :
    ∀ (f : Fn) (bbId fpId : Nat) (m : ValueToBBArgIdxMap) (stats : Stats)
      (ch : Bool) (pos budget : Nat),
    (sinkLoop fuel f bbId fpId m stats ch pos budget).2.2 = false →
    (sinkLoop fuel f bbId fpId m stats ch pos budget).1 = f := by
  induction fuel with
  | zero => intro f bbId fpId m stats ch pos budget _; rfl
  | succ n ih =>
    intro f bbId fpId m stats ch pos budget h
    rw [sinkLoop_succ] at h ⊢
    by_cases hb : budget = 0
    · simp [hb]
    · simp only [hb, if_false] at h ⊢
      cases hfb : f.findBlock fpId with
      | none => rfl
      | some fp =>
        simp only [hfb] at h
        by_cases hp : pos = 0
        · simp only [hp, if_pos rfl] at h ⊢
          by_cases he : fp.insts.isEmpty
          · simp [he]
          · simp only [he, Bool.false_eq_true, if_false] at h ⊢
            exact ih f bbId fpId m stats ch 1 (budget - 1) h
        · simp only [hp, if_false] at h ⊢
          cases hc : fp.insts.reverse.get? (pos - 1) with
          | none => rfl
          | some cand =>
            simp only [hc] at h
            cases hs : (if canSinkInstruction f cand then
                (match findDupsLoop f m fpId cand .notDeterminedYet []
                    (predsOf f bbId) with
                 | (dups, rel) =>
                   if dups.isEmpty then none else some (dups, rel))
              else none : Option (List Inst × OperandRelation)) with
            | none =>
              simp only [hs] at h ⊢
              by_cases hbar : isSinkBarrier cand
              · simp [hbar]
              · simp only [hbar, Bool.false_eq_true, if_false] at h ⊢
                by_cases hl : pos = fp.insts.length
                · simp [hl]
                · simp only [hl, if_false] at h ⊢
                  exact ih f bbId fpId m stats ch (pos + 1) (budget - 1) h
            | some pr =>
              obtain ⟨dups, rel⟩ := pr
              simp only [hs] at h
              exfalso
              rw [sinkLoop_flag_mono n] at h
              cases h

theorem sinkCodeFromPredecessors_bail (f : Fn) (bbId : Nat)
    (h : (sinkCodeFromPredecessors f bbId).2.2 = false) :
    (sinkCodeFromPredecessors f bbId).1 = f := by
  rcases hp : predsOf f bbId with _ | ⟨fp, rest⟩
  · simp [sinkCodeFromPredecessors, hp]
  · by_cases hall : (fp :: rest).all (fun p => singleSuccOf f p = some bbId)
    · simp only [sinkCodeFromPredecessors, hp, hall, if_true] at h ⊢
      cases hfb : f.findBlock fp with
      | none => rfl
      | some fpb =>
        simp only [hfb] at h
        by_cases he : fpb.insts.isEmpty
        · simp [he]
        · simp only [he, Bool.false_eq_true, if_false] at h ⊢
          exact sinkLoop_false _ f bbId fp _ Stats.zero false 0 SinkSearchWindow h
    · simp [sinkCodeFromPredecessors, hp, hall]

theorem sinkArgStep_hstep (tyOf : Value → Ty) (bbId : Nat) (fa : Fn) (fra : Nat)
    (ca : Bool) (x : Nat) (res : Fn × Nat × Bool)
    (h : (match sinkArgument tyOf fa bbId x fra with
          | (f', fresh', ch') => (f', fresh', ca || ch')) = res) :
    res.2.2 = false → res.1 = fa ∧ ca = false := by
  rw [← h]
  rcases hsa : sinkArgument tyOf fa bbId x fra with ⟨f', fresh', ch'⟩
  intro hf
  have hf' : (ca || ch') = false := hf
  have hca : ca = false := by
    cases ca
    · rfl
    · simp at hf'
  have hch : ch' = false := by
    cases ch'
    · rfl
    · rw [Bool.or_true] at hf'
      cases hf'
  refine ⟨?_, hca⟩
  show f' = fa
  rcases sinkArgument_disj tyOf fa bbId x fra with hd | ht
  · rw [hsa] at hd
    have h1 := congrArg Prod.fst hd
    simpa using h1
  · rw [hsa] at ht
    have ht' : ch' = true := ht
    rw [hch] at ht'
    cases ht'

theorem sinkLitStep_hstep (bbId : Nat) (fa : Fn) (fra : Nat)
    (ca : Bool) (x : Nat) (res : Fn × Nat × Bool)
    (h : (match sinkLiteralArguments fa bbId x fra with
          | (f', fresh', ch') => (f', fresh', ca || ch')) = res) :
    res.2.2 = false → res.1 = fa ∧ ca = false := by
  rw [← h]
  rcases hsa : sinkLiteralArguments fa bbId x fra with ⟨f', fresh', ch'⟩
  intro hf
  have hf' : (ca || ch') = false := hf
  have hca : ca = false := by
    cases ca
    · rfl
    · simp at hf'
  have hch : ch' = false := by
    cases ch'
    · rfl
    · rw [Bool.or_true] at hf'
      cases hf'
  refine ⟨?_, hca⟩
  show f' = fa
  rcases sinkLiteralArguments_disj fa bbId x fra with hd | ht
  · rw [hsa] at hd
    have h1 := congrArg Prod.fst hd
    simpa using h1
  · rw [hsa] at ht
    have ht' : ch' = true := ht
    rw [hch] at ht'
    cases ht'

theorem sinkArgumentsFromPredecessors_bail (tyOf : Value → Ty) (f : Fn)
    (bbId fresh : Nat)
    (h : (sinkArgumentsFromPredecessors tyOf f bbId fresh).2.2 = false) :
    (sinkArgumentsFromPredecessors tyOf f bbId fresh).1 = f := by
  rcases hp : predsOf f bbId with _ | ⟨p1, _ | ⟨p2, t2⟩⟩
  · simp [sinkArgumentsFromPredecessors, hp]
  · simp [sinkArgumentsFromPredecessors, hp]
  · by_cases hall : (p1 :: p2 :: t2).all (fun p => singleSuccOf f p = some bbId)
    · simp only [sinkArgumentsFromPredecessors, hp, hall, if_true] at h ⊢
      refine (foldl_flag_pres (fun (a : Fn × Nat × Bool) => a.1)
        (fun (a : Fn × Nat × Bool) => a.2.2) _ ?_ _ _ h).1
      intro a x hfl
      obtain ⟨fa, fra, ca⟩ := a
      exact sinkArgStep_hstep tyOf bbId fa fra ca x _ rfl hfl
    · simp [sinkArgumentsFromPredecessors, hp, hall]

theorem sinkLiteralsFromPredecessors_bail (f : Fn) (bbId fresh : Nat)
    (h : (sinkLiteralsFromPredecessors f bbId fresh).2.2 = false) :
    (sinkLiteralsFromPredecessors f bbId fresh).1 = f := by
  rcases hp : predsOf f bbId with _ | ⟨p1, _ | ⟨p2, t2⟩⟩
  · simp [sinkLiteralsFromPredecessors, hp]
  · simp [sinkLiteralsFromPredecessors, hp]
  · simp only [sinkLiteralsFromPredecessors, hp] at h ⊢
    refine (foldl_flag_pres (fun (a : Fn × Nat × Bool) => a.1)
      (fun (a : Fn × Nat × Bool) => a.2.2) _ ?_ _ _ h).1
    intro a x hfl
    obtain ⟨fa, fra, ca⟩ := a
    exact sinkLitStep_hstep bbId fa fra ca x _ rfl hfl

theorem hoistDecStep_hstep (aa : AA) (bb numPreds : Nat)
    (etc : BlotMap Value EnumBBCaseList) (a : Fn × Nat × Stats × Bool) (x : Nat)
    (hf : (hoistDecStep aa bb numPreds etc a x).2.2.2 = false) :
    (hoistDecStep aa bb numPreds etc a x).1 = a.1 ∧ a.2.2.2 = false := by
  obtain ⟨fa, fra, sta, cha⟩ := a
  revert hf
  unfold hoistDecStep
  dsimp only
  repeat' split
  all_goals intro hf
  all_goals first
  | exact ⟨rfl, hf⟩
  | (exact absurd hf (by simp))

theorem hoistDecrementsIntoSwitchRegions_bail (s : BBState) (aa : AA) (f : Fn)
    (fresh : Nat)
    (h : (s.hoistDecrementsIntoSwitchRegions aa f fresh).2.2.2 = false) :
    (s.hoistDecrementsIntoSwitchRegions aa f fresh).1 = f := by
  unfold BBState.hoistDecrementsIntoSwitchRegions at h ⊢
  cases hfb : f.findBlock s.bb with
  | none => rfl
  | some blk =>
    simp only [hfb] at h
    refine (foldl_flag_pres (fun (a : Fn × Nat × Stats × Bool) => a.1)
      (fun (a : Fn × Nat × Stats × Bool) => a.2.2.2) _ ?_ _ _ h).1
    intro a x hfl
    exact hoistDecStep_hstep aa s.bb (predsOf f s.bb).length s.enumToCaseList a x hfl

theorem hoistPredStep_hstep (aa : AA) (rcia : RCIA) (bbId : Nat) (fa : Fn)
    (cua : List (Nat × Nat)) (fra : Nat) (cha : Bool) (x : Nat)
    (res : Fn × List (Nat × Nat) × Nat × Bool)
    (h : (match findInstInBlock fa bbId x with
      | none => (fa, cua, fra, cha)
      | some inst =>
        if ¬ (inst.opcode = .strongRelease ∨ inst.opcode = .releaseValue) then
          (fa, cua, fra, cha)
        else
          let ptr := inst.operands.getD 0 0
          if parentBlockOfValue fa ptr = some bbId then (fa, cua, fra, cha)
          else
            let range := match fa.findBlock bbId with
              | some b => beforeInst x b.insts
              | none => []
            if valueHasARCUsesInInstructionRange aa ptr range then (fa, cua, fra, cha)
            else if ¬ isRetainAvailableInSomeButNotAllPredecessors aa rcia fa ptr bbId cua
            then (fa, cua, fra, cha)
            else
              let (f', checkUpTo', fresh') := (predsOf fa bbId).foldl
                (fun (pa : Fn × List (Nat × Nat) × Nat) p =>
                  let (fp, cu, fr) := pa
                  let rel : Inst :=
                    ⟨fr, (if inst.opcode = .strongRelease then .strongRelease
                          else .releaseValue), [ptr], none⟩
                  let cu' := match lookupNat p cu with
                    | some _ => cu
                    | none => (p, fr) :: cu
                  (appendInsts fp p [rel], cu', fr + 1)) (fa, cua, fra)
              (eraseInst f' x, checkUpTo', fresh', true)) = res) :
    res.2.2.2 = false → res.1 = fa ∧ cha = false := by
  rw [← h]
  dsimp only
  repeat' split
  all_goals intro hf
  all_goals first
  | exact ⟨rfl, hf⟩
  | (exact absurd hf (by simp))

theorem hoistDecrementsToPredecessors_bail (aa : AA) (rcia : RCIA) (f : Fn)
    (bbId fresh : Nat)
    (h : (hoistDecrementsToPredecessors aa rcia f bbId fresh).2.2 = false) :
    (hoistDecrementsToPredecessors aa rcia f bbId fresh).1 = f := by
  by_cases h1 : (singlePredOf f bbId).isSome
  · simp [hoistDecrementsToPredecessors, h1]
  · cases hfb : f.findBlock bbId with
    | none => simp [hoistDecrementsToPredecessors, h1, hfb]
    | some blk =>
      by_cases h2 : (predsOf f bbId).all (fun p => (singleSuccOf f p).isSome)
      · simp only [hoistDecrementsToPredecessors, h1, hfb, h2, Bool.false_eq_true,
          if_false, if_true] at h ⊢
        refine (foldl_flag_pres (fun (a : Fn × List (Nat × Nat) × Nat × Bool) => a.1)
          (fun (a : Fn × List (Nat × Nat) × Nat × Bool) => a.2.2.2) _ ?_ _ _ h).1
        intro a x hfl
        obtain ⟨fa, cua, fra, cha⟩ := a
        exact hoistPredStep_hstep aa rcia bbId fa cua fra cha x _ rfl hfl
      · simp [hoistDecrementsToPredecessors, h1, hfb, h2]

theorem sinkIncStep_hstep (aa : AA) (rcia : RCIA) (bb numPreds : Nat)
    (fa : Fn) (fra : Nat) (sta : Stats) (cha : Bool)
    (slot : Option (Value × EnumBBCaseList)) (res : Fn × Nat × Stats × Bool)
    (h : (match slot with
      | none => (fa, fra, sta, cha)
      | some (v, l) =>
        let enumValue := rcia v
        if ¬ l.length = numPreds then (fa, fra, sta, cha)
        else
          match findRetainsSinkableFromSwitchRegionForEnum aa rcia fa enumValue [] l with
          | none => (fa, fra, sta, cha)
          | some [] => (fa, fra, sta, cha)
          | some dl =>
            let newRetain : Inst := ⟨fra, .retainValue, [enumValue], none⟩
            let f1 := consInsts fa bb [newRetain]
            let f2 := dl.foldl (fun fa i => eraseInst fa i.id) f1
            (f2, fra + 1, sta + ⟨1, 0, 0⟩, true)) = res) :
    res.2.2.2 = false → res.1 = fa ∧ cha = false := by
  rw [← h]
  dsimp only
  repeat' split
  all_goals intro hf
  all_goals first
  | exact ⟨rfl, hf⟩
  | (exact absurd hf (by simp))

theorem sinkIncrementsOutOfSwitchRegions_bail (s : BBState) (aa : AA)
    (rcia : RCIA) (f : Fn) (fresh : Nat)
    (h : (s.sinkIncrementsOutOfSwitchRegions aa rcia f fresh).2.2.2 = false) :
    (s.sinkIncrementsOutOfSwitchRegions aa rcia f fresh).1 = f := by
  unfold BBState.sinkIncrementsOutOfSwitchRegions at h ⊢
  refine (foldl_flag_pres (fun (a : Fn × Nat × Stats × Bool) => a.1)
    (fun (a : Fn × Nat × Stats × Bool) => a.2.2.2) _ ?_ _ _ h).1
  intro a x hfl
  obtain ⟨fa, fra, sta, cha⟩ := a
  exact sinkIncStep_hstep aa rcia s.bb (predsOf f s.bb).length fa fra sta cha x _ rfl hfl

/-- C6 (amended): every transform of the pass is atomic with respect to
bail-out — whenever a transform reports no change (returns false) the
function is exactly as it was when the transform was invoked — with a
single exception: when tryToSinkRefCountAcrossSelectEnum finds an
intervening ARC decrement or check, it moves the retain before that
instruction and still reports no change. -/
theorem bail_paths_of_cross_terminator_sinks :
    (∀ (aa : AA) (rcia : RCIA) (f : Fn) (bbId : Nat) (swOp : Value)
        (cases_ : List (EnumCase × Nat)) (dflt : Option Nat) (rv : Inst)
        (fresh : Nat),
      (tryToSinkRefCountAcrossSwitch aa rcia f bbId swOp cases_ dflt rv
        fresh).2.2.2 = false →
      (tryToSinkRefCountAcrossSwitch aa rcia f bbId swOp cases_ dflt rv
        fresh).1 = f) ∧
    (∀ (aa : AA) (rcia : RCIA) (tyOf : Value → Ty) (f : Fn) (bbId : Nat)
        (cond : Value) (tD fD : Nat) (i : Inst) (fresh : Nat),
      (tryToSinkRefCountAcrossSelectEnum aa rcia tyOf f bbId cond tD fD i
        fresh).2.2.2 = false →
      (tryToSinkRefCountAcrossSelectEnum aa rcia tyOf f bbId cond tD fD i
        fresh).1 = f ∨
      ∃ b, valueHasARCDecrementOrCheckInInstructionRange aa
            (i.operands.getD 0 0)
            (match f.findBlock bbId with
             | some blk => afterInst i.id blk.insts
             | none => []) = some b ∧
        (tryToSinkRefCountAcrossSelectEnum aa rcia tyOf f bbId cond tD fD i
          fresh).1 = moveInstBeforeInst f i.id b.id) ∧
    (∀ (aa : AA) (trap : Nat → Bool) (f : Fn) (bbId : Nat) (i : Inst)
        (canS : Bool) (fresh : Nat),
      (tryToSinkRest aa trap f bbId i canS fresh).2.2.2 = false →
      (tryToSinkRest aa trap f bbId i canS fresh).1 = f) ∧
    (∀ (tyOf : Value → Ty) (f : Fn) (bbId argNum fresh : Nat),
      (sinkArgument tyOf f bbId argNum fresh).2.2 = false →
      (sinkArgument tyOf f bbId argNum fresh).1 = f) ∧
    (∀ (f : Fn) (bbId argNum fresh : Nat),
      (sinkLiteralArguments f bbId argNum fresh).2.2 = false →
      (sinkLiteralArguments f bbId argNum fresh).1 = f) ∧
    (∀ (tyOf : Value → Ty) (f : Fn) (bbId fresh : Nat),
      (sinkArgumentsFromPredecessors tyOf f bbId fresh).2.2 = false →
      (sinkArgumentsFromPredecessors tyOf f bbId fresh).1 = f) ∧
    (∀ (f : Fn) (bbId fresh : Nat),
      (sinkLiteralsFromPredecessors f bbId fresh).2.2 = false →
      (sinkLiteralsFromPredecessors f bbId fresh).1 = f) ∧
    (∀ (f : Fn) (bbId : Nat),
      (sinkCodeFromPredecessors f bbId).2.2 = false →
      (sinkCodeFromPredecessors f bbId).1 = f) ∧
    (∀ (tyOf : Value → Ty) (f : Fn) (bid : Nat),
      (canonicalizeRefCountInstrs tyOf f bid).2 = false →
      (canonicalizeRefCountInstrs tyOf f bid).1 = f) ∧
    (∀ (aa : AA) (rcia : RCIA) (f : Fn) (bbId fresh : Nat),
      (hoistDecrementsToPredecessors aa rcia f bbId fresh).2.2 = false →
      (hoistDecrementsToPredecessors aa rcia f bbId fresh).1 = f) ∧
    (∀ (s : BBState) (aa : AA) (f : Fn) (fresh : Nat),
      (s.hoistDecrementsIntoSwitchRegions aa f fresh).2.2.2 = false →
      (s.hoistDecrementsIntoSwitchRegions aa f fresh).1 = f) ∧
    (∀ (s : BBState) (aa : AA) (rcia : RCIA) (f : Fn) (fresh : Nat),
      (s.sinkIncrementsOutOfSwitchRegions aa rcia f fresh).2.2.2 = false →
      (s.sinkIncrementsOutOfSwitchRegions aa rcia f fresh).1 = f) :=
  ⟨crossTerminatorSinks_bail.1, crossTerminatorSinks_bail.2,
   tryToSinkRest_bail, sinkArgument_bail, sinkLiteralArguments_bail,
   sinkArgumentsFromPredecessors_bail, sinkLiteralsFromPredecessors_bail,
   sinkCodeFromPredecessors_bail, canonicalizeRefCountInstrs_bail,
   hoistDecrementsToPredecessors_bail, hoistDecrementsIntoSwitchRegions_bail,
   sinkIncrementsOutOfSwitchRegions_bail⟩

/-- Witness for the amended C6 theorem: the switch-side bail on a
non-retain instruction leaves the function unchanged, applied at the
concrete select-enum fixture. -/
theorem bail_paths_witness :
    (tryToSinkRefCountAcrossSwitch aaNone id selectEnumFn 1 8 [] none
      ⟨33, .generic 1 false false, [], none⟩ 100).1 = selectEnumFn :=
  bail_paths_of_cross_terminator_sinks.1 aaNone id selectEnumFn 1 8 [] none
    ⟨33, .generic 1 false false, [], none⟩ 100 rfl

end SILCodeMotion

